import Mathlib

/-!
Verification development for `backend/segmentation.py`, a Supreme Court cause-list
case segmenter with three OCR-engine-specific pipelines (tesseract, azure, paddle).

Strings are modelled as `List Char` (`Str`).  Each Python function is translated
into an executable Lean definition of the same name.  The Python `re` patterns used
by the source are small enough that each one's greedy/backtracking behaviour is
deterministic "maximal munch" (whenever a greedy quantifier gives back characters,
the following mandatory atom can never match, except for the one case of
`\s+(?!No\.|...)` where giving back a single whitespace character makes the negative
lookahead succeed; that case is modelled explicitly).  Each regex is therefore
translated into a first-order scanning function, with the reasoning recorded in
comments next to the definition.

Python dicts (insertion-ordered, update-in-place) are modelled as association
lists (`CaseMap`) with `setK` updating an existing key in place and appending new
keys at the end.
-/

set_option maxRecDepth 20000

abbrev Str := List Char

/-- Python `\s` on the ASCII range (the inputs of interest are ASCII):
space, tab, newline, carriage return, vertical tab, form feed. -/
def pySpace (c : Char) : Bool :=
  c == ' ' || c == '\t' || c == '\n' || c == '\r' || c == '\x0b' || c == '\x0c'

def isDigitC (c : Char) : Bool := c.isDigit

def isUpperC (c : Char) : Bool := 'A' ≤ c && c ≤ 'Z'

/-- Python `\w` (ASCII model): letters, digits, underscore. -/
def isWordC (c : Char) : Bool :=
  ('a' ≤ c && c ≤ 'z') || ('A' ≤ c && c ≤ 'Z') || c.isDigit || c == '_'

/-- Python `str.lstrip()`. -/
def lstripS (s : Str) : Str := s.dropWhile pySpace

/-- Python `str.rstrip()`. -/
def rstripS (s : Str) : Str := (s.reverse.dropWhile pySpace).reverse

/-- Python `str.strip()`. -/
def stripS (s : Str) : Str := rstripS (lstripS s)

/-- `s.startswith(pat)` (argument order: subject, then pattern). -/
def startsWithS : Str → Str → Bool
  | _, [] => true
  | [], _ :: _ => false
  | c :: s, p :: ps => c == p && startsWithS s ps

/-- Python `text.split('\n')`: always at least one piece, empty pieces kept. -/
def splitLines : Str → List Str
  | [] => [[]]
  | '\n' :: t => [] :: splitLines t
  | c :: t =>
    match splitLines t with
    | [] => [[c]]
    | l :: ls => (c :: l) :: ls

/-- Python `'\n'.join(...)`. -/
def joinLines (ls : List Str) : Str := List.intercalate ['\n'] ls

def findSubGo (pat : Str) : Str → Nat → Option Nat
  | [], i => if startsWithS [] pat then some i else none
  | c :: t, i => if startsWithS (c :: t) pat then some i else findSubGo pat t (i + 1)

/-- Python `s.find(pat)`, with `none` for `-1`. -/
def findSub (s pat : Str) : Option Nat := findSubGo pat s 0

/-- `u` occurs as a contiguous substring of `v`. -/
def SubSeg (u v : Str) : Prop := ∃ p q, v = p ++ u ++ q

/-- Decimal digits of a natural number, least-significant last (fuel-based so that
it is structural recursion and reduces inside the kernel).  `natStr n` models
Python `str(n)` for a non-negative int. -/
def digitChar : Nat → Char
  | 0 => '0' | 1 => '1' | 2 => '2' | 3 => '3' | 4 => '4'
  | 5 => '5' | 6 => '6' | 7 => '7' | 8 => '8' | 9 => '9'
  | _ => '?'

def natStrAux : Nat → Nat → Str
  | 0, _ => []
  | fuel + 1, n => if n < 10 then [digitChar n] else natStrAux fuel (n / 10) ++ [digitChar (n % 10)]

def natStr (n : Nat) : Str := natStrAux (n + 1) n

/-- Python `int(s)` for a string of decimal digits. -/
def natOfDigits (s : Str) : Nat := s.foldl (fun a c => a * 10 + (c.toNat - 48)) 0

/-- `int(s.split('.')[0])` for a serial string such as `"10"` or `"10.2"`. -/
def strMainNat (s : Str) : Nat := natOfDigits (s.takeWhile (· != '.'))

/-! ### The output mapping (Python dict: insertion-ordered, update-in-place) -/

abbrev CaseMap := List (Str × Str)

def lookupM : CaseMap → Str → Option Str
  | [], _ => none
  | (k, v) :: t, key => if k = key then some v else lookupM t key

def setK : CaseMap → Str → Str → CaseMap
  | [], key, v => [(key, v)]
  | (k, w) :: t, key, v => if k = key then (k, v) :: t else (k, w) :: setK t key v

def keysOf (m : CaseMap) : List Str := m.map Prod.fst

def hasKey (m : CaseMap) (k : Str) : Bool := (lookupM m k).isSome

def getDM (m : CaseMap) (k : Str) : Str := (lookupM m k).getD []

/-! ### Tesseract helpers -/

def takeDigits (s : Str) : Str := s.takeWhile isDigitC

def dropDigits (s : Str) : Str := s.dropWhile isDigitC

/--
`_normalize_ocr_noise`: Python
`re.match(r'^(\s*)(\d{1,3}(?:\.\d+)?)(\.)?\s+([=]?\s*)(.*)', line)`;
on a match the line becomes `g1 + g2 + " " + g5` (the stray dot `g3` and the
`[=]?\s*` run `g4` are dropped).  Backtracking analysis: `\s*`/`\d{1,3}` are
disjoint classes so both are maximal-munch; a digit run longer than 3 makes the
whole match fail (whatever `\d{1,3}` keeps, the next character is a digit which
no later atom accepts); the optional `.digits` and the optional stray `.` are
taken greedily and if the mandatory `\s+` then fails no backtracked alternative
can succeed (the fallback position always starts with `.` or a digit).
`[=]?` and `\s*` are maximal since `(.*)` accepts everything up to a newline.
-/
def _normalize_ocr_noise (line : Str) : Str :=
  let w := line.takeWhile pySpace
  let r1 := line.dropWhile pySpace
  let d := takeDigits r1
  if d.isEmpty || decide (d.length > 3) then line else
  let r2 := dropDigits r1
  let hasSub : Bool := match r2 with
    | '.' :: c :: _ => isDigitC c
    | _ => false
  let sub : Str := if hasSub then '.' :: takeDigits r2.tail else []
  let r3 := if hasSub then dropDigits r2.tail else r2
  let r3' := match r3 with
    | '.' :: t => t
    | _ => r3
  let ws1 := r3'.takeWhile pySpace
  if ws1.isEmpty then line else
  let r4 := r3'.dropWhile pySpace
  let r5 := match r4 with
    | '=' :: t => t.dropWhile pySpace
    | _ => r4
  let g5 := r5.takeWhile (· != '\n')
  w ++ d ++ sub ++ ' ' :: g5

def headIsSpace : Str → Bool
  | c :: _ => pySpace c
  | [] => false

/-- `re.match(r'^(?:IA|No\.)\s', stripped)` as a Bool. -/
def iaNoFalseStart (s : Str) : Bool :=
  (startsWithS s "IA".data && headIsSpace (s.drop 2)) ||
  (startsWithS s "No.".data && headIsSpace (s.drop 3))

/--
`_is_genuine_inline_serial`: `re.match(r'^\d{1,3}(?:\.\d+)?\s+\S', stripped)`
and not `re.match(r'^(?:IA|No\.)\s', stripped)`.
-/
def _is_genuine_inline_serial (stripped : Str) : Bool :=
  let d := takeDigits stripped
  let ok1 : Bool :=
    if d.isEmpty || decide (d.length > 3) then false else
    let r2 := dropDigits stripped
    let r3 := match r2 with
      | '.' :: c :: _ => if isDigitC c then dropDigits r2.tail else r2
      | _ => r2
    let ws := r3.takeWhile pySpace
    !ws.isEmpty && !(r3.dropWhile pySpace).isEmpty
  ok1 && !iaNoFalseStart stripped

/--
Body of `_TESSERACT_SPLIT_RE`'s lookahead after the `(?:^|\n)` alternative:
`\s*\d{1,3}(?:\.\d+)?\s+(?!No\.|no\.|NO\.)[A-Z({\[]`.  Here a non-maximal `\s+`
leaves a whitespace character under the `[A-Z({\[]` class, so only the maximal
whitespace run can succeed, and the negative lookahead is tested exactly there.
-/
def tessSplitBody (l : Str) : Bool :=
  let l1 := l.dropWhile pySpace
  let d := takeDigits l1
  if d.isEmpty || decide (d.length > 3) then false else
  let l2 := dropDigits l1
  let l3 := match l2 with
    | '.' :: c :: _ => if isDigitC c then dropDigits l2.tail else l2
    | _ => l2
  let ws := l3.takeWhile pySpace
  if ws.isEmpty then false else
  match l3.dropWhile pySpace with
  | c :: t2 =>
    (isUpperC c || c == '(' || c == '{' || c == '[') &&
    !(startsWithS (c :: t2) "No.".data || startsWithS (c :: t2) "no.".data ||
      startsWithS (c :: t2) "NO.".data)
  | [] => false

/--
Zero-width match positions of `_TESSERACT_SPLIT_RE`
(`(?=(?:^|\n)\s*\d{1,3}(?:\.\d+)?\s+(?!No\.|no\.|NO\.)[A-Z({\[])` with
`re.MULTILINE`): position `i` matches when `i` is a line start and the body
matches there, or the character at `i` is a newline and the body matches just
after it.  `re.split` on a zero-width pattern cuts the text at every matching
position (Python ≥ 3.7 splits on adjacent empty matches as well).
-/
def tessSplitPoints : Str → Bool → Nat → List Nat
  | [], _, _ => []
  | c :: t, atStart, i =>
    let here := (atStart && tessSplitBody (c :: t)) || (c == '\n' && tessSplitBody t)
    (if here then [i] else []) ++ tessSplitPoints t (c == '\n') (i + 1)

/-- Cut a string at an ascending list of absolute positions (`base` = position of
the head of `s` in the original string). -/
def cutAtAux : Str → Nat → List Nat → List Str
  | s, _, [] => [s]
  | s, base, p :: ps => s.take (p - base) :: cutAtAux (s.drop (p - base)) p ps

def tessSplitPieces (text : Str) : List Str :=
  cutAtAux text 0 (tessSplitPoints text true 0)

/--
`_tesseract_parse_serial`: `_TESSERACT_LEADING_RE.match(block.lstrip())` with
`^(?P<main>\d{1,3})(?:\.(?P<sub>\d+))?\s+(?!(?:No\.|no\.|NO\.))`.
The greedy `\s+` first consumes the maximal whitespace run; if the negative
lookahead fails there, giving back one whitespace character leaves the lookahead
facing a whitespace character (which is not `N`/`n`), so it succeeds — hence the
`No.`-words only block a match when the whitespace run has length exactly 1.
-/
def _tesseract_parse_serial (block : Str) : Option (Nat × Option Nat) :=
  let s := block.dropWhile pySpace
  let d := takeDigits s
  if d.isEmpty || decide (d.length > 3) then none else
  let r2 := dropDigits s
  let subD : Option Str := match r2 with
    | '.' :: c :: _ => if isDigitC c then some (takeDigits r2.tail) else none
    | _ => none
  let r3 := match r2 with
    | '.' :: c :: _ => if isDigitC c then dropDigits r2.tail else r2
    | _ => r2
  let ws := r3.takeWhile pySpace
  if ws.isEmpty then none else
  let l4 := r3.dropWhile pySpace
  if ws.length = 1 &&
     (startsWithS l4 "No.".data || startsWithS l4 "no.".data || startsWithS l4 "NO.".data)
  then none
  else some (natOfDigits d, subD.map natOfDigits)

/-! ### Column-dump reassembler helpers -/

/-- `MA\s+\d` as a start-anchored Bool. -/
def maWsDigit (s : Str) : Bool :=
  startsWithS s "MA".data &&
  (let r := s.drop 2
   let ws := r.takeWhile pySpace
   !ws.isEmpty &&
   (match r.dropWhile pySpace with
    | c :: _ => isDigitC c
    | [] => false))

/-- `Diary\s+No\.` as a start-anchored Bool. -/
def diaryWsNo (s : Str) : Bool :=
  startsWithS s "Diary".data &&
  (let r := s.drop 5
   let ws := r.takeWhile pySpace
   !ws.isEmpty && startsWithS (r.dropWhile pySpace) "No.".data)

/-- One alternative of `_CASE_TYPE_OPENER_RE` matches at the start of `s`:
`C\.A\.|SLP\(|W\.P\.\(|Crl\.A\.|MA\s+\d|Diary\s+No\.`. -/
def openerAt (s : Str) : Bool :=
  startsWithS s "C.A.".data || startsWithS s "SLP(".data || startsWithS s "W.P.(".data ||
  startsWithS s "Crl.A.".data || maWsDigit s || diaryWsNo s

/--
Match starts of `_CASE_TYPE_OPENER_RE` (`(?m)^(?:...)`) under `finditer`: all
line-start positions where an alternative matches.  finditer's non-overlapping
consumption cannot hide any of these positions: a match span past its first
character consists of literal opener characters (no newline) or, for the
`MA\s+\d` / `Diary\s+No\.` alternatives, whitespace/digits/`No.`, and no
line start inside such a span can begin another opener alternative.
-/
def openerStarts : Str → Bool → Nat → List Nat
  | [], _, _ => []
  | c :: t, atStart, i =>
    (if atStart && openerAt (c :: t) then [i] else []) ++ openerStarts t (c == '\n') (i + 1)

def blocksFromStarts (text : Str) : List Nat → List Str
  | [] => []
  | s :: rest =>
    let e := match rest with
      | s2 :: _ => s2
      | [] => text.length
    let b := stripS ((text.drop s).take (e - s))
    (if b.isEmpty then [] else [b]) ++ blocksFromStarts text rest

/-- `_split_case_type_blocks`. -/
def _split_case_type_blocks (text : Str) : List Str :=
  blocksFromStarts text (openerStarts text true 0)

def ivxChar (c : Char) : Bool := c == 'I' || c == 'V' || c == 'X'

/-- First alternative of `_BENCH_CODE_RE`: `[IVX]+-?[A-Z]?` anchored `^...$`. -/
def benchAlt1 (s : Str) : Bool :=
  let p := s.takeWhile ivxChar
  !p.isEmpty &&
  (match s.drop p.length with
   | [] => true
   | ['-'] => true
   | [c] => isUpperC c
   | ['-', c] => isUpperC c
   | _ => false)

def pilAlt (s : Str) : Bool :=
  startsWithS s "PIL-".data && !(s.drop 4).isEmpty && (s.drop 4).all isWordC

/-- `_BENCH_CODE_RE.match(s)`: `^(?:[IVX]+-?[A-Z]?|[A-Z]{1,3}|Il|PIL-\w+)$`. -/
def benchCode (s : Str) : Bool :=
  benchAlt1 s || (!s.isEmpty && decide (s.length ≤ 3) && s.all isUpperC) ||
  s == "Il".data || pilAlt s

/-- Matches the digits-dash-slash-comma full-line pattern of
`_find_party_start_in_block` (a character class of digits, `-`, `/` and `,`,
anchored at both ends). -/
def punctLine (s : Str) : Bool :=
  !s.isEmpty && s.all (fun c => isDigitC c || c == '-' || c == '/' || c == ',')

def findPartyAux : List Str → Nat → Bool → Nat → Nat
  | [], _, _, blockLen => blockLen
  | line :: rest, pos, seen, blockLen =>
    let s := stripS line
    if s.isEmpty then findPartyAux rest (pos + line.length + 1) seen blockLen
    else if openerAt s then findPartyAux rest (pos + line.length + 1) true blockLen
    else if seen && (benchCode s || punctLine s) then
      findPartyAux rest (pos + line.length + 1) seen blockLen
    else if seen then pos
    else findPartyAux rest (pos + line.length + 1) seen blockLen

/-- `_find_party_start_in_block`. -/
def _find_party_start_in_block (block : Str) : Nat :=
  findPartyAux (splitLines block) 0 false block.length

def _PARTY_SKIP : List Str :=
  ["IA ".data, "FOR ".data, "IN ".data, "I.R.".data, "SLP".data, "C.A.".data,
   "Diary".data, "W.P.".data, "Crl.".data, "FILING".data, "C/C".data,
   "AFFIDAVIT".data, "CONDONATION".data, "EXEMPTION".data, "PERMISSION".data,
   "CLARIFICATION".data, "STAY".data, "RELIEF".data, "APPLICATION".data,
   "MODIFICATION".data, "No.".data, "ADDL".data, "LENGTHY".data, "ADDITIONAL".data]

/-- Character class of `^[A-Z][A-Z0-9\s\.,&/@\-()\'\"M/S]+$` (tail positions). -/
def partyClassChar (c : Char) : Bool :=
  isUpperC c || isDigitC c || pySpace c || c == '.' || c == ',' || c == '&' || c == '/' ||
  c == '@' || c == '-' || c == '(' || c == ')' || c == '\'' || c == '"'

/-- `_looks_like_party`. -/
def _looks_like_party (text : Str) : Bool :=
  let fl := stripS ((splitLines (stripS text)).headD [])
  match fl with
  | [] => false
  | c :: t =>
    isUpperC c && !_PARTY_SKIP.any (fun p => startsWithS (c :: t) p) &&
    (!t.isEmpty && t.all partyClassChar) && decide (fl.length ≥ 4)

def consCurrent (c : Char) : List Str → List Str
  | [] => [[c]]
  | l :: ls => (c :: l) :: ls

def nlRun (s : Str) : Nat := (s.takeWhile (· == '\n')).length

/-- `re.split(r'\n\n+', text)`: cut at every maximal run of ≥ 2 newlines. -/
def splitParasGo : Nat → Str → List Str
  | _, [] => [[]]
  | 0, s => [s]
  | f + 1, c :: t =>
    if c == '\n' && decide (1 ≤ nlRun t) then
      [] :: splitParasGo f (t.dropWhile (· == '\n'))
    else consCurrent c (splitParasGo f t)

def splitParas (s : Str) : List Str := splitParasGo s.length s

def lastPartyIdxAux : List Str → Nat → Option Nat → Option Nat
  | [], _, best => best
  | p :: t, i, best => lastPartyIdxAux t (i + 1) (if _looks_like_party p then some i else best)

def joinParas (ps : List Str) : Str := List.intercalate "\n\n".data ps

/-- `_split_resp_frag`. -/
def _split_resp_frag (text : Str) : Str × Str :=
  let paras := splitParas (stripS text)
  match lastPartyIdxAux paras 0 none with
  | none => (stripS text, [])
  | some last =>
    if last > 0 then
      (stripS (joinParas (paras.take last)), stripS (joinParas (paras.drop last)))
    else (stripS text, [])

/-- `_split_frag0`. -/
def _split_frag0 (text : Str) : Str × Str :=
  let paras := splitParas (stripS text)
  match lastPartyIdxAux paras 0 none with
  | none => ([], stripS text)
  | some last =>
    if last = 0 then ([], stripS text)
    else (stripS (joinParas (paras.take last)), stripS (joinParas (paras.drop last)))

/-- If `s` begins with the separator `\n[ \t]*Versus[ \t]*\n`, its length. -/
def versusSepLen (s : Str) : Option Nat :=
  match s with
  | '\n' :: t =>
    let a := t.takeWhile (fun c => c == ' ' || c == '\t')
    let r := t.drop a.length
    if startsWithS r "Versus".data then
      let r2 := r.drop 6
      let b := r2.takeWhile (fun c => c == ' ' || c == '\t')
      match r2.drop b.length with
      | '\n' :: _ => some (1 + a.length + 6 + b.length + 1)
      | _ => none
    else none
  | _ => none

/-- `re.compile(r'\n[ \t]*Versus[ \t]*\n').split(party_content)`. -/
def splitVersusGo : Nat → Str → List Str
  | _, [] => [[]]
  | 0, s => [s]
  | f + 1, c :: t =>
    match versusSepLen (c :: t) with
    | some k => [] :: splitVersusGo f ((c :: t).drop k)
    | none => consCurrent c (splitVersusGo f t)

def splitVersus (s : Str) : List Str := splitVersusGo s.length s

/--
`_distribute_parties` (the `serials` parameter of the source is unused by its body
and is omitted here).  Note: the source indexes `frags[i]` unguarded inside the
loop; in the pipeline `n ≤ len(frags)` holds on the inputs of interest, and an
out-of-range access is modelled as the empty string.
-/
def _distribute_parties (case_blocks : List Str) (party_content : Str) : Str × List Str :=
  let frags := splitVersus party_content
  let n := case_blocks.length
  if frags.length < 2 then ([], party_content :: List.replicate (n - 1) []) else
  let fr := _split_frag0 (frags.headD [])
  let blocks := (List.range n).map (fun i =>
    let pet := if i = 0 then fr.2 else (_split_resp_frag (frags.getD i [])).2
    let resp := if i + 1 < frags.length then (_split_resp_frag (frags.getD (i + 1) [])).1 else []
    if !pet.isEmpty && !resp.isEmpty then pet ++ "\nVersus\n".data ++ resp
    else if !pet.isEmpty then pet
    else if !resp.isEmpty then "Versus\n".data ++ resp
    else [])
  (fr.1, blocks)

/-- `re.match(r'^\d{1,3}(?:\.\d+)?$', stripped) and stripped`. -/
def bareNumber (s : Str) : Bool :=
  let d := takeDigits s
  if d.isEmpty || decide (d.length > 3) then false else
  match dropDigits s with
  | [] => true
  | '.' :: t => !t.isEmpty && t.all isDigitC
  | _ => false

/-- Collect the standalone-serial run: bare-number lines are collected (stripped),
blank lines skipped, any other line stops the scan.  Returns the collected bare
numbers and the count of lines consumed. -/
def collectStandalonesGo : List Str → List Str → Nat → List Str × Nat
  | [], acc, cnt => (acc.reverse, cnt)
  | l :: t, acc, cnt =>
    let s := stripS l
    if bareNumber s then collectStandalonesGo t (s :: acc) (cnt + 1)
    else if s.isEmpty then collectStandalonesGo t acc (cnt + 1)
    else (acc.reverse, cnt)

/-- Number of lines before the first genuine inline serial line (length if none). -/
def findGenuine : List Str → Nat
  | [] => 0
  | l :: t => if _is_genuine_inline_serial (stripS l) then 0 else 1 + findGenuine t

/-- `_infer_serials`.  Python `(prev_inline or 0)` coincides with `getD 0` since
`0 or 0 == 0`. -/
def extendSerials : Nat → List Str → Nat → List Str
  | 0, complete, _ => complete
  | k + 1, complete, last =>
    extendSerials k (complete ++ [natStr (last + 1)]) (last + 1)

def _infer_serials (prev_inline : Option Nat) (found_standalones : List Str)
    (n_blocks : Nat) : List Str :=
  match found_standalones with
  | [] =>
    let start := prev_inline.getD 0 + 1
    (List.range n_blocks).map (fun i => natStr (start + i))
  | f :: ft =>
    let first_main := ft.foldl (fun a s => min a (strMainNat s)) (strMainNat f)
    let start := prev_inline.getD 0 + 1
    let gap := (List.range (first_main - start)).map (fun i => natStr (start + i))
    let complete := gap ++ (f :: ft)
    let last_main := match complete.getLast? with
      | some s => strMainNat s
      | none => prev_inline.getD 0
    (extendSerials (n_blocks - complete.length) complete last_main).take n_blocks

/-- Reassembled output line for one dump-zone case.  The source emits
`f"{serial} {combined[:nl]}\n{combined[nl+1:]}"` when `combined` contains a
newline at `nl` and `f"{serial} {combined}"` otherwise; both reconstruct
`serial + " " + combined` verbatim. -/
def emitCases : List Str → List Str → List Str → List Str
  | serial :: st, cb :: cbt, pb :: pbt =>
    let combined := if pb.isEmpty then cb else cb ++ '\n' :: pb
    (serial ++ ' ' :: combined) :: emitCases st cbt pbt
  | _, _, _ => []

/-- Serial of the last case emitted by the `zip` loop (if any). -/
def lastZipSerial : List Str → List Str → List Str → Option Str
  | s :: st, _ :: ct, _ :: pt =>
    match lastZipSerial st ct pt with
    | some x => some x
    | none => some s
  | _, _, _ => none

/-- Main loop of `_reassemble_column_dumps` over the line list.  The loop index
of the source advances by at least one line per iteration, so fuel
`lines.length + 1` makes the fuel case unreachable. -/
def reassembleGo : Nat → List Str → Option Nat → List Str
  | 0, _, _ => []
  | _, [], _ => []
  | f + 1, line :: rest, lastInline =>
    let stripped := stripS line
    if _is_genuine_inline_serial stripped then
      line :: reassembleGo f rest (some (natOfDigits (takeDigits stripped)))
    else if bareNumber stripped then
      let sc := collectStandalonesGo (line :: rest) [] 0
      let standalones := sc.1
      let consumed := sc.2
      if standalones.length < 2 then line :: reassembleGo f rest lastInline
      else
        let afterRun := (line :: rest).drop consumed
        let nxtRel := findGenuine afterRun
        let content := joinLines (afterRun.take nxtRel)
        let case_blocks := _split_case_type_blocks content
        if case_blocks.isEmpty then line :: reassembleGo f rest lastInline
        else
          let full_serials := _infer_serials lastInline standalones case_blocks.length
          let type_starts := openerStarts content true 0
          let pc_cb : Str × List Str :=
            match type_starts.getLast? with
            | some lts =>
              let last_block_text := content.drop lts
              let psi := _find_party_start_in_block last_block_text
              if psi < last_block_text.length then
                let clean_last := stripS (last_block_text.take psi)
                (stripS (content.drop (lts + psi)),
                 case_blocks.dropLast ++ (if clean_last.isEmpty then [] else [clean_last]))
              else ([], case_blocks)
            | none => ([], case_blocks)
          let ir_pb : Str × List Str :=
            if !pc_cb.1.isEmpty then _distribute_parties pc_cb.2 pc_cb.1
            else ([], List.replicate pc_cb.2.length [])
          let emitted := emitCases full_serials pc_cb.2 ir_pb.2
          let pre := if !ir_pb.1.isEmpty then ["Versus\n".data ++ ir_pb.1] else []
          let lastInline2 := match lastZipSerial full_serials pc_cb.2 ir_pb.2 with
            | some ser => some (strMainNat ser)
            | none => lastInline
          pre ++ emitted ++ reassembleGo f ((line :: rest).drop (consumed + nxtRel)) lastInline2
    else line :: reassembleGo f rest lastInline

/-- `_reassemble_column_dumps`. -/
def _reassemble_column_dumps (text : Str) : Str :=
  let text1 := joinLines ((splitLines text).map _normalize_ocr_noise)
  let lines := splitLines text1
  joinLines (reassembleGo (lines.length + 1) lines none)

/-! ### Tesseract core segmenter -/

/-- `f"--- Connected {main}.{sub} ---"` (tesseract and azure marker). -/
def connMarker (main sub : Nat) : Str :=
  "--- Connected ".data ++ natStr main ++ '.' :: natStr sub ++ " ---".data

/-- The stripped, non-empty blocks the tesseract loop iterates over. -/
def tessBlocks (text : Str) : List Str :=
  ((tessSplitPieces (_reassemble_column_dumps text)).map stripS).filter (fun b => !b.isEmpty)

/-- One iteration of the tesseract merge loop. -/
def tessStep (m : CaseMap) (lk : Option Str) (b : Str) : CaseMap × Option Str :=
  match _tesseract_parse_serial b with
  | none =>
    match lk with
    | some k => (setK m k (getDM m k ++ "\n\n".data ++ b), lk)
    | none => (m, lk)
  | some (main, some sub) =>
    let key := natStr main
    (setK m key (getDM m key ++ "\n\n".data ++ connMarker main sub ++ '\n' :: b), some key)
  | some (main, none) =>
    let key := natStr main
    let v := if hasKey m key then getDM m key ++ "\n\n".data ++ b else b
    (setK m key v, some key)

def tessFold : List Str → CaseMap × Option Str → CaseMap × Option Str
  | [], st => st
  | b :: t, st => tessFold t (tessStep st.1 st.2 b)

/-- `segment_cases_tesseract`. -/
def segment_cases_tesseract (text : Str) : CaseMap :=
  (tessFold (tessBlocks text) ([], none)).1

/-! ### Azure segmentation -/

/-- If `text` begins with a match of `\n*=== PAGE \d+ ===\n*`, its length.
The leading `\n*` is maximal and the literal `===` forces exactly that run. -/
def pageMarkerLen (text : Str) : Option Nat :=
  let nl1 := text.takeWhile (· == '\n')
  let r := text.drop nl1.length
  if startsWithS r "=== PAGE ".data then
    let r2 := r.drop 9
    let d := takeDigits r2
    if d.isEmpty then none else
    let r3 := r2.drop d.length
    if startsWithS r3 " ===".data then
      let r4 := r3.drop 4
      let nl2 := r4.takeWhile (· == '\n')
      some (nl1.length + 9 + d.length + 4 + nl2.length)
    else none
  else none

/-- `re.sub(r'\n*=== PAGE \d+ ===\n*', '\n', text)`: leftmost-first scan,
each match replaced by a single newline, scan resumes after the match. -/
def stripPageMarkersGo : Nat → Str → Str
  | _, [] => []
  | 0, s => s
  | f + 1, c :: t =>
    match pageMarkerLen (c :: t) with
    | some k => '\n' :: stripPageMarkersGo f ((c :: t).drop k)
    | none => c :: stripPageMarkersGo f t

def stripPageMarkers (text : Str) : Str := stripPageMarkersGo text.length text

inductive LineTag where
  | EMPTY | VERSUS | IA | ADVOCATE | STRUCTURAL | PARTY
deriving DecidableEq, Repr

/-- `re.match(r'^Versus\b', s)`. -/
def versusWordAt (s : Str) : Bool :=
  startsWithS s "Versus".data &&
  (match s.drop 6 with
   | c :: _ => !isWordC c
   | [] => true)

/-- The IA test shared by `_azure_tag_line` and `_azure_tag_for_struct`:
`^IA (?:No\.|FOR )` or `^FOR (?:EXEMPTION|...)` or `^I\.R\.`. -/
def iaLineTest (s : Str) : Bool :=
  (startsWithS s "IA ".data &&
    (startsWithS (s.drop 3) "No.".data || startsWithS (s.drop 3) "FOR ".data)) ||
  (startsWithS s "FOR ".data &&
    (["EXEMPTION", "ADMISSION", "CONDONATION", "PERMISSION", "GRANT", "APPLICATION",
      "MODIFICATION", "STAY", "CLARIFICATION", "APPROPRIATE", "I.R."].any
      (fun w => startsWithS (s.drop 4) w.data))) ||
  startsWithS s "I.R.".data

/-- `re.search(r'\[(?:R|P|CAVEAT)-', s)`: the bracket notation occurs anywhere. -/
def advocateTest : Str → Bool
  | [] => false
  | c :: t =>
    (c == '[' && (startsWithS t "R-".data || startsWithS t "P-".data ||
                  startsWithS t "CAVEAT-".data)) || advocateTest t

/-- `_azure_tag_line`. -/
def _azure_tag_line (line : Str) : LineTag :=
  let s := stripS line
  if s.isEmpty then .EMPTY
  else if versusWordAt s then .VERSUS
  else if iaLineTest s then .IA
  else if advocateTest s then .ADVOCATE
  else .PARTY

/-- `_STRUCTURAL_LINE_RE.match(s)`:
`^(?:---\s*Connected|\d{1,3}(?:\.\d+)?\s+|(?:C\.A\.|SLP\(|W\.P\.\(|Crl\.A\.|MA\s+\d|Diary\s+No\.))`. -/
def structuralLineAt (s : Str) : Bool :=
  (startsWithS s "---".data && startsWithS ((s.drop 3).dropWhile pySpace) "Connected".data) ||
  (let d := takeDigits s
   if d.isEmpty || decide (d.length > 3) then false else
   let r2 := dropDigits s
   let r3 := match r2 with
     | '.' :: c :: _ => if isDigitC c then dropDigits r2.tail else r2
     | _ => r2
   !(r3.takeWhile pySpace).isEmpty) ||
  openerAt s

/-- `_azure_tag_for_struct`. -/
def _azure_tag_for_struct (line : Str) : LineTag :=
  let s := stripS line
  if s.isEmpty then .EMPTY
  else if versusWordAt s then .VERSUS
  else if iaLineTest s then .IA
  else if advocateTest s then .ADVOCATE
  else if structuralLineAt s || startsWithS s "---".data then .STRUCTURAL
  else .PARTY

/-- `versus_is_inline` of `_azure_split_blob`:
`re.match(r'^Versus\s+(.+)', s)` with a non-blank group 1.  The maximal
whitespace run after `Versus` leaves group 1 starting with a non-whitespace
character whenever any non-whitespace follows, so the test is: `Versus` prefix,
at least one whitespace after it, and some non-whitespace after that. -/
def versusIsInline (line : Str) : Bool :=
  let s := stripS line
  startsWithS s "Versus".data &&
  (match s.drop 6 with
   | c :: t => pySpace c && (c :: t).any (fun x => !pySpace x)
   | [] => false)

/-- Inner scan of `_azure_split_blob` between two Versus positions: find the end
of the previous respondent section.  `steps` counts down from `vi - j`. -/
def scanRespGo (tags : List LineTag) : Nat → Nat → Nat → Bool → Nat
  | 0, _, lastEnd, _ => lastEnd
  | steps + 1, j, lastEnd, found =>
    match tags.getD j .EMPTY with
    | .EMPTY => scanRespGo tags steps (j + 1) lastEnd found
    | .PARTY =>
      if !found then scanRespGo tags steps (j + 1) j true
      else lastEnd
    | .IA => scanRespGo tags steps (j + 1) j true
    | .ADVOCATE => scanRespGo tags steps (j + 1) j true
    | _ => scanRespGo tags steps (j + 1) lastEnd found

/-- Skip EMPTY tags forward while below `vi`. -/
def skipEmptyGo (tags : List LineTag) : Nat → Nat → Nat → Nat
  | 0, ps, _ => ps
  | steps + 1, ps, vi =>
    if ps < vi && tags.getD ps .EMPTY == .EMPTY then skipEmptyGo tags steps (ps + 1) vi
    else ps

/-- Compute `pet_starts` of `_azure_split_blob` given the versus positions. -/
def petStartsFrom (lines : List Str) (tags : List LineTag) (vps : List Nat) : List Nat :=
  match vps with
  | [] => []
  | _ :: _ =>
    0 :: (List.zip vps.dropLast vps.tail).map (fun pv =>
      let prevVi := pv.1
      let vi := pv.2
      let inline := versusIsInline (lines.getD prevVi [])
      let lastEnd := scanRespGo tags (vi - (prevVi + 1)) (prevVi + 1) prevVi inline
      skipEmptyGo tags (vi - (lastEnd + 1)) (lastEnd + 1) vi)

def blocksFromPetStarts (lines : List Str) (n : Nat) : List Nat → List Str
  | [] => []
  | s :: rest =>
    let e := match rest with
      | s2 :: _ => s2
      | [] => n
    let b := stripS (joinLines ((lines.drop s).take (e - s)))
    (if b.isEmpty then [] else [b]) ++ blocksFromPetStarts lines n rest

/-- `_azure_split_blob`. -/
def _azure_split_blob (blob : Str) : List Str :=
  let lines := splitLines blob
  let n := lines.length
  let tags := lines.map _azure_tag_line
  let vps := (List.range n).filter (fun i => tags.getD i .EMPTY == .VERSUS)
  match vps with
  | [] => if (stripS blob).isEmpty then [] else [stripS blob]
  | _ :: _ => blocksFromPetStarts lines n (petStartsFrom lines tags vps)

/-- Sum of `len(line) + 1` over the first `k` lines (the char offset of line `k`). -/
def lineOffset (lines : List Str) : Nat → Nat
  | 0 => 0
  | k + 1 =>
    match lines with
    | [] => 0
    | l :: t => l.length + 1 + lineOffset t k

/-- Backward walk of `_azure_find_blob_start` (part A), from index `i` downward:
on STRUCTURAL/IA/ADVOCATE/VERSUS stop just after it (then skip EMPTY forward
below `firstVersus`); at the start of the list without finding one, return 0
(the `while...else` clause). -/
def blobBackWalk (tags : List LineTag) (firstVersus : Nat) : Nat → Nat → Nat
  | 0, _ => 0
  | steps + 1, i =>
    match tags.getD i .EMPTY with
    | .EMPTY => if i = 0 then 0 else blobBackWalk tags firstVersus steps (i - 1)
    | .STRUCTURAL => skipEmptyGo tags (firstVersus - (i + 1)) (i + 1) firstVersus
    | .IA => skipEmptyGo tags (firstVersus - (i + 1)) (i + 1) firstVersus
    | .ADVOCATE => skipEmptyGo tags (firstVersus - (i + 1)) (i + 1) firstVersus
    | .VERSUS => skipEmptyGo tags (firstVersus - (i + 1)) (i + 1) firstVersus
    | .PARTY => if i = 0 then 0 else blobBackWalk tags firstVersus steps (i - 1)

/-- Forward scan of `_azure_find_blob_start` (part B): the index of the last line
of the leading STRUCTURAL/EMPTY run (0 if the first line is neither). -/
def structEndGo (tags : List LineTag) : Nat → Nat → Nat → Nat
  | 0, _, acc => acc
  | steps + 1, i, acc =>
    match tags.getD i .EMPTY with
    | .STRUCTURAL => structEndGo tags steps (i + 1) i
    | .EMPTY => structEndGo tags steps (i + 1) i
    | _ => acc

/-- Part B continued: last index of the ADVOCATE/IA preamble after `structEnd`
(EMPTY lines are stepped over without extending the preamble). -/
def preambleEndGo (tags : List LineTag) (n : Nat) : Nat → Nat → Nat → Nat
  | 0, _, acc => acc
  | steps + 1, j, acc =>
    if j ≥ n then acc
    else match tags.getD j .EMPTY with
    | .ADVOCATE => preambleEndGo tags n steps (j + 1) j
    | .IA => preambleEndGo tags n steps (j + 1) j
    | .EMPTY => preambleEndGo tags n steps (j + 1) acc
    | _ => acc

/-- `_azure_find_blob_start`. -/
def _azure_find_blob_start (text : Str) : Nat :=
  let lines := splitLines text
  let n := lines.length
  let tags := lines.map _azure_tag_for_struct
  match (List.range n).find? (fun i => tags.getD i .EMPTY == .VERSUS) with
  | none => text.length
  | some firstVersus =>
    let petA :=
      if firstVersus = 0 then 0
      else blobBackWalk tags firstVersus n (firstVersus - 1)
    let posA := lineOffset lines petA
    let structEnd := structEndGo tags n 0 0
    let preambleEnd := preambleEndGo tags n n (structEnd + 1) structEnd
    let posB := if preambleEnd > structEnd then lineOffset lines (preambleEnd + 1) else 0
    max posA posB

/-- `len(re.findall(r'\bVersus\b', text))`: occurrences of `Versus` with a
non-word character (or a boundary) on both sides; `Versus` cannot overlap
itself, so the occurrence count equals the number of matching positions. -/
def countVersusGo : Str → Bool → Nat
  | [], _ => 0
  | c :: t, prevWord =>
    let here :=
      !prevWord && startsWithS (c :: t) "Versus".data &&
      (match (c :: t).drop 6 with
       | d :: _ => !isWordC d
       | [] => true)
    (if here then 1 else 0) + countVersusGo t (isWordC c)

def countVersus (text : Str) : Nat := countVersusGo text false

/-! ### Azure blob redistribution -/

/-- Needle of `re.compile(r'(?=\n--- Connected )')` (section split, trailing space). -/
def sectionNeedle : Str := "\n--- Connected ".data

/-- Needle of `stub_text.find('\n--- Connected')` (stub insertion, no trailing space). -/
def insertNeedle : Str := "\n--- Connected".data

def needlePoints (needle : Str) : Str → Nat → List Nat
  | [], _ => []
  | c :: t, i =>
    (if startsWithS (c :: t) needle then [i] else []) ++ needlePoints needle t (i + 1)

/-- Split a blob owner's text on the zero-width `(?=\n--- Connected )` pattern:
`sections[0]` is the parent content, later sections the Connected sub-sections. -/
def connectedSections (text : Str) : List Str :=
  cutAtAux text 0 (needlePoints sectionNeedle text 0)

/-- Index of the last section with ≥ 2 `Versus` occurrences (scan from the end). -/
def lastBlobIdxAux : List Str → Nat → Option Nat → Option Nat
  | [], _, best => best
  | s :: t, i, best =>
    lastBlobIdxAux t (i + 1) (if 2 ≤ countVersus s then some i else best)

/-- Insert a redistributed block into a stub's text, before any
`\n--- Connected` marker already present. -/
def stubInsert (stub_text blok : Str) : Str :=
  match findSub stub_text insertNeedle with
  | some q => rstripS (stub_text.take q) ++ '\n' :: blok ++ stub_text.drop q
  | none => rstripS stub_text ++ '\n' :: blok

/-- Assign `blob_blocks[0..]` to the stub keys in order (stop when blocks run out). -/
def assignStubs : CaseMap → List Str → List Str → CaseMap
  | result, [], _ => result
  | result, _ :: _, [] => result
  | result, sk :: srest, blok :: brest =>
    assignStubs (setK result sk (stubInsert (getDM result sk) blok)) srest brest

/-- Python `float(key)` ordering for the decimal-numeral keys the pipelines
produce (every key is a digit string, on which float ordering is numeric). -/
def keyValNat (k : Str) : Nat := natOfDigits (k.takeWhile isDigitC)

/-- Stable insertion sort by `keyValNat` (Python `sorted` is stable). -/
def insKey (a : Str) : List Str → List Str
  | [] => [a]
  | b :: t => if keyValNat a ≤ keyValNat b then a :: b :: t else b :: insKey a t

def sortKeysNum : List Str → List Str
  | [] => []
  | a :: t => insKey a (sortKeysNum t)

/-- The maximal run of stub keys (zero `Versus` in their current text) at the
head of the key list, and the remaining keys. -/
def splitStubRun (result : CaseMap) : List Str → List Str × List Str
  | [] => ([], [])
  | k :: t =>
    if countVersus (getDM result k) = 0 then
      let r := splitStubRun result t
      (k :: r.1, r.2)
    else ([], k :: t)

/-- Main loop of `_azure_redistribute_blobs` over the sorted key list.  Each
iteration continues on a strict suffix of the key list, so fuel
`#keys + 1` makes the fuel case unreachable. -/
def redistGo : Nat → CaseMap → List Str → CaseMap
  | 0, result, _ => result
  | _, result, [] => result
  | f + 1, result, k :: rest =>
    if countVersus (getDM result k) ≠ 0 then redistGo f result rest
    else
      let sr := splitStubRun result (k :: rest)
      match sr.2 with
      | [] => result
      | owner :: rest3 =>
        let sections := connectedSections (getDM result owner)
        match lastBlobIdxAux sections 0 none with
        | none => redistGo f result rest3
        | some bsi =>
          let sectionText := sections.getD bsi []
          let blobStart := _azure_find_blob_start sectionText
          let header := rstripS (sectionText.take blobStart)
          let blob_blocks := _azure_split_blob (sectionText.drop blobStart)
          if blob_blocks.isEmpty then redistGo f result rest3
          else
            let result2 := assignStubs result sr.1 blob_blocks
            let owner_extra := blob_blocks.drop sr.1.length
            let newSec :=
              if owner_extra.isEmpty then stripS header
              else stripS (header ++ '\n' :: joinLines owner_extra)
            let sections2 := sections.set bsi newSec
            let result3 := setK result2 owner
              (joinLines (sections2.filter (fun s => !(stripS s).isEmpty)))
            redistGo f result3 rest3

/-- `_azure_redistribute_blobs`. -/
def _azure_redistribute_blobs (cases : CaseMap) : CaseMap :=
  redistGo (cases.length + 1) cases (sortKeysNum (keysOf cases))

/-! ### Azure segmenter -/

/-- The classified block list of `segment_cases_azure`: page markers stripped,
split on the tesseract serial boundary, blocks stripped, empties dropped,
each block paired with its parsed `(main, sub)` (or `(none, none)` for orphans). -/
def azureClassified (text : Str) : List (Option Nat × Option Nat × Str) :=
  (((tessSplitPieces (stripPageMarkers text)).map stripS).filter
    (fun b => !b.isEmpty)).map (fun b =>
      match _tesseract_parse_serial b with
      | none => (none, none, b)
      | some (m, s) => (some m, s, b))

/-- One iteration of the azure stitch/merge loop (source lines 764–790). -/
def azureStep (m : CaseMap) (lk : Option Str) (e : Option Nat × Option Nat × Str) :
    CaseMap × Option Str :=
  match e with
  | (none, _, b) =>
    match lk with
    | some k => (setK m k (getDM m k ++ "\n\n".data ++ b), lk)
    | none => (m, lk)
  | (some main, some sub, b) =>
    let key := natStr main
    if hasKey m key then
      (setK m key (getDM m key ++ "\n\n".data ++ connMarker main sub ++ '\n' :: b), some key)
    else
      (setK m key (connMarker main sub ++ '\n' :: b), some key)
  | (some main, none, b) =>
    let key := natStr main
    if hasKey m key then
      if startsWithS (getDM m key) "--- Connected".data then
        (setK m key (b ++ "\n\n".data ++ getDM m key), some key)
      else
        (setK m key (getDM m key ++ "\n\n".data ++ b), some key)
    else (setK m key b, some key)

def azureFold : List (Option Nat × Option Nat × Str) → CaseMap × Option Str → CaseMap × Option Str
  | [], st => st
  | e :: t, st => azureFold t (azureStep st.1 st.2 e)

/-- The mapping built by the azure stitch/merge loop, before blob redistribution. -/
def azureSegmentPre (text : Str) : CaseMap := (azureFold (azureClassified text) ([], none)).1

/-- `segment_cases_azure`. -/
def segment_cases_azure (text : Str) : CaseMap :=
  _azure_redistribute_blobs (azureSegmentPre text)

/-! ### Paddle segmentation -/

/-- Largest `$`-position (end of string, or just before a newline) reachable by
`\s*` from the current position; `none` if no whitespace prefix position is
a valid `$` position.  (`SERIAL_PATTERN`'s first alternative `\s*$`, with
`re.MULTILINE` so `$` also matches before any newline; the greedy `\s*` backs
off to the largest valid position.) -/
def alt1Go : Str → Nat → Option Nat → Option Nat
  | [], j, _ => some j
  | c :: t, j, best =>
    let best' := if c == '\n' then some j else best
    if pySpace c then alt1Go t (j + 1) best' else best'

/-- `SERIAL_PATTERN`'s second alternative `\s*Connected\b`: consumed length on
success. -/
def alt2End (r3 : Str) : Option Nat :=
  let wsr := r3.takeWhile pySpace
  let r4 := r3.drop wsr.length
  if startsWithS r4 "Connected".data then
    match r4.drop 9 with
    | c :: _ => if isWordC c then none else some (wsr.length + 9)
    | [] => some (wsr.length + 9)
  else none

/--
`SERIAL_PATTERN` = `^\s*(\d+(?:\.\d+)?)(?:\s*$|\s*Connected\b)` (MULTILINE),
attempted at a line-start position: returns `(consumed length, group 1)`.
All greedy pieces are maximal-munch (giving back a digit or whitespace leaves a
character no following atom accepts), except `\s*$` which backs off to the
largest valid `$` position, handled by `alt1Go`.
-/
def paddleMatchAt (l : Str) : Option (Nat × Str) :=
  let ws0 := l.takeWhile pySpace
  let r1 := l.drop ws0.length
  let d := takeDigits r1
  if d.isEmpty then none else
  let r2 := r1.drop d.length
  let sub : Str := match r2 with
    | '.' :: c :: _ => if isDigitC c then '.' :: takeDigits r2.tail else []
    | _ => []
  let r3 := r2.drop sub.length
  let basePos := ws0.length + d.length + sub.length
  match alt1Go r3 0 none with
  | some j => some (basePos + j, d ++ sub)
  | none =>
    match alt2End r3 with
    | some j => some (basePos + j, d ++ sub)
    | none => none

/-- `SERIAL_PATTERN.finditer(text)`: leftmost non-overlapping matches, each
starting at a line start (`^`), as `(start, end, group 1)` triples.  A match
consumes at least one character, so fuel `length + 1` is maintained. -/
def paddleScan : Nat → Str → Bool → Nat → List (Nat × Nat × Str)
  | 0, _, _, _ => []
  | _, [], _, _ => []
  | f + 1, c :: t, atStart, pos =>
    if atStart then
      match paddleMatchAt (c :: t) with
      | some (consumed, g) =>
        (pos, pos + consumed, g) ::
          paddleScan f ((c :: t).drop consumed)
            (((c :: t).getD (consumed - 1) ' ') == '\n') (pos + consumed)
      | none => paddleScan f t (c == '\n') (pos + 1)
    else paddleScan f t (c == '\n') (pos + 1)

def paddleMatches (text : Str) : List (Nat × Nat × Str) :=
  paddleScan (text.length + 1) text true 0

/-- `f"--- Connected Case {serial} ---\n"` (paddle marker; note the word `Case`). -/
def connCaseMarker (serial : Str) : Str :=
  "--- Connected Case ".data ++ serial ++ " ---\n".data

/-- Build the paddle case map from the match list: each block runs from its
match start to the next match start (or end of text) and is stripped;
a dotted serial is folded into (or seeds) its parent key, an undotted serial
assigns (overwriting) its own key. -/
def paddleBuild (text : Str) : List (Nat × Nat × Str) → CaseMap → CaseMap
  | [], m => m
  | (s, _, g) :: rest, m =>
    let e := match rest with
      | (s2, _, _) :: _ => s2
      | [] => text.length
    let block := stripS ((text.drop s).take (e - s))
    let m2 :=
      if g.contains '.' then
        let pk := g.takeWhile (· != '.')
        if hasKey m pk then
          setK m pk (getDM m pk ++ "\n\n".data ++ connCaseMarker g ++ block)
        else setK m pk (connCaseMarker g ++ block)
      else setK m g block
    paddleBuild text rest m2

/-- `current_text.find('\n\n--- Connected Case')` needle of `_repair_layout_drift`. -/
def connCaseNeedle : Str := "\n\n--- Connected Case".data

/-- `MA\s+\d+/\d+` as a start-anchored Bool. -/
def maPaddleAt (s : Str) : Bool :=
  startsWithS s "MA".data &&
  (let r := s.drop 2
   let ws := r.takeWhile pySpace
   !ws.isEmpty &&
   (let r2 := r.drop ws.length
    let d1 := takeDigits r2
    !d1.isEmpty &&
    (match r2.drop d1.length with
     | '/' :: r4 => !(takeDigits r4).isEmpty
     | _ => false)))

/-- One alternative of `CASE_TYPE_PATTERN` matches at the start of `s`:
`C\.A\. No\.|SLP\(C\) No\.|MA\s+\d+/\d+|Diary No\.`. -/
def caseTypeAt (s : Str) : Bool :=
  startsWithS s "C.A. No.".data || startsWithS s "SLP(C) No.".data ||
  maPaddleAt s || startsWithS s "Diary No.".data

/--
`CASE_TYPE_PATTERN.finditer(parent_text)` match starts (`(?m)^(...)`): all
line-start positions where an alternative matches.  As for the tesseract opener
pattern, finditer's non-overlapping consumption cannot hide a line-start match:
the only alternative whose span can contain a newline is `MA\s+\d+/\d+`, and
every line start inside such a span begins with whitespace, a digit or `/`,
none of which starts an alternative.
-/
def ctStartsGo : Str → Bool → Nat → List Nat
  | [], _, _ => []
  | c :: t, atStart, i =>
    (if atStart && caseTypeAt (c :: t) then [i] else []) ++ ctStartsGo t (c == '\n') (i + 1)

def caseTypeStarts (text : Str) : List Nat := ctStartsGo text true 0

/--
Body of the `_repair_layout_drift` loop for one consecutive pair
`(cur, nxt)` of sorted top-level serial keys.  The source compares
`last_match.start() > len(parent_text) * 0.6` in float arithmetic; for any
realistic length (below 2^50) the double `len * 0.6` rounds to exactly
`3m` when `len = 5m` and otherwise lies at distance ≥ 0.2 − 2⁻⁴⁰ from every
integer, so the comparison coincides with the exact `10 * start > 6 * len`.
-/
def driftStep (m : CaseMap) (cur nxt : Str) : CaseMap :=
  let ct := getDM m cur
  let pe := findSub ct connCaseNeedle
  let pt := match pe with
    | some q => ct.take q
    | none => ct
  match (caseTypeStarts pt).getLast? with
  | none => m
  | some p =>
    if 10 * p > 6 * pt.length then
      let trailing := stripS (pt.drop p)
      let curNew := stripS (pt.take p) ++
        (match pe with
         | some q => ct.drop q
         | none => [])
      let m1 := setK m cur curNew
      setK m1 nxt (trailing ++ '\n' :: getDM m1 nxt)
    else m

def driftFold : Nat → CaseMap → List Str → CaseMap
  | 0, m, _ => m
  | _, m, [] => m
  | _, m, [_] => m
  | f + 1, m, k1 :: k2 :: rest => driftFold f (driftStep m k1 k2) (k2 :: rest)

/-- `_repair_layout_drift`. -/
def _repair_layout_drift (cases : CaseMap) : CaseMap :=
  driftFold (cases.length + 1) cases (sortKeysNum (keysOf cases))

/-- `segment_cases_paddle`. -/
def segment_cases_paddle (text : Str) : CaseMap :=
  match paddleMatches text with
  | [] => []
  | m :: rest => _repair_layout_drift (paddleBuild text (m :: rest) [])

/-! ### Dispatcher -/

/-- `segment_cases`: dispatch on the engine identifier; a `ValueError` is
modelled as `Except.error` with the source's message. -/
def segment_cases (text : Str) (selected_engine : String) : Except String CaseMap :=
  if selected_engine = "tesseract" then .ok (segment_cases_tesseract text)
  else if selected_engine = "azure" then .ok (segment_cases_azure text)
  else if selected_engine = "paddle" then .ok (segment_cases_paddle text)
  else .error ("Unsupported OCR engine: " ++ selected_engine)

/-! ### The gap-fill rule as worded by the specification (for refinement claims) -/

/--
The column-dump serial inference as worded by the specification (§4.4 step 6):
with no found bare numbers, `prev+1 .. prev+n`; otherwise the serials strictly
between `prev` and the smallest found main number, then the found numbers,
extended by incrementing from the last value until `n` entries exist, truncated
to `n`.  Written from the spec's sentence, to be compared with `_infer_serials`.
-/
def gapFillSpec (prev : Nat) (found : List Str) (n : Nat) : List Str :=
  match found with
  | [] => (List.range n).map (fun i => natStr (prev + 1 + i))
  | f0 :: rest =>
    let smallest := (rest.map strMainNat).foldl min (strMainNat f0)
    let between := ((List.range smallest).filter (fun i => prev < i)).map natStr
    let base := between ++ (f0 :: rest)
    let lastMain := strMainNat (base.getLastD f0)
    (base ++ (List.range (n - base.length)).map (fun i => natStr (lastMain + 1 + i))).take n

/-! ## Basic lemmas about the string and map primitives -/

/-- Head of a string is `=`. -/
def headIsEq : Str → Bool
  | c :: _ => c == '='
  | [] => false

/-- The line contains an `=` that is followed, after only whitespace, by a
second `=`.  On such lines a single pass of the noise normalizer strips only
the first `=`, so a second pass changes the line again. -/
def eqWsEq : Str → Bool
  | [] => false
  | c :: t => (c == '=' && headIsEq (t.dropWhile pySpace)) || eqWsEq t

def c5Stub1 : Str := ("1 C.A. No. 100/2020\nFOO CORP").data

def c5Stub2 : Str := ("2 C.A. No. 200/2020\nBAR CORP").data

def c5Owner : Str :=
  ("3 C.A. No. 300/2020\nPETA LTD.\nVersus\nRESPA LTD.\nPETB LTD.\nVersus\nRESPB LTD.\nPETC LTD.\nVersus\nRESPC LTD.").data

def c5Map : CaseMap := [("1".data, c5Stub1), ("2".data, c5Stub2), ("3".data, c5Owner)]

/-- The parent portion scanned by `_repair_layout_drift`: the value up to the
first `"\n\n--- Connected Case"` marker (the whole value if absent). -/
def driftParent (ct : Str) : Str :=
  match findSub ct connCaseNeedle with
  | some q => ct.take q
  | none => ct

/-- The connected-sub-case suffix re-appended by `_repair_layout_drift` after
truncation (empty when no marker is present). -/
def driftSuffix (ct : Str) : Str :=
  match findSub ct connCaseNeedle with
  | some q => ct.drop q
  | none => []

def c7Cur : Str := ("ABCDEFGHIJKLMNOPQRSTUVWXYZ\nC.A. No. 9/9 ").data

def c7Map : CaseMap := [("1".data, c7Cur), ("2".data, "B".data)]

/-- Shape of `SERIAL_PATTERN`'s group 1: digits optionally followed by a dotted
digit tail; its undotted head is a nonempty digit string. -/
def goodGroup (g : Str) : Prop :=
  (g.takeWhile (· != '.') ≠ [] ∧ ∀ c ∈ g.takeWhile (· != '.'), isDigitC c = true) ∧
  (g.contains '.' = false → g ≠ [] ∧ ∀ c ∈ g, isDigitC c = true)

/-- The end of a match's block: the next match's start, or the end of the
text (the `e` computation of `paddleBuild`). -/
def nextStart (text : Str) : List (Nat × Nat × Str) → Nat
  | (s2, _, _) :: _ => s2
  | [] => text.length

theorem subseg_refl (u : Str) : SubSeg u u := ⟨[], [], by simp⟩

theorem subseg_app_left (p : Str) {u v : Str} (h : SubSeg u v) : SubSeg u (p ++ v) := by
  obtain ⟨a, b, rfl⟩ := h
  exact ⟨p ++ a, b, by simp⟩

theorem subseg_app_right (q : Str) {u v : Str} (h : SubSeg u v) : SubSeg u (v ++ q) := by
  obtain ⟨a, b, rfl⟩ := h
  exact ⟨a, b ++ q, by simp⟩

theorem subseg_trans {u v w : Str} (h1 : SubSeg u v) (h2 : SubSeg v w) : SubSeg u w := by
  obtain ⟨a, b, rfl⟩ := h1
  obtain ⟨c, d, rfl⟩ := h2
  exact ⟨c ++ a, b ++ d, by simp⟩

theorem subseg_drop_left {x y v : Str} (h : SubSeg (x ++ y) v) : SubSeg y v := by
  obtain ⟨a, b, rfl⟩ := h
  exact ⟨a ++ x, b, by simp⟩

theorem subseg_cons {u v : Str} (c : Char) (h : SubSeg u v) : SubSeg u (c :: v) := by
  obtain ⟨a, b, rfl⟩ := h
  exact ⟨c :: a, b, by simp⟩

theorem lookup_setK_self (m : CaseMap) (k v : Str) : lookupM (setK m k v) k = some v := by
  induction m with
  | nil => simp [setK, lookupM]
  | cons h t ih =>
    obtain ⟨k', w⟩ := h
    by_cases hk : k' = k <;> simp [setK, lookupM, hk, ih]

theorem lookup_setK_ne (m : CaseMap) {k k' : Str} (v : Str) (h : k' ≠ k) :
    lookupM (setK m k v) k' = lookupM m k' := by
  induction m with
  | nil =>
    show lookupM [(k, v)] k' = none
    simp [lookupM, Ne.symm h]
  | cons hd t ih =>
    obtain ⟨k0, w⟩ := hd
    by_cases hk : k0 = k
    · subst hk
      simp only [setK, if_pos rfl, lookupM]
      rw [if_neg (Ne.symm h), if_neg (Ne.symm h)]
    · simp only [setK, if_neg hk, lookupM]
      by_cases hk' : k0 = k'
      · rw [if_pos hk', if_pos hk']
      · rw [if_neg hk', if_neg hk', ih]

theorem mem_keysOf_iff_lookup {m : CaseMap} {k : Str} :
    k ∈ keysOf m ↔ (lookupM m k).isSome = true := by
  induction m with
  | nil => simp [keysOf, lookupM]
  | cons hd t ih =>
    obtain ⟨k0, w⟩ := hd
    simp only [keysOf, List.map_cons, List.mem_cons, lookupM]
    by_cases hk : k0 = k
    · simp [hk]
    · rw [if_neg hk]
      simp only [keysOf] at ih
      constructor
      · rintro (h | h)
        · exact absurd h.symm hk
        · exact ih.1 h
      · intro h
        exact Or.inr (ih.2 h)

theorem keysOf_setK_of_mem {m : CaseMap} {k : Str} (v : Str) (h : k ∈ keysOf m) :
    keysOf (setK m k v) = keysOf m := by
  induction m with
  | nil => simp [keysOf] at h
  | cons hd t ih =>
    obtain ⟨k0, w⟩ := hd
    by_cases hk : k0 = k
    · simp [setK, hk, keysOf]
    · have h' : k ∈ keysOf t := by
        simp only [keysOf, List.map_cons, List.mem_cons] at h
        rcases h with h | h
        · exact absurd h.symm hk
        · exact h
      simp only [setK, if_neg hk, keysOf, List.map_cons]
      exact congrArg (k0 :: ·) (ih h')

theorem keysOf_setK_of_not_mem {m : CaseMap} {k : Str} (v : Str) (h : k ∉ keysOf m) :
    keysOf (setK m k v) = keysOf m ++ [k] := by
  induction m with
  | nil => simp [setK, keysOf]
  | cons hd t ih =>
    obtain ⟨k0, w⟩ := hd
    simp only [keysOf, List.map_cons, List.mem_cons] at h
    push_neg at h
    have hk : ¬ k0 = k := fun hh => h.1 hh.symm
    simp only [setK, if_neg hk, keysOf, List.map_cons, List.cons_append]
    exact congrArg (k0 :: ·) (ih h.2)

theorem nodup_keysOf_setK {m : CaseMap} {k : Str} (v : Str) (h : (keysOf m).Nodup) :
    (keysOf (setK m k v)).Nodup := by
  by_cases hk : k ∈ keysOf m
  · rw [keysOf_setK_of_mem v hk]; exact h
  · rw [keysOf_setK_of_not_mem v hk]
    simp [List.nodup_append, h, hk]

theorem mem_keysOf_setK {m : CaseMap} {k k' : Str} (v : Str) (h : k' ∈ keysOf m) :
    k' ∈ keysOf (setK m k v) := by
  by_cases hk : k ∈ keysOf m
  · rwa [keysOf_setK_of_mem v hk]
  · rw [keysOf_setK_of_not_mem v hk]; exact List.mem_append_left _ h

theorem startsWith_append_self (pat rest : Str) : startsWithS (pat ++ rest) pat = true := by
  induction pat with
  | nil => simp [startsWithS]
  | cons c t ih => simp [startsWithS, ih]

theorem startsWith_ex {s pat : Str} (h : startsWithS s pat = true) : ∃ r, s = pat ++ r := by
  induction pat generalizing s with
  | nil => exact ⟨s, rfl⟩
  | cons c t ih =>
    cases s with
    | nil => simp [startsWithS] at h
    | cons c' s' =>
      simp [startsWithS] at h
      obtain ⟨r, hr⟩ := ih h.2
      exact ⟨r, by simp [h.1, hr]⟩

theorem startsWith_iff_ex {s pat : Str} : startsWithS s pat = true ↔ ∃ r, s = pat ++ r := by
  constructor
  · exact startsWith_ex
  · rintro ⟨r, rfl⟩
    exact startsWith_append_self pat r

theorem startsWith_length {s pat : Str} (h : startsWithS s pat = true) :
    pat.length ≤ s.length := by
  obtain ⟨r, rfl⟩ := startsWith_ex h
  simp

theorem startsWith_of_startsWith_append {s pat ext : Str}
    (h : startsWithS s (pat ++ ext) = true) : startsWithS s pat = true := by
  obtain ⟨r, rfl⟩ := startsWith_ex h
  rw [List.append_assoc]
  exact startsWith_append_self pat (ext ++ r)

theorem twApp {p : Char → Bool} {w r : Str} (h : ∀ c ∈ w, p c = true) :
    (w ++ r).takeWhile p = w ++ r.takeWhile p := by
  induction w with
  | nil => simp
  | cons c t ih =>
    have hc := h c (by simp)
    simp only [List.cons_append, List.takeWhile_cons, hc]
    simp [ih (fun d hd => h d (by simp [hd]))]

theorem dwApp {p : Char → Bool} {w r : Str} (h : ∀ c ∈ w, p c = true) :
    (w ++ r).dropWhile p = r.dropWhile p := by
  induction w with
  | nil => simp
  | cons c t ih =>
    have hc := h c (by simp)
    simp only [List.cons_append, List.dropWhile_cons, hc]
    simp [ih (fun d hd => h d (by simp [hd]))]

theorem twStop {p : Char → Bool} {c : Char} (h : p c = false) (t : Str) :
    (c :: t).takeWhile p = [] := by
  simp [List.takeWhile_cons, h]

theorem dwStop {p : Char → Bool} {c : Char} (h : p c = false) (t : Str) :
    (c :: t).dropWhile p = c :: t := by
  simp [List.dropWhile_cons, h]

/-! ## Lemmas about `natStr` (Python `str(n)`) -/

theorem digitChar_isDigit {n : Nat} (h : n < 10) : isDigitC (digitChar n) = true := by
  interval_cases n <;> decide

theorem digitChar_toNat {n : Nat} (h : n < 10) : (digitChar n).toNat - 48 = n := by
  interval_cases n <;> decide

theorem digitChar_ne_zero {n : Nat} (h0 : 0 < n) (h : n < 10) : digitChar n ≠ '0' := by
  interval_cases n <;> decide

theorem natStrAux_ne_nil {f : Nat} (hf : 0 < f) (n : Nat) : natStrAux f n ≠ [] := by
  cases f with
  | zero => omega
  | succ g =>
    simp only [natStrAux]
    split <;> simp

theorem natStrAux_digits : ∀ f n, ∀ c ∈ natStrAux f n, isDigitC c = true := by
  intro f
  induction f with
  | zero => intro n c hc; simp [natStrAux] at hc
  | succ g ih =>
    intro n c hc
    simp only [natStrAux] at hc
    split at hc
    · simp at hc
      subst hc
      exact digitChar_isDigit (by omega)
    · simp at hc
      rcases hc with hc | hc
      · exact ih _ c hc
      · subst hc
        exact digitChar_isDigit (Nat.mod_lt _ (by omega))

theorem natOfDigits_append_one (l : Str) (c : Char) :
    natOfDigits (l ++ [c]) = 10 * natOfDigits l + (c.toNat - 48) := by
  simp [natOfDigits, List.foldl_append, Nat.mul_comm]

theorem natStrAux_eval : ∀ f n, n < 10 ^ f → natOfDigits (natStrAux f n) = n := by
  intro f
  induction f with
  | zero => intro n h; interval_cases n; simp [natStrAux, natOfDigits]
  | succ g ih =>
    intro n h
    simp only [natStrAux]
    split
    · rename_i h10
      show natOfDigits ([] ++ [digitChar n]) = n
      rw [natOfDigits_append_one]
      simp [natOfDigits, digitChar_toNat h10]
    · rename_i h10
      rw [natOfDigits_append_one]
      have hdiv : n / 10 < 10 ^ g := by
        rw [Nat.div_lt_iff_lt_mul (by omega)]
        calc n < 10 ^ (g + 1) := h
        _ = 10 ^ g * 10 := by ring
      rw [ih _ hdiv, digitChar_toNat (Nat.mod_lt _ (by omega))]
      omega

theorem natStrAux_head_ne_zero :
    ∀ f n, n < 10 ^ f → 0 < n → ∀ c, (natStrAux f n).head? = some c → c ≠ '0' := by
  intro f
  induction f with
  | zero => intro n h; omega
  | succ g ih =>
    intro n h h0 c hc
    simp only [natStrAux] at hc
    split at hc
    · simp at hc
      subst hc
      exact digitChar_ne_zero h0 (by omega)
    · rename_i h10
      have hdiv : n / 10 < 10 ^ g := by
        rw [Nat.div_lt_iff_lt_mul (by omega)]
        calc n < 10 ^ (g + 1) := h
        _ = 10 ^ g * 10 := by ring
      have hne : natStrAux g (n / 10) ≠ [] := by
        apply natStrAux_ne_nil
        cases g with
        | zero => omega
        | succ _ => omega
      rw [List.head?_append_of_ne_nil _ hne] at hc
      exact ih _ hdiv (by omega) c hc

theorem nat_lt_pow_self (n : Nat) : n < 10 ^ (n + 1) := by
  calc n < 10 ^ n := Nat.lt_pow_self (by omega) n
  _ ≤ 10 ^ (n + 1) := Nat.pow_le_pow_right (by omega) (by omega)

theorem natStr_digits (n : Nat) : ∀ c ∈ natStr n, isDigitC c = true :=
  natStrAux_digits (n + 1) n

theorem natStr_ne_nil (n : Nat) : natStr n ≠ [] :=
  natStrAux_ne_nil (by omega) n

theorem natOfDigits_natStr (n : Nat) : natOfDigits (natStr n) = n :=
  natStrAux_eval (n + 1) n (nat_lt_pow_self n)

theorem natStr_inj {a b : Nat} (h : natStr a = natStr b) : a = b := by
  have := natOfDigits_natStr a
  rw [h, natOfDigits_natStr] at this
  omega

theorem natStr_head_zero {n : Nat} (h : (natStr n).head? = some '0') : n = 0 := by
  by_contra h0
  exact natStrAux_head_ne_zero (n + 1) n (nat_lt_pow_self n) (by omega) '0' h rfl

/-! ## Lemmas about the tesseract merge loop -/

theorem keys_pred_setK {P : Str → Prop} {m : CaseMap} {k : Str} (v : Str)
    (hP : ∀ k' ∈ keysOf m, P k') (hk : P k) :
    ∀ k' ∈ keysOf (setK m k v), P k' := by
  intro k' h'
  by_cases hm : k ∈ keysOf m
  · rw [keysOf_setK_of_mem v hm] at h'
    exact hP _ h'
  · rw [keysOf_setK_of_not_mem v hm] at h'
    rcases List.mem_append.1 h' with h' | h'
    · exact hP _ h'
    · simp at h'
      subst h'
      exact hk

/-- One tesseract step only appends to the value of a key that is already present. -/
theorem tessStep_extend {m : CaseMap} {lk : Option Str} {b k v : Str}
    (h : lookupM m k = some v) :
    ∃ x, lookupM (tessStep m lk b).1 k = some (v ++ x) := by
  cases hp : _tesseract_parse_serial b with
  | none =>
    cases lk with
    | none =>
      refine ⟨[], ?_⟩
      simp only [tessStep, hp]
      simpa using h
    | some k0 =>
      by_cases hk : k = k0
      · subst hk
        refine ⟨"\n\n".data ++ b, ?_⟩
        simp only [tessStep, hp]
        rw [lookup_setK_self]
        simp [getDM, h]
      · refine ⟨[], ?_⟩
        simp only [tessStep, hp]
        rw [lookup_setK_ne m _ hk, h]
        simp
  | some ms =>
    obtain ⟨main, sub⟩ := ms
    cases sub with
    | some s =>
      by_cases hk : k = natStr main
      · subst hk
        refine ⟨"\n\n".data ++ connMarker main s ++ '\n' :: b, ?_⟩
        simp only [tessStep, hp]
        rw [lookup_setK_self]
        simp [getDM, h]
      · refine ⟨[], ?_⟩
        simp only [tessStep, hp]
        rw [lookup_setK_ne m _ hk, h]
        simp
    | none =>
      by_cases hk : k = natStr main
      · subst hk
        have hh : hasKey m (natStr main) = true := by simp [hasKey, h]
        refine ⟨"\n\n".data ++ b, ?_⟩
        simp only [tessStep, hp]
        rw [if_pos hh, lookup_setK_self]
        simp [getDM, h]
      · refine ⟨[], ?_⟩
        simp only [tessStep, hp]
        by_cases hh : hasKey m (natStr main) = true
        · rw [if_pos hh, lookup_setK_ne m _ hk, h]
          simp
        · rw [if_neg hh, lookup_setK_ne m _ hk, h]
          simp

/-- The tesseract merge loop only ever appends to the value of an existing key. -/
theorem tessFold_extend :
    ∀ (l : List Str) (st : CaseMap × Option Str) {k v : Str},
      lookupM st.1 k = some v →
      ∃ w, lookupM (tessFold l st).1 k = some (v ++ w) := by
  intro l
  induction l with
  | nil =>
    intro st k v h
    exact ⟨[], by simpa [tessFold] using h⟩
  | cons b t ih =>
    intro st k v h
    obtain ⟨m, lk⟩ := st
    obtain ⟨x, hx⟩ := @tessStep_extend m lk b k v h
    obtain ⟨w, hw⟩ := ih (tessStep m lk b) hx
    exact ⟨x ++ w, by simpa [tessFold, List.append_assoc] using hw⟩

/-- Key/lastKey invariant of the tesseract loop: every key is `natStr` of some
natural and keys are distinct. -/
theorem tessStep_keys {m : CaseMap} {lk : Option Str} {b : Str}
    (hK : ∀ k ∈ keysOf m, ∃ n, k = natStr n)
    (hL : ∀ s, lk = some s → ∃ n, s = natStr n)
    (hN : (keysOf m).Nodup) :
    (∀ k ∈ keysOf (tessStep m lk b).1, ∃ n, k = natStr n) ∧
    (∀ s, (tessStep m lk b).2 = some s → ∃ n, s = natStr n) ∧
    (keysOf (tessStep m lk b).1).Nodup := by
  cases hp : _tesseract_parse_serial b with
  | none =>
    cases lk with
    | none =>
      simp only [tessStep, hp]
      exact ⟨hK, by simp, hN⟩
    | some k0 =>
      simp only [tessStep, hp]
      exact ⟨keys_pred_setK _ hK (hL k0 rfl), fun s hs => hL s hs,
        nodup_keysOf_setK _ hN⟩
  | some ms =>
    obtain ⟨main, sub⟩ := ms
    cases sub with
    | some s =>
      simp only [tessStep, hp]
      refine ⟨keys_pred_setK _ hK ⟨main, rfl⟩, ?_, nodup_keysOf_setK _ hN⟩
      rintro s' ⟨rfl⟩
      exact ⟨main, rfl⟩
    | none =>
      simp only [tessStep, hp]
      by_cases hh : hasKey m (natStr main) = true <;>
        [rw [if_pos hh]; rw [if_neg hh]] <;>
        · refine ⟨keys_pred_setK _ hK ⟨main, rfl⟩, ?_, nodup_keysOf_setK _ hN⟩
          rintro s' ⟨rfl⟩
          exact ⟨main, rfl⟩

theorem tessFold_keys :
    ∀ (l : List Str) (st : CaseMap × Option Str),
      (∀ k ∈ keysOf st.1, ∃ n, k = natStr n) →
      (∀ s, st.2 = some s → ∃ n, s = natStr n) →
      (keysOf st.1).Nodup →
      (∀ k ∈ keysOf (tessFold l st).1, ∃ n, k = natStr n) ∧
        (keysOf (tessFold l st).1).Nodup := by
  intro l
  induction l with
  | nil => intro st hK hL hN; exact ⟨hK, hN⟩
  | cons b t ih =>
    intro st hK hL hN
    obtain ⟨m, lk⟩ := st
    obtain ⟨h1, h2, h3⟩ := tessStep_keys (b := b) hK hL hN
    exact ih (tessStep m lk b) h1 h2 h3

/-- While no key has been created, orphan blocks are skipped. -/
theorem tessFold_all_orphan :
    ∀ (l : List Str), (∀ b ∈ l, _tesseract_parse_serial b = none) →
      tessFold l ([], none) = ([], none) := by
  intro l
  induction l with
  | nil => intro _; rfl
  | cons b t ih =>
    intro h
    have hb := h b (by simp)
    show tessFold t (tessStep [] none b) = _
    have hstep : tessStep [] none b = ([], none) := by simp [tessStep, hb]
    rw [hstep]
    exact ih (fun b' hb' => h b' (by simp [hb']))

/-- Leading orphan blocks are processed into nothing: the fold over
`pre ++ post` with all of `pre` unparsable equals the fold over `post`. -/
theorem tessFold_append (l1 l2 : List Str) (st : CaseMap × Option Str) :
    tessFold (l1 ++ l2) st = tessFold l2 (tessFold l1 st) := by
  induction l1 generalizing st with
  | nil => rfl
  | cons b t ih => simpa [tessFold] using ih (tessStep st.1 st.2 b)

/-! ## Lemmas about the azure merge loop -/

theorem startsWith_head {s : Str} {c : Char} {pat : Str}
    (h : startsWithS s (c :: pat) = true) : s.head? = some c := by
  cases s with
  | nil => simp [startsWithS] at h
  | cons c' t =>
    simp [startsWithS] at h
    simp [h.1]

/-- One azure step maps the value of an existing key to a superstring. -/
theorem azureStep_subseg {m : CaseMap} {lk : Option Str}
    {e : Option Nat × Option Nat × Str} {k v : Str}
    (h : lookupM m k = some v) :
    ∃ v', lookupM (azureStep m lk e).1 k = some v' ∧ SubSeg v v' := by
  obtain ⟨mo, so, b⟩ := e
  cases mo with
  | none =>
    cases lk with
    | none => exact ⟨v, by simpa [azureStep] using h, subseg_refl v⟩
    | some k0 =>
      by_cases hk : k = k0
      · subst hk
        refine ⟨v ++ ("\n\n".data ++ b), ?_, subseg_app_right _ (subseg_refl v)⟩
        simp only [azureStep]
        rw [lookup_setK_self]
        simp [getDM, h]
      · refine ⟨v, ?_, subseg_refl v⟩
        simp only [azureStep]
        rw [lookup_setK_ne m _ hk]
        exact h
  | some main =>
    cases so with
    | some s =>
      by_cases hk : k = natStr main
      · subst hk
        have hh : hasKey m (natStr main) = true := by simp [hasKey, h]
        refine ⟨v ++ ("\n\n".data ++ connMarker main s ++ '\n' :: b), ?_,
          subseg_app_right _ (subseg_refl v)⟩
        simp only [azureStep]
        rw [if_pos hh, lookup_setK_self]
        simp [getDM, h]
      · refine ⟨v, ?_, subseg_refl v⟩
        simp only [azureStep]
        by_cases hh : hasKey m (natStr main) = true <;>
          [rw [if_pos hh]; rw [if_neg hh]] <;> rw [lookup_setK_ne m _ hk] <;> exact h
    | none =>
      by_cases hk : k = natStr main
      · subst hk
        have hh : hasKey m (natStr main) = true := by simp [hasKey, h]
        simp only [azureStep]
        rw [if_pos hh]
        by_cases hc : startsWithS (getDM m (natStr main)) "--- Connected".data = true
        · rw [if_pos hc]
          refine ⟨b ++ "\n\n".data ++ getDM m (natStr main), ?_, ?_⟩
          · rw [lookup_setK_self]
          · simp only [getDM, h, Option.getD_some]
            exact subseg_app_left _ (subseg_refl v)
        · rw [if_neg hc]
          refine ⟨v ++ ("\n\n".data ++ b), ?_, subseg_app_right _ (subseg_refl v)⟩
          rw [lookup_setK_self]
          simp [getDM, h]
      · refine ⟨v, ?_, subseg_refl v⟩
        simp only [azureStep]
        by_cases hh : hasKey m (natStr main) = true
        · rw [if_pos hh]
          by_cases hc : startsWithS (getDM m (natStr main)) "--- Connected".data = true <;>
            [rw [if_pos hc]; rw [if_neg hc]] <;> rw [lookup_setK_ne m _ hk] <;> exact h
        · rw [if_neg hh, lookup_setK_ne m _ hk]
          exact h

theorem azureFold_subseg :
    ∀ (l : List (Option Nat × Option Nat × Str)) (st : CaseMap × Option Str) {k v : Str},
      lookupM st.1 k = some v →
      ∃ v', lookupM (azureFold l st).1 k = some v' ∧ SubSeg v v' := by
  intro l
  induction l with
  | nil => intro st k v h; exact ⟨v, h, subseg_refl v⟩
  | cons e t ih =>
    intro st k v h
    obtain ⟨m, lk⟩ := st
    obtain ⟨v1, hv1, hs1⟩ := @azureStep_subseg m lk e k v h
    obtain ⟨v2, hv2, hs2⟩ := ih (azureStep m lk e) hv1
    exact ⟨v2, hv2, subseg_trans hs1 hs2⟩

theorem azureFold_append (l1 l2 : List (Option Nat × Option Nat × Str))
    (st : CaseMap × Option Str) :
    azureFold (l1 ++ l2) st = azureFold l2 (azureFold l1 st) := by
  induction l1 generalizing st with
  | nil => rfl
  | cons e t ih => simpa [azureFold] using ih (azureStep st.1 st.2 e)

theorem azureFold_all_orphan :
    ∀ (l : List (Option Nat × Option Nat × Str)),
      (∀ e ∈ l, e.1 = none) → azureFold l ([], none) = ([], none) := by
  intro l
  induction l with
  | nil => intro _; rfl
  | cons e t ih =>
    intro h
    obtain ⟨mo, so, b⟩ := e
    have he : mo = none := h (mo, so, b) (by simp)
    subst he
    show azureFold t (azureStep [] none (none, so, b)) = _
    have hstep : azureStep [] none (none, so, b) = ([], none) := by simp [azureStep]
    rw [hstep]
    exact ih (fun e' he' => h e' (by simp [he']))

/-!
## Claim C1
-/

/-- C1: for every input text in which no candidate block yields a leading serial
under the engine's serial pattern (tesseract/azure: every block of the serial
boundary split parses to no serial; paddle: the serial pattern has no match),
each pipeline returns an empty mapping rather than raising an error. -/
theorem C1_no_parsable_serial_empty (t1 t2 t3 : Str)
    (h1 : (tessBlocks t1).all (fun b => (_tesseract_parse_serial b).isNone) = true)
    (h2 : (azureClassified t2).all (fun e => e.1.isNone) = true)
    (h3 : paddleMatches t3 = []) :
    segment_cases_tesseract t1 = [] ∧ segment_cases_azure t2 = [] ∧
      segment_cases_paddle t3 = [] := by
  refine ⟨?_, ?_, ?_⟩
  · unfold segment_cases_tesseract
    rw [tessFold_all_orphan]
    intro b hb
    have hb' := List.all_eq_true.1 h1 b hb
    simpa using hb'
  · unfold segment_cases_azure azureSegmentPre
    rw [azureFold_all_orphan]
    · rfl
    · intro e he
      have he' := List.all_eq_true.1 h2 e he
      simpa using he'
  · unfold segment_cases_paddle
    rw [h3]

theorem C1_witness :
    segment_cases_tesseract "abc xyz".data = [] ∧
      segment_cases_azure "abc xyz".data = [] ∧
      segment_cases_paddle "abc xyz".data = [] :=
  C1_no_parsable_serial_empty "abc xyz".data "abc xyz".data "abc xyz".data
    (by decide) (by decide) (by decide)

/-!
## Claim C9
-/

/-- C9: the dispatcher raises a configuration error (`ValueError`, modelled as
`Except.error`) for every engine identifier other than exactly `"tesseract"`,
`"azure"`, `"paddle"`, and never returns a mapping in that case; each of the
three recognized identifiers returns the result of the corresponding pipeline,
with no default fallback. -/
theorem C9_dispatcher (text : Str) (e : String)
    (he : e ≠ "tesseract" ∧ e ≠ "azure" ∧ e ≠ "paddle") :
    segment_cases text e = Except.error ("Unsupported OCR engine: " ++ e) ∧
      (∀ m : CaseMap, segment_cases text e ≠ Except.ok m) ∧
      segment_cases text "tesseract" = Except.ok (segment_cases_tesseract text) ∧
      segment_cases text "azure" = Except.ok (segment_cases_azure text) ∧
      segment_cases text "paddle" = Except.ok (segment_cases_paddle text) := by
  obtain ⟨h1, h2, h3⟩ := he
  refine ⟨?_, ?_, ?_, ?_, ?_⟩
  · simp [segment_cases, h1, h2, h3]
  · intro m
    simp [segment_cases, h1, h2, h3]
  · rfl
  · simp [segment_cases]
  · simp [segment_cases]

theorem C9_witness :
    segment_cases "x".data "easyocr" =
        Except.error ("Unsupported OCR engine: " ++ "easyocr") ∧
      (∀ m : CaseMap, segment_cases "x".data "easyocr" ≠ Except.ok m) ∧
      segment_cases "x".data "tesseract" = Except.ok (segment_cases_tesseract "x".data) ∧
      segment_cases "x".data "azure" = Except.ok (segment_cases_azure "x".data) ∧
      segment_cases "x".data "paddle" = Except.ok (segment_cases_paddle "x".data) :=
  C9_dispatcher "x".data "easyocr" (by refine ⟨?_, ?_, ?_⟩ <;> decide)

/-!
## Claim C4
-/

theorem range_filter_lt (p : Nat) :
    ∀ m, (List.range m).filter (fun i => decide (p < i)) =
      (List.range (m - (p + 1))).map (fun i => p + 1 + i) := by
  intro m
  induction m with
  | zero => simp
  | succ m ih =>
    rw [List.range_succ, List.filter_append, ih]
    by_cases hm : p < m
    · have h1 : m + 1 - (p + 1) = (m - (p + 1)) + 1 := by omega
      rw [h1, List.range_succ, List.map_append]
      simp only [List.filter_cons, List.filter_nil, decide_eq_true_eq, hm, if_pos,
        List.map_cons, List.map_nil]
      have h2 : p + 1 + (m - (p + 1)) = m := by omega
      rw [h2]
    · have h1 : m + 1 - (p + 1) = m - (p + 1) := by omega
      have h0 : m - (p + 1) = 0 := by omega
      simp [hm, h1, h0]

theorem extendSerials_eq :
    ∀ (k : Nat) (base : List Str) (last : Nat),
      extendSerials k base last =
        base ++ (List.range k).map (fun i => natStr (last + 1 + i)) := by
  intro k
  induction k with
  | zero => intro base last; simp [extendSerials]
  | succ k ih =>
    intro base last
    show extendSerials k (base ++ [natStr (last + 1)]) (last + 1) = _
    rw [ih, List.range_succ_eq_map, List.map_cons, List.map_map, List.append_assoc]
    simp only [List.cons_append, List.nil_append]
    congr 1
    congr 1
    apply List.map_congr_left
    intro a _
    simp only [Function.comp_apply]
    congr 1
    omega

/-- C4: `_infer_serials` implements the specification's gap-fill rule exactly
(`gapFillSpec` is written from the spec's own sentence), and in particular
`prev_inline = 7`, `found = ["10","11"]`, `n_blocks = 4` yields
`["8","9","10","11"]`. -/
theorem C4_infer_serials_gap_fill :
    (∀ (p : Nat) (found : List Str) (n : Nat),
        _infer_serials (some p) found n = gapFillSpec p found n) ∧
      (∀ (found : List Str) (n : Nat),
        _infer_serials none found n = gapFillSpec 0 found n) ∧
      _infer_serials (some 7) ["10".data, "11".data] 4 =
        ["8".data, "9".data, "10".data, "11".data] := by
  have main : ∀ (po : Option Nat) (found : List Str) (n : Nat),
      _infer_serials po found n = gapFillSpec (po.getD 0) found n := by
    intro po found n
    cases found with
    | nil => rfl
    | cons f0 rest =>
      simp only [_infer_serials, gapFillSpec]
      have hmin : rest.foldl (fun a s => min a (strMainNat s)) (strMainNat f0) =
          (rest.map strMainNat).foldl min (strMainNat f0) := by
        rw [List.foldl_map]
      rw [hmin]
      have hgap : (List.range ((rest.map strMainNat).foldl min (strMainNat f0) -
            (po.getD 0 + 1))).map (fun i => natStr (po.getD 0 + 1 + i)) =
          ((List.range ((rest.map strMainNat).foldl min (strMainNat f0))).filter
            (fun i => decide (po.getD 0 < i))).map natStr := by
        rw [range_filter_lt, List.map_map]
        rfl
      rw [← hgap]
      set between := (List.range ((rest.map strMainNat).foldl min (strMainNat f0) -
        (po.getD 0 + 1))).map (fun i => natStr (po.getD 0 + 1 + i)) with hb
      have hne : between ++ f0 :: rest ≠ [] := by simp
      have hlast : (between ++ f0 :: rest).getLast? =
          some ((between ++ f0 :: rest).getLastD f0) := by
        cases hgl : (between ++ f0 :: rest).getLast? with
        | none => exact absurd (List.getLast?_eq_none_iff.1 hgl) hne
        | some s => rw [List.getLastD_eq_getLast?, hgl]; rfl
      rw [hlast]
      rw [extendSerials_eq]
  refine ⟨fun p => main (some p), fun found n => main none found n, ?_⟩
  decide

/-!
## Claim C8
-/



theorem eqWsEq_cons {t : Str} (c : Char) (h : eqWsEq t = true) :
    eqWsEq (c :: t) = true := by
  simp [eqWsEq, h]

theorem eqWsEq_of_split {w : Str} (p q : Str) (hw : ∀ c ∈ w, pySpace c = true) :
    eqWsEq (p ++ '=' :: (w ++ '=' :: q)) = true := by
  induction p with
  | nil =>
    simp only [List.nil_append, eqWsEq]
    rw [dwApp hw, dwStop (show pySpace '=' = false by decide)]
    simp [headIsEq]
  | cons c t ih => exact eqWsEq_cons c ih

theorem twMem {p : Char → Bool} : ∀ {l : Str} {c : Char}, c ∈ l.takeWhile p → p c = true := by
  intro l
  induction l with
  | nil => intro c hc; simp at hc
  | cons a t ih =>
    intro c hc
    by_cases ha : p a = true
    · rw [List.takeWhile_cons_of_pos ha] at hc
      rcases List.mem_cons.1 hc with rfl | hc
      · exact ha
      · exact ih hc
    · rw [List.takeWhile_cons_of_neg ha] at hc
      simp at hc

theorem dwHead {p : Char → Bool} :
    ∀ {l : Str} {c : Char}, (l.dropWhile p).head? = some c → p c = false := by
  intro l
  induction l with
  | nil => intro c hc; simp at hc
  | cons a t ih =>
    intro c hc
    by_cases ha : p a = true
    · rw [List.dropWhile_cons_of_pos ha] at hc
      exact ih hc
    · rw [List.dropWhile_cons_of_neg ha] at hc
      simp at hc
      rw [← hc]
      exact Bool.eq_false_iff.2 ha

theorem digit_not_space {c : Char} (h : isDigitC c = true) : pySpace c = false := by
  by_contra hc
  rw [Bool.not_eq_false] at hc
  simp only [pySpace, Bool.or_eq_true, beq_iff_eq] at hc
  rcases hc with ((((h1 | h1) | h1) | h1) | h1) | h1 <;> subst h1 <;>
    exact absurd h (by decide)

theorem digit_ne_dot {c : Char} (h : isDigitC c = true) : (c != '.') = true := by
  have : c ≠ '.' := fun hh => absurd h (by subst hh; decide)
  simpa [bne] using this

/-- C8 counterexample: the noise normalizer is not idempotent on the line
`"1 ==X"`: one pass yields `"1 =X"`, a second pass yields `"1 X"`. -/
theorem C8_counterexample :
    _normalize_ocr_noise (_normalize_ocr_noise "1 ==X".data) ≠
      _normalize_ocr_noise "1 ==X".data ∧
      _normalize_ocr_noise "1 ==X".data = "1 =X".data ∧
      _normalize_ocr_noise "1 =X".data = "1 X".data := by
  refine ⟨?_, by decide, by decide⟩
  decide

/-- `takeWhile` keeps a list all of whose elements satisfy the predicate. -/
theorem twSelf {p : Char → Bool} {l : Str} (h : ∀ c ∈ l, p c = true) :
    l.takeWhile p = l := by
  have := twApp (p := p) (w := l) (r := []) h
  simpa using this

theorem normFixed {w d sub g5 : Str}
    (hw : ∀ c ∈ w, pySpace c = true)
    (hd : d ≠ [])
    (hdd : ∀ c ∈ d, isDigitC c = true)
    (hd3 : d.length ≤ 3)
    (hsub : sub = [] ∨ ∃ e, sub = '.' :: e ∧ e ≠ [] ∧ (∀ c ∈ e, isDigitC c = true))
    (hg5 : g5 = [] ∨ ∃ c g', g5 = c :: g' ∧ pySpace c = false ∧ c ≠ '=')
    (hg5nl : ∀ c ∈ g5, (c != '\n') = true) :
    _normalize_ocr_noise (w ++ d ++ sub ++ ' ' :: g5) = w ++ d ++ sub ++ ' ' :: g5 := by
  obtain ⟨c0, d', rfl⟩ : ∃ c0 d', d = c0 :: d' := by
    cases d with
    | nil => exact absurd rfl hd
    | cons a b => exact ⟨a, b, rfl⟩
  have hc0 : isDigitC c0 = true := hdd _ (by simp)
  -- the input re-associated to peel the leading whitespace
  have hassoc : w ++ (c0 :: d') ++ sub ++ ' ' :: g5 =
      w ++ ((c0 :: d') ++ (sub ++ ' ' :: g5)) := by simp
  have h1t : (w ++ (c0 :: d') ++ sub ++ ' ' :: g5).takeWhile pySpace = w := by
    rw [hassoc, twApp hw, (by simp : (c0 :: d') ++ (sub ++ ' ' :: g5) =
      c0 :: (d' ++ sub ++ ' ' :: g5)), twStop (digit_not_space hc0)]
    try simp
  have h1d : (w ++ (c0 :: d') ++ sub ++ ' ' :: g5).dropWhile pySpace =
      (c0 :: d') ++ (sub ++ ' ' :: g5) := by
    rw [hassoc, dwApp hw, (by simp : (c0 :: d') ++ (sub ++ ' ' :: g5) =
      c0 :: (d' ++ sub ++ ' ' :: g5)), dwStop (digit_not_space hc0)]
    try simp
  -- digits
  have hsubhead : ((sub ++ ' ' :: g5).takeWhile isDigitC) = [] := by
    rcases hsub with rfl | ⟨e, rfl, he, hee⟩
    · exact twStop (by decide) _
    · exact twStop (by decide) _
  have h2t : takeDigits ((c0 :: d') ++ (sub ++ ' ' :: g5)) = c0 :: d' := by
    unfold takeDigits
    rw [twApp hdd, hsubhead]
    simp
  have h2d : dropDigits ((c0 :: d') ++ (sub ++ ' ' :: g5)) = sub ++ ' ' :: g5 := by
    unfold dropDigits
    rw [dwApp hdd]
    rcases hsub with rfl | ⟨e, rfl, he, hee⟩
    · exact dwStop (by decide) _
    · exact dwStop (by decide) _
  have hg5tw : g5.takeWhile pySpace = [] := by
    rcases hg5 with rfl | ⟨c, g', rfl, hcw, hce⟩
    · simp
    · exact twStop hcw _
  have hg5dw : g5.dropWhile pySpace = g5 := by
    rcases hg5 with rfl | ⟨c, g', rfl, hcw, hce⟩
    · simp
    · exact dwStop hcw _
  have hg5self : g5.takeWhile (· != '\n') = g5 := twSelf hg5nl
  have hguard : ((c0 :: d').isEmpty || decide ((c0 :: d').length > 3)) = false := by
    simp only [List.isEmpty_cons, Bool.false_or, decide_eq_false_iff_not]
    omega
  simp only [_normalize_ocr_noise, h1t, h1d, h2t, h2d, hguard, Bool.false_eq_true, if_false]
  rcases hsub with rfl | ⟨e, rfl, he, hee⟩ <;> rcases hg5 with rfl | ⟨c, g', rfl, hcw, hce⟩
  · rfl
  · simp only [List.nil_append]
    simp [hcw]
    intro _
    rw [List.dropWhile_cons_of_pos (by decide : pySpace ' ' = true), hg5dw]
    split
    · rename_i t heq
      cases heq
      exact absurd rfl hce
    · exact hg5self
  · obtain ⟨e0, e'', rfl⟩ : ∃ a b, e = a :: b := by
      cases e with
      | nil => exact absurd rfl he
      | cons a b => exact ⟨a, b, rfl⟩
    have he0 : isDigitC e0 = true := hee e0 (by simp)
    have hee' : ∀ c ∈ e'', isDigitC c = true := fun c hc => hee c (by simp [hc])
    have h3t : takeDigits (e0 :: (e'' ++ [' '])) = e0 :: e'' := by
      unfold takeDigits
      rw [List.takeWhile_cons_of_pos he0, twApp hee', twStop (by decide)]
      simp
    have h3d : dropDigits (e0 :: (e'' ++ [' '])) = [' '] := by
      unfold dropDigits
      rw [List.dropWhile_cons_of_pos he0, dwApp hee', dwStop (by decide)]
    simp [he0, h3t, h3d]
    intro _ hl
    exact absurd hl (by decide)
  · obtain ⟨e0, e'', rfl⟩ : ∃ a b, e = a :: b := by
      cases e with
      | nil => exact absurd rfl he
      | cons a b => exact ⟨a, b, rfl⟩
    have he0 : isDigitC e0 = true := hee e0 (by simp)
    have hee' : ∀ x ∈ e'', isDigitC x = true := fun x hx => hee x (by simp [hx])
    have h3t : takeDigits (e0 :: (e'' ++ ' ' :: c :: g')) = e0 :: e'' := by
      unfold takeDigits
      rw [List.takeWhile_cons_of_pos he0, twApp hee', twStop (by decide)]
      simp
    have h3d : dropDigits (e0 :: (e'' ++ ' ' :: c :: g')) = ' ' :: c :: g' := by
      unfold dropDigits
      rw [List.dropWhile_cons_of_pos he0, dwApp hee', dwStop (by decide)]
    simp [he0, h3t, h3d, hcw]
    intro _
    rw [List.dropWhile_cons_of_pos (by decide : pySpace ' ' = true), hg5dw]
    split
    · rename_i t heq
      cases heq
      exact absurd rfl hce
    · exact hg5self

theorem eqWsEq_from {l : Str} (P X t : Str) (hl : l = P ++ X)
    (hX : X.dropWhile pySpace = '=' :: t)
    (hch : ∃ tt, t.dropWhile pySpace = '=' :: tt) : eqWsEq l = true := by
  obtain ⟨tt, htt⟩ := hch
  have h1 : X = X.takeWhile pySpace ++ '=' :: t := by
    rw [← hX, List.takeWhile_append_dropWhile]
  have h2 : t = t.takeWhile pySpace ++ '=' :: tt := by
    rw [← htt, List.takeWhile_append_dropWhile]
  have hl2 : l = (P ++ X.takeWhile pySpace) ++ '=' :: (t.takeWhile pySpace ++ '=' :: tt) := by
    rw [hl]
    conv_lhs => rw [h1]
    rw [← h2]
    simp
  rw [hl2]
  exact eqWsEq_of_split _ _ (fun c hc => twMem hc)

theorem r5Char {l : Str} (P X r5 : Str) (hl : l = P ++ X)
    (h5 : (∃ t4, X.dropWhile pySpace = '=' :: t4 ∧ r5 = t4.dropWhile pySpace) ∨
          ((∀ t4, X.dropWhile pySpace ≠ '=' :: t4) ∧ r5 = X.dropWhile pySpace)) :
    (r5.takeWhile (· != '\n') = [] ∨
      ∃ ch g5t, r5.takeWhile (· != '\n') = ch :: g5t ∧ pySpace ch = false ∧
        (ch = '=' → eqWsEq l = true)) ∧
    (∀ c ∈ r5.takeWhile (· != '\n'), (c != '\n') = true) := by
  refine ⟨?_, fun c hc => twMem (p := fun x => x != '\n') hc⟩
  rcases h5 with ⟨t4, hX4, hr5⟩ | ⟨hns, hr5⟩
  · subst hr5
    cases hgr5 : List.dropWhile pySpace t4 with
    | nil => left; rfl
    | cons c5 t5 =>
      have hc5 : pySpace c5 = false := dwHead (by rw [hgr5]; rfl)
      have hc5n : (c5 != '\n') = true := by
        have hne : c5 ≠ '\n' := fun hh => by subst hh; exact absurd hc5 (by decide)
        simpa [bne] using hne
      have hTW : (c5 :: t5).takeWhile (· != '\n') = c5 :: t5.takeWhile (· != '\n') := by
        rw [List.takeWhile_cons]
        simp [hc5n]
      exact Or.inr ⟨c5, t5.takeWhile (· != '\n'), hTW, hc5,
        fun hc => eqWsEq_from P X t4 hl hX4 ⟨t5, by rw [← hc]; exact hgr5⟩⟩
  · subst hr5
    cases hgr4 : List.dropWhile pySpace X with
    | nil => left; rfl
    | cons c4 t4 =>
      have hc4 : pySpace c4 = false := dwHead (by rw [hgr4]; rfl)
      have hc4n : (c4 != '\n') = true := by
        have hne : c4 ≠ '\n' := fun hh => by subst hh; exact absurd hc4 (by decide)
        simpa [bne] using hne
      have hTW : (c4 :: t4).takeWhile (· != '\n') = c4 :: t4.takeWhile (· != '\n') := by
        rw [List.takeWhile_cons]
        simp [hc4n]
      exact Or.inr ⟨c4, t4.takeWhile (· != '\n'), hTW, hc4,
        fun hc => absurd (hc ▸ hgr4) (hns t4)⟩

theorem normShape (l : Str) :
    _normalize_ocr_noise l = l ∨
    ∃ w d sub g5, _normalize_ocr_noise l = w ++ d ++ sub ++ ' ' :: g5 ∧
      (∀ c ∈ w, pySpace c = true) ∧ d ≠ [] ∧ (∀ c ∈ d, isDigitC c = true) ∧ d.length ≤ 3 ∧
      (sub = [] ∨ ∃ e, sub = '.' :: e ∧ e ≠ [] ∧ (∀ c ∈ e, isDigitC c = true)) ∧
      (g5 = [] ∨ ∃ ch g5t, g5 = ch :: g5t ∧ pySpace ch = false ∧ (ch = '=' → eqWsEq l = true)) ∧
      (∀ c ∈ g5, (c != '\n') = true) := by
  obtain ⟨w, hgw⟩ : ∃ x, l.takeWhile pySpace = x := ⟨_, rfl⟩
  obtain ⟨r1, hgr1⟩ : ∃ x, l.dropWhile pySpace = x := ⟨_, rfl⟩
  obtain ⟨d, hgd⟩ : ∃ x, takeDigits r1 = x := ⟨_, rfl⟩
  obtain ⟨r2, hgr2⟩ : ∃ x, dropDigits r1 = x := ⟨_, rfl⟩
  have hwall : ∀ c ∈ w, pySpace c = true := fun c hc => twMem (hgw ▸ hc)
  have hdall : ∀ c ∈ d, isDigitC c = true := fun c hc => twMem ((hgd ▸ hc) : c ∈ takeDigits r1)
  have hsplit1 : l = w ++ (d ++ r2) := by
    rw [← hgw, ← hgd, ← hgr2]
    unfold takeDigits dropDigits
    rw [List.takeWhile_append_dropWhile, ← hgr1, List.takeWhile_append_dropWhile]
  simp only [_normalize_ocr_noise]
  rw [hgw, hgr1, hgd, hgr2]
  split
  · left
    rfl
  · rename_i hg1
    have hd_ne : d ≠ [] := by
      intro hh
      exact hg1 (by simp [hh])
    have hd3 : d.length ≤ 3 := by
      by_contra hh
      exact hg1 (by simp; omega)
    split
    · rename_i hsub1
      split at hsub1
      · rename_i b t
        simp only [List.tail_cons]
        obtain ⟨TD, hgTD⟩ : ∃ x, takeDigits (b :: t) = x := ⟨_, rfl⟩
        rw [hgTD]
        obtain ⟨r3, hgr3⟩ : ∃ x, dropDigits (b :: t) = x := ⟨_, rfl⟩
        rw [hgr3]
        have hTDne : TD ≠ [] := by
          rw [← hgTD]
          simp [takeDigits, List.takeWhile_cons, hsub1]
        have hTDdig : ∀ c ∈ TD, isDigitC c = true := by
          rw [← hgTD]
          exact fun c hc => twMem hc
        have HSUB : ('.' :: TD = ([] : Str) ∨
            ∃ e, '.' :: TD = '.' :: e ∧ e ≠ [] ∧ ∀ c ∈ e, isDigitC c = true) :=
          Or.inr ⟨TD, rfl, hTDne, hTDdig⟩
        have htd : b :: t = TD ++ r3 := by
          rw [← hgTD, ← hgr3]
          simp [takeDigits, dropDigits, List.takeWhile_append_dropWhile]
        split
        · left
          rfl
        · rename_i hws
          split
          · rename_i x4 t4 heq
            split at heq
            · rename_i t3
              have hl : l = (w ++ d ++ '.' :: TD ++ ['.']) ++ t3 := by
                rw [hsplit1, htd]
                simp
              right
              refine ⟨w, d, '.' :: TD, _, rfl, hwall, hd_ne, hdall, hd3, HSUB, ?_, ?_⟩
              · exact (r5Char (w ++ d ++ '.' :: TD ++ ['.']) t3 (List.dropWhile pySpace t4) hl (Or.inl ⟨t4, heq, rfl⟩)).1
              · exact (r5Char (w ++ d ++ '.' :: TD ++ ['.']) t3 (List.dropWhile pySpace t4) hl (Or.inl ⟨t4, heq, rfl⟩)).2

            · rename_i hnm
              have hl : l = (w ++ d ++ '.' :: TD) ++ r3 := by
                rw [hsplit1, htd]
                simp
              right
              refine ⟨w, d, '.' :: TD, _, rfl, hwall, hd_ne, hdall, hd3, HSUB, ?_, ?_⟩
              · exact (r5Char (w ++ d ++ '.' :: TD) r3 (List.dropWhile pySpace t4) hl (Or.inl ⟨t4, heq, rfl⟩)).1
              · exact (r5Char (w ++ d ++ '.' :: TD) r3 (List.dropWhile pySpace t4) hl (Or.inl ⟨t4, heq, rfl⟩)).2

          · rename_i hno
            split
            · rename_i t3
              have hl : l = (w ++ d ++ '.' :: TD ++ ['.']) ++ t3 := by
                rw [hsplit1, htd]
                simp
              have hns : ∀ t5, List.dropWhile pySpace t3 ≠ '=' :: t5 := fun t5 hh => hno t5 hh
              right
              refine ⟨w, d, '.' :: TD, _, rfl, hwall, hd_ne, hdall, hd3, HSUB, ?_, ?_⟩
              · exact (r5Char (w ++ d ++ '.' :: TD ++ ['.']) t3 (List.dropWhile pySpace t3) hl (Or.inr ⟨hns, rfl⟩)).1
              · exact (r5Char (w ++ d ++ '.' :: TD ++ ['.']) t3 (List.dropWhile pySpace t3) hl (Or.inr ⟨hns, rfl⟩)).2

            · rename_i hnm
              split at hno
              · rename_i t3x
                exact (hnm t3x rfl).elim
              rename_i hnm2
              have hl : l = (w ++ d ++ '.' :: TD) ++ r3 := by
                rw [hsplit1, htd]
                simp
              have hns : ∀ t5, List.dropWhile pySpace r3 ≠ '=' :: t5 := fun t5 hh => hno t5 hh
              right
              refine ⟨w, d, '.' :: TD, _, rfl, hwall, hd_ne, hdall, hd3, HSUB, ?_, ?_⟩
              · exact (r5Char (w ++ d ++ '.' :: TD) r3 (List.dropWhile pySpace r3) hl (Or.inr ⟨hns, rfl⟩)).1
              · exact (r5Char (w ++ d ++ '.' :: TD) r3 (List.dropWhile pySpace r3) hl (Or.inr ⟨hns, rfl⟩)).2
      · exact absurd hsub1 (by decide)
    · rename_i hsub1
      split
      · left
        rfl
      · rename_i hws
        split
        · rename_i x4 t4 heq
          split at heq
          · rename_i t3
            have hl : l = (w ++ d ++ ['.']) ++ t3 := by
              rw [hsplit1]
              simp
            right
            refine ⟨w, d, ([] : Str), _, rfl, hwall, hd_ne, hdall, hd3, Or.inl rfl, ?_, ?_⟩
            · exact (r5Char (w ++ d ++ ['.']) t3 (List.dropWhile pySpace t4) hl (Or.inl ⟨t4, heq, rfl⟩)).1
            · exact (r5Char (w ++ d ++ ['.']) t3 (List.dropWhile pySpace t4) hl (Or.inl ⟨t4, heq, rfl⟩)).2

          · rename_i hnm
            have hl : l = (w ++ d) ++ r2 := by
              rw [hsplit1]
              simp
            right
            refine ⟨w, d, ([] : Str), _, rfl, hwall, hd_ne, hdall, hd3, Or.inl rfl, ?_, ?_⟩
            · exact (r5Char (w ++ d) r2 (List.dropWhile pySpace t4) hl (Or.inl ⟨t4, heq, rfl⟩)).1
            · exact (r5Char (w ++ d) r2 (List.dropWhile pySpace t4) hl (Or.inl ⟨t4, heq, rfl⟩)).2

        · rename_i hno
          split
          · rename_i t3
            have hl : l = (w ++ d ++ ['.']) ++ t3 := by
              rw [hsplit1]
              simp
            have hns : ∀ t5, List.dropWhile pySpace t3 ≠ '=' :: t5 := fun t5 hh => hno t5 hh
            right
            refine ⟨w, d, ([] : Str), _, rfl, hwall, hd_ne, hdall, hd3, Or.inl rfl, ?_, ?_⟩
            · exact (r5Char (w ++ d ++ ['.']) t3 (List.dropWhile pySpace t3) hl (Or.inr ⟨hns, rfl⟩)).1
            · exact (r5Char (w ++ d ++ ['.']) t3 (List.dropWhile pySpace t3) hl (Or.inr ⟨hns, rfl⟩)).2

          · rename_i hnm
            split at hno
            · rename_i t3x
              exact (hnm t3x rfl).elim
            rename_i hnm2
            have hl : l = (w ++ d) ++ r2 := by
              rw [hsplit1]
              simp
            have hns : ∀ t5, List.dropWhile pySpace r2 ≠ '=' :: t5 := fun t5 hh => hno t5 hh
            right
            refine ⟨w, d, ([] : Str), _, rfl, hwall, hd_ne, hdall, hd3, Or.inl rfl, ?_, ?_⟩
            · exact (r5Char (w ++ d) r2 (List.dropWhile pySpace r2) hl (Or.inr ⟨hns, rfl⟩)).1
            · exact (r5Char (w ++ d) r2 (List.dropWhile pySpace r2) hl (Or.inr ⟨hns, rfl⟩)).2

/-- C8 (amended): the noise normalizer is not idempotent in general (see
`C8_counterexample`), but it is idempotent on every line that does not contain
an `=` followed, after only whitespace, by another `=` — on such lines the
second application leaves the first application's output unchanged. -/
theorem C8_normalize_idempotent_amended (l : Str) (h : eqWsEq l = false) :
    _normalize_ocr_noise (_normalize_ocr_noise l) = _normalize_ocr_noise l := by
  rcases normShape l with heq | ⟨w, d, sub, g5, hout, hw, hdne, hdd, hd3, hsub, hg5, hg5nl⟩
  · rw [heq]
    exact heq
  · rw [hout]
    apply normFixed hw hdne hdd hd3 hsub ?_ hg5nl
    rcases hg5 with h0 | ⟨c, g', hg, hc, himp⟩
    · exact Or.inl h0
    · exact Or.inr ⟨c, g', hg, hc, fun hch => absurd (himp hch) (by simp [h])⟩

theorem C8_witness :
    eqWsEq ("1 AB".data) = false ∧
      _normalize_ocr_noise (_normalize_ocr_noise ("1 AB".data)) =
        _normalize_ocr_noise ("1 AB".data) :=
  ⟨by decide, C8_normalize_idempotent_amended ("1 AB".data) (by decide)⟩

/-! ### C5 fixture: two stub cases followed by a blob owner with three Versus blocks -/


/-- C5: Azure blob redistribution on a mapping with two stub cases (zero
`Versus` occurrences) followed in numeric key order by a blob owner whose
section carries three `Versus` blocks: the returned mapping gives each former
stub at least one `Versus` occurrence and leaves the owner with exactly one
`Versus` block of its own. -/
theorem C5_blob_redistribution :
    countVersus c5Stub1 = 0 ∧ countVersus c5Stub2 = 0 ∧ countVersus c5Owner = 3 ∧
    1 ≤ countVersus (getDM (_azure_redistribute_blobs c5Map) ("1".data)) ∧
    1 ≤ countVersus (getDM (_azure_redistribute_blobs c5Map) ("2".data)) ∧
    countVersus (getDM (_azure_redistribute_blobs c5Map) ("3".data)) = 1 := by
  decide



/-- C7 (amended): paddle drift repair for one consecutive key pair.  When the
last case-type opener in `cur`'s parent portion starts past 60% of that
portion's length, the text from the opener to the end of the parent portion is
moved — stripped of surrounding whitespace, not verbatim (see
`C7_counterexample`) — to the front of `nxt`'s value with a newline separator;
`cur` keeps its stripped remaining parent text with its connected-sub-case
suffix unchanged, and all other keys are untouched.  If no opener lies past
the 60% mark (or there is none), the step changes nothing. -/
theorem C7_drift_repair (m : CaseMap) (cur nxt : Str) (hcn : nxt ≠ cur) :
    (∀ p, (caseTypeStarts (driftParent (getDM m cur))).getLast? = some p →
      10 * p > 6 * (driftParent (getDM m cur)).length →
      getDM (driftStep m cur nxt) nxt =
        stripS ((driftParent (getDM m cur)).drop p) ++ '\n' :: getDM m nxt ∧
      getDM (driftStep m cur nxt) cur =
        stripS ((driftParent (getDM m cur)).take p) ++ driftSuffix (getDM m cur) ∧
      (∀ k, k ≠ cur → k ≠ nxt → lookupM (driftStep m cur nxt) k = lookupM m k)) ∧
    ((caseTypeStarts (driftParent (getDM m cur))).getLast? = none →
      driftStep m cur nxt = m) ∧
    (∀ p, (caseTypeStarts (driftParent (getDM m cur))).getLast? = some p →
      ¬(10 * p > 6 * (driftParent (getDM m cur)).length) →
      driftStep m cur nxt = m) := by
  refine ⟨?_, ?_, ?_⟩
  · intro p hlast h60
    cases hq : findSub (getDM m cur) connCaseNeedle with
    | none =>
      simp only [driftParent, driftSuffix, hq] at hlast h60 ⊢
      simp only [driftStep, hq]
      rw [hlast]
      simp only [if_pos h60]
      refine ⟨?_, ?_, ?_⟩
      · simp only [getDM, lookup_setK_self, Option.getD_some]
        rw [lookup_setK_ne m _ hcn]
      · simp only [getDM]
        rw [lookup_setK_ne _ _ (Ne.symm hcn), lookup_setK_self]
        simp
      · intro k hk1 hk2
        rw [lookup_setK_ne _ _ hk2, lookup_setK_ne _ _ hk1]
    | some q =>
      simp only [driftParent, driftSuffix, hq] at hlast h60 ⊢
      simp only [driftStep, hq]
      rw [hlast]
      simp only [if_pos h60]
      refine ⟨?_, ?_, ?_⟩
      · simp only [getDM, lookup_setK_self, Option.getD_some]
        rw [lookup_setK_ne m _ hcn]
      · simp only [getDM]
        rw [lookup_setK_ne _ _ (Ne.symm hcn), lookup_setK_self]
        simp
      · intro k hk1 hk2
        rw [lookup_setK_ne _ _ hk2, lookup_setK_ne _ _ hk1]
  · intro hlast
    cases hq : findSub (getDM m cur) connCaseNeedle with
    | none =>
      simp only [driftParent, hq] at hlast
      simp only [driftStep, hq]
      rw [hlast]
    | some q =>
      simp only [driftParent, hq] at hlast
      simp only [driftStep, hq]
      rw [hlast]
  · intro p hlast h60
    cases hq : findSub (getDM m cur) connCaseNeedle with
    | none =>
      simp only [driftParent, hq] at hlast h60
      simp only [driftStep, hq]
      rw [hlast]
      simp only [if_neg h60]
    | some q =>
      simp only [driftParent, hq] at hlast h60
      simp only [driftStep, hq]
      rw [hlast]
      simp only [if_neg h60]


/-- C7 counterexample: the moved text is not placed verbatim — with the drifted
opener line ending in a space, `.strip()` removes that space, so the verbatim
drifted text is not a prefix of the following case's new value. -/
theorem C7_counterexample :
    (caseTypeStarts c7Cur).getLast? = some 27 ∧
    10 * 27 > 6 * c7Cur.length ∧
    findSub c7Cur connCaseNeedle = none ∧
    startsWithS (getDM (_repair_layout_drift c7Map) ("2".data)) (c7Cur.drop 27) = false := by
  decide

theorem C7_witness :
    getDM (driftStep c7Map ("1".data) ("2".data)) ("2".data) =
      stripS ((driftParent (getDM c7Map ("1".data))).drop 27) ++ '\n' :: getDM c7Map ("2".data) :=
  ((C7_drift_repair c7Map ("1".data) ("2".data) (by decide)).1 27 (by decide) (by decide)).1

theorem hasKey_setK_self (m : CaseMap) (k v : Str) : hasKey (setK m k v) k = true := by
  simp [hasKey, lookup_setK_self]

theorem hasKey_setK_ne {m : CaseMap} {k k' : Str} (v : Str) (h : k' ≠ k) :
    hasKey (setK m k v) k' = hasKey m k' := by
  simp [hasKey, lookup_setK_ne m v h]

theorem getDM_setK_self (m : CaseMap) (k v : Str) : getDM (setK m k v) k = v := by
  simp [getDM, lookup_setK_self]

theorem getDM_setK_ne {m : CaseMap} {k k' : Str} (v : Str) (h : k' ≠ k) :
    getDM (setK m k v) k' = getDM m k' := by
  simp [getDM, lookup_setK_ne m v h]

/-- Azure events carrying no main serial `n` never create the key `natStr n`,
and the running last-key always names an existing key. -/
theorem azureFold_no_create (n : Nat) :
    ∀ (L : List (Option Nat × Option Nat × Str)) (m : CaseMap) (lk : Option Str),
      (∀ s' b', (some n, s', b') ∉ L) →
      hasKey m (natStr n) = false →
      (∀ k, lk = some k → hasKey m k = true) →
      hasKey (azureFold L (m, lk)).1 (natStr n) = false ∧
      (∀ k, (azureFold L (m, lk)).2 = some k → hasKey (azureFold L (m, lk)).1 k = true) := by
  intro L
  induction L with
  | nil => exact fun m lk _ h2 h3 => ⟨h2, h3⟩
  | cons e t ih =>
    intro m lk hL h2 h3
    obtain ⟨mo, so, b⟩ := e
    show (let st := azureStep m lk (mo, so, b); hasKey (azureFold t st).1 (natStr n) = false ∧ _)
    cases mo with
    | none =>
      cases lk with
      | none =>
        have hstep : azureStep m none (none, so, b) = (m, none) := by simp [azureStep]
        rw [show azureFold ((none, so, b) :: t) (m, none) = azureFold t (m, none) by
          simp [azureFold, hstep]]
        exact ih m none (fun s' b' hm => hL s' b' (by simp [hm])) h2 (by simp)
      | some k0 =>
        have hk0 : hasKey m k0 = true := h3 k0 rfl
        have hkn : k0 ≠ natStr n := fun hh => by rw [hh] at hk0; rw [hk0] at h2; cases h2
        have hne : natStr n ≠ k0 := fun hh => hkn hh.symm
        have hstep : azureStep m (some k0) (none, so, b) =
            (setK m k0 (getDM m k0 ++ "\n\n".data ++ b), some k0) := by simp [azureStep]
        rw [show azureFold ((none, so, b) :: t) (m, some k0) =
            azureFold t (setK m k0 (getDM m k0 ++ "\n\n".data ++ b), some k0) by
          simp [azureFold, hstep]]
        refine ih _ _ (fun s' b' hm => hL s' b' (by simp [hm])) ?_ ?_
        · rw [hasKey_setK_ne _ hne]; exact h2
        · intro k hk
          cases hk
          exact hasKey_setK_self m k0 _
    | some mn =>
      have hmn : mn ≠ n := by
        intro hh
        exact hL so b (by simp [hh])
      have hkey : natStr n ≠ natStr mn := fun hh => hmn (natStr_inj hh).symm
      have hrest : ∀ s' b', (some n, s', b') ∉ t := fun s' b' hm => hL s' b' (by simp [hm])
      cases so with
      | some s =>
        by_cases hh : hasKey m (natStr mn) = true
        · have hstep : azureStep m lk (some mn, some s, b) =
              (setK m (natStr mn) (getDM m (natStr mn) ++ "\n\n".data ++
                connMarker mn s ++ '\n' :: b), some (natStr mn)) := by
            simp [azureStep, hh]
          rw [show azureFold ((some mn, some s, b) :: t) (m, lk) =
              azureFold t (azureStep m lk (some mn, some s, b)) from rfl, hstep]
          refine ih _ _ hrest ?_ ?_
          · rw [hasKey_setK_ne _ hkey]; exact h2
          · intro k hk; cases hk; exact hasKey_setK_self _ _ _
        · have hstep : azureStep m lk (some mn, some s, b) =
              (setK m (natStr mn) (connMarker mn s ++ '\n' :: b), some (natStr mn)) := by
            simp [azureStep, hh]
          rw [show azureFold ((some mn, some s, b) :: t) (m, lk) =
              azureFold t (azureStep m lk (some mn, some s, b)) from rfl, hstep]
          refine ih _ _ hrest ?_ ?_
          · rw [hasKey_setK_ne _ hkey]; exact h2
          · intro k hk; cases hk; exact hasKey_setK_self _ _ _
      | none =>
        rw [show azureFold ((some mn, none, b) :: t) (m, lk) =
            azureFold t (azureStep m lk (some mn, none, b)) from rfl]
        by_cases hh : hasKey m (natStr mn) = true
        · by_cases hc : startsWithS (getDM m (natStr mn)) "--- Connected".data = true
          · have hstep : azureStep m lk (some mn, none, b) =
                (setK m (natStr mn) (b ++ "\n\n".data ++ getDM m (natStr mn)),
                  some (natStr mn)) := by
              simp [azureStep, hh, hc]
            rw [hstep]
            refine ih _ _ hrest ?_ ?_
            · rw [hasKey_setK_ne _ hkey]; exact h2
            · intro k hk; cases hk; exact hasKey_setK_self _ _ _
          · have hstep : azureStep m lk (some mn, none, b) =
                (setK m (natStr mn) (getDM m (natStr mn) ++ "\n\n".data ++ b),
                  some (natStr mn)) := by
              simp [azureStep, hh, hc]
            rw [hstep]
            refine ih _ _ hrest ?_ ?_
            · rw [hasKey_setK_ne _ hkey]; exact h2
            · intro k hk; cases hk; exact hasKey_setK_self _ _ _
        · have hstep : azureStep m lk (some mn, none, b) =
              (setK m (natStr mn) b, some (natStr mn)) := by
            simp [azureStep, hh]
          rw [hstep]
          refine ih _ _ hrest ?_ ?_
          · rw [hasKey_setK_ne _ hkey]; exact h2
          · intro k hk; cases hk; exact hasKey_setK_self _ _ _

/-- Through azure events none of which is a parent block for main serial `n`,
an existing key `natStr n` only ever has text appended to its value. -/
theorem azureFold_prefix_ext (n : Nat) :
    ∀ (L : List (Option Nat × Option Nat × Str)) (m : CaseMap) (lk : Option Str),
      (∀ b', (some n, none, b') ∉ L) →
      hasKey m (natStr n) = true →
      ∃ ext, getDM (azureFold L (m, lk)).1 (natStr n) = getDM m (natStr n) ++ ext ∧
        hasKey (azureFold L (m, lk)).1 (natStr n) = true := by
  intro L
  induction L with
  | nil => exact fun m lk _ h2 => ⟨[], by simp [azureFold], by simpa [azureFold] using h2⟩
  | cons e t ih =>
    intro m lk hL h2
    obtain ⟨mo, so, b⟩ := e
    have hrest : ∀ b', (some n, none, b') ∉ t := fun b' hm => hL b' (by simp [hm])
    rw [show azureFold ((mo, so, b) :: t) (m, lk) =
        azureFold t (azureStep m lk (mo, so, b)) from rfl]
    have key_step : ∀ (m' : CaseMap) (lk' : Option Str),
        azureStep m lk (mo, so, b) = (m', lk') →
        (∃ e1, getDM m' (natStr n) = getDM m (natStr n) ++ e1 ∧
          hasKey m' (natStr n) = true) →
        ∃ ext, getDM (azureFold t (m', lk')).1 (natStr n) = getDM m (natStr n) ++ ext ∧
          hasKey (azureFold t (m', lk')).1 (natStr n) = true := by
      intro m' lk' _ hstep
      obtain ⟨e1, he1, hk1⟩ := hstep
      obtain ⟨e2, he2, hk2⟩ := ih m' lk' hrest hk1
      exact ⟨e1 ++ e2, by rw [he2, he1, List.append_assoc], hk2⟩
    cases mo with
    | none =>
      cases lk with
      | none =>
        have hstep : azureStep m none (none, so, b) = (m, none) := by simp [azureStep]
        rw [hstep]
        exact key_step m none hstep ⟨[], by simp, h2⟩
      | some k0 =>
        have hstep : azureStep m (some k0) (none, so, b) =
            (setK m k0 (getDM m k0 ++ "\n\n".data ++ b), some k0) := by simp [azureStep]
        rw [hstep]
        by_cases hk : natStr n = k0
        · subst hk
          exact key_step _ _ hstep ⟨"\n\n".data ++ b,
            by rw [getDM_setK_self, List.append_assoc], hasKey_setK_self _ _ _⟩
        · exact key_step _ _ hstep ⟨[], by rw [getDM_setK_ne _ hk]; simp,
            by rw [hasKey_setK_ne _ hk]; exact h2⟩
    | some mn =>
      cases so with
      | some s =>
        by_cases hk : natStr n = natStr mn
        · have h2m : hasKey m (natStr mn) = true := hk ▸ h2
          have hstep : azureStep m lk (some mn, some s, b) =
              (setK m (natStr mn) (getDM m (natStr mn) ++ "\n\n".data ++
                connMarker mn s ++ '\n' :: b), some (natStr mn)) := by
            simp [azureStep, h2m]
          rw [hstep]
          refine key_step _ _ hstep ⟨"\n\n".data ++ connMarker mn s ++ '\n' :: b, ?_, ?_⟩
          · rw [hk, getDM_setK_self]
            simp [List.append_assoc]
          · rw [hk]
            exact hasKey_setK_self _ _ _
        · by_cases hh : hasKey m (natStr mn) = true
          · have hstep : azureStep m lk (some mn, some s, b) =
                (setK m (natStr mn) (getDM m (natStr mn) ++ "\n\n".data ++
                  connMarker mn s ++ '\n' :: b), some (natStr mn)) := by
              simp [azureStep, hh]
            rw [hstep]
            exact key_step _ _ hstep ⟨[], by rw [getDM_setK_ne _ hk]; simp,
              by rw [hasKey_setK_ne _ hk]; exact h2⟩
          · have hstep : azureStep m lk (some mn, some s, b) =
                (setK m (natStr mn) (connMarker mn s ++ '\n' :: b), some (natStr mn)) := by
              simp [azureStep, hh]
            rw [hstep]
            exact key_step _ _ hstep ⟨[], by rw [getDM_setK_ne _ hk]; simp,
              by rw [hasKey_setK_ne _ hk]; exact h2⟩
      | none =>
        have hmn : mn ≠ n := by
          intro hh
          exact hL b (by simp [hh])
        have hk : natStr n ≠ natStr mn := fun hh => hmn ((natStr_inj hh).symm)
        by_cases hh : hasKey m (natStr mn) = true
        · by_cases hc : startsWithS (getDM m (natStr mn)) "--- Connected".data = true
          · have hstep : azureStep m lk (some mn, none, b) =
                (setK m (natStr mn) (b ++ "\n\n".data ++ getDM m (natStr mn)),
                  some (natStr mn)) := by
              simp [azureStep, hh, hc]
            rw [hstep]
            exact key_step _ _ hstep ⟨[], by rw [getDM_setK_ne _ hk]; simp,
              by rw [hasKey_setK_ne _ hk]; exact h2⟩
          · have hstep : azureStep m lk (some mn, none, b) =
                (setK m (natStr mn) (getDM m (natStr mn) ++ "\n\n".data ++ b),
                  some (natStr mn)) := by
              simp [azureStep, hh, hc]
            rw [hstep]
            exact key_step _ _ hstep ⟨[], by rw [getDM_setK_ne _ hk]; simp,
              by rw [hasKey_setK_ne _ hk]; exact h2⟩
        · have hstep : azureStep m lk (some mn, none, b) =
              (setK m (natStr mn) b, some (natStr mn)) := by
            simp [azureStep, hh]
          rw [hstep]
          exact key_step _ _ hstep ⟨[], by rw [getDM_setK_ne _ hk]; simp,
            by rw [hasKey_setK_ne _ hk]; exact h2⟩

/-- C6: in the azure merge loop, a sub-serial block `n.s` arriving before any
parent block for `n` seeds the key `natStr n` with the connected-marker text,
and when a parent block for `n` later arrives its content is prepended (not
appended), so the parent's party content precedes all connected-sub-case text
in the value of `natStr n` produced by the merge loop. -/
theorem C6_azure_sub_seed_prepend (text : Str) (n s : Nat) (b0 b : Str)
    (La Lb L2 : List (Option Nat × Option Nat × Str))
    (hsplit : azureClassified text =
      La ++ (some n, some s, b0) :: (Lb ++ (some n, none, b) :: L2))
    (hLa : ∀ s' b', (some n, s', b') ∉ La)
    (hLb : ∀ b', (some n, none, b') ∉ Lb)
    (hL2 : ∀ b', (some n, none, b') ∉ L2) :
    getDM (azureFold (La ++ [(some n, some s, b0)]) ([], none)).1 (natStr n) =
      connMarker n s ++ '\n' :: b0 ∧
    ∃ rest, getDM (azureSegmentPre text) (natStr n) = b ++ "\n\n".data ++ rest ∧
      startsWithS rest "--- Connected ".data = true := by
  have h0 : hasKey ([] : CaseMap) (natStr n) = false := rfl
  have hlk0 : ∀ k, (none : Option Str) = some k → hasKey ([] : CaseMap) k = true := by
    intro k hk
    cases hk
  obtain ⟨hnk, hlkinv⟩ := azureFold_no_create n La [] none hLa h0 hlk0
  obtain ⟨m1, lk1, hst1⟩ : ∃ m1 lk1, azureFold La ([], none) = (m1, lk1) := ⟨_, _, rfl⟩
  rw [hst1] at hnk hlkinv
  have hstep1 : azureStep m1 lk1 (some n, some s, b0) =
      (setK m1 (natStr n) (connMarker n s ++ '\n' :: b0), some (natStr n)) := by
    simp [azureStep, hnk]
  have h14 : ("--- Connected ".data : Str) = "--- Connected".data ++ [' '] := by decide
  constructor
  · rw [azureFold_append, hst1]
    rw [show azureFold [(some n, some s, b0)] (m1, lk1) =
        azureStep m1 lk1 (some n, some s, b0) from rfl, hstep1]
    exact getDM_setK_self _ _ _
  · simp only [azureSegmentPre]
    rw [hsplit]
    rw [azureFold_append, hst1]
    rw [show azureFold ((some n, some s, b0) :: (Lb ++ (some n, none, b) :: L2)) (m1, lk1) =
        azureFold (Lb ++ (some n, none, b) :: L2)
          (azureStep m1 lk1 (some n, some s, b0)) from rfl, hstep1]
    rw [azureFold_append]
    obtain ⟨ext1, hval3, hk3⟩ := azureFold_prefix_ext n Lb
      (setK m1 (natStr n) (connMarker n s ++ '\n' :: b0)) (some (natStr n)) hLb
      (hasKey_setK_self _ _ _)
    obtain ⟨m3, lk3, hst3⟩ : ∃ m3 lk3,
        azureFold Lb (setK m1 (natStr n) (connMarker n s ++ '\n' :: b0),
          some (natStr n)) = (m3, lk3) := ⟨_, _, rfl⟩
    rw [hst3] at hval3 hk3 ⊢
    rw [getDM_setK_self] at hval3
    have hsw : startsWithS (getDM m3 (natStr n)) "--- Connected".data = true := by
      rw [hval3]
      refine startsWith_iff_ex.mpr ⟨' ' :: (natStr n ++ '.' :: natStr s ++ " ---".data) ++
        '\n' :: b0 ++ ext1, ?_⟩
      simp [connMarker, h14, List.append_assoc]
    have hstep2 : azureStep m3 lk3 (some n, none, b) =
        (setK m3 (natStr n) (b ++ "\n\n".data ++ getDM m3 (natStr n)), some (natStr n)) := by
      simp [azureStep, hk3, hsw]
    rw [show azureFold ((some n, none, b) :: L2) (m3, lk3) =
        azureFold L2 (azureStep m3 lk3 (some n, none, b)) from rfl, hstep2]
    obtain ⟨ext2, hval5, hk5⟩ := azureFold_prefix_ext n L2
      (setK m3 (natStr n) (b ++ "\n\n".data ++ getDM m3 (natStr n)))
      (some (natStr n)) hL2 (hasKey_setK_self _ _ _)
    obtain ⟨m5, lk5, hst5⟩ : ∃ m5 lk5,
        azureFold L2 (setK m3 (natStr n) (b ++ "\n\n".data ++ getDM m3 (natStr n)),
          some (natStr n)) = (m5, lk5) := ⟨_, _, rfl⟩
    rw [hst5] at hval5 ⊢
    rw [getDM_setK_self, hval3] at hval5
    refine ⟨(connMarker n s ++ '\n' :: b0 ++ ext1) ++ ext2, ?_, ?_⟩
    · rw [hval5]
      simp [List.append_assoc]
    · refine startsWith_iff_ex.mpr ⟨(natStr n ++ '.' :: natStr s ++ " ---".data ++
        '\n' :: b0 ++ ext1) ++ ext2, ?_⟩
      simp [connMarker, List.append_assoc]

theorem C6_witness :
    getDM (azureFold ([] ++ [(some 1, some 1, ("1.1 AAA").data)]) ([], none)).1 (natStr 1) =
      connMarker 1 1 ++ '\n' :: ("1.1 AAA").data ∧
    ∃ rest, getDM (azureSegmentPre ("1.1 AAA\n1 BBB CCC").data) (natStr 1) =
      ("1 BBB CCC").data ++ "\n\n".data ++ rest ∧
      startsWithS rest "--- Connected ".data = true :=
  C6_azure_sub_seed_prepend ("1.1 AAA\n1 BBB CCC").data 1 1 ("1.1 AAA").data
    ("1 BBB CCC").data [] [] [] (by decide) (by simp) (by simp) (by simp)

theorem alt1Go_le : ∀ (r : Str) (j : Nat) (best : Option Nat),
    (∀ x, best = some x → x ≤ j) → ∀ y, alt1Go r j best = some y → y ≤ j + r.length := by
  intro r
  induction r with
  | nil =>
    intro j best hb y hy
    simp only [alt1Go] at hy
    cases hy
    simp
  | cons c t ih =>
    intro j best hb y hy
    simp only [alt1Go] at hy
    by_cases hsp : pySpace c = true
    · rw [if_pos hsp] at hy
      have hb' : ∀ x, (if (c == '\n') = true then some j else best) = some x → x ≤ j + 1 := by
        intro x hx
        split at hx
        · cases hx; omega
        · exact Nat.le_succ_of_le (hb x hx)
      have := ih (j + 1) _ hb' y hy
      simp only [List.length_cons]
      omega
    · rw [if_neg hsp] at hy
      have : y ≤ j := by
        split at hy
        · cases hy; omega
        · exact hb y hy
      simp only [List.length_cons]
      omega

theorem alt2End_le {r : Str} {j : Nat} (h : alt2End r = some j) : j ≤ r.length := by
  simp only [alt2End] at h
  split at h
  · rename_i hsw
    have h9 : ("Connected".data : Str).length ≤ (r.drop (r.takeWhile pySpace).length).length :=
      startsWith_length hsw
    have hws : (r.takeWhile pySpace).length ≤ r.length := (List.takeWhile_prefix pySpace).length_le
    simp only [List.length_drop] at h9
    have h9' : (9 : Nat) ≤ r.length - (r.takeWhile pySpace).length := by
      simpa using h9
    split at h
    · split at h
      · cases h
      · cases h
        omega
    · cases h
      omega
  · cases h

theorem matchTail_bounds {R : Str} {B L cn : Nat} {G g : Str}
    (h : (match alt1Go R 0 none with
          | some j => some (B + j, G)
          | none =>
            match alt2End R with
            | some j => some (B + j, G)
            | none => none) = some (cn, g))
    (hB : 1 ≤ B) (hBR : B + R.length ≤ L) : 1 ≤ cn ∧ cn ≤ L := by
  cases h1 : alt1Go R 0 none with
  | some j =>
    rw [h1] at h
    simp only [Option.some.injEq, Prod.mk.injEq] at h
    have hj : j ≤ 0 + R.length := alt1Go_le R 0 none (fun x hx => by cases hx) j h1
    omega
  | none =>
    rw [h1] at h
    simp only [] at h
    cases h2 : alt2End R with
    | some j =>
      rw [h2] at h
      simp only [Option.some.injEq, Prod.mk.injEq] at h
      have hj : j ≤ R.length := alt2End_le h2
      omega
    | none =>
      rw [h2] at h
      simp at h

theorem paddleMatchAt_bounds {l : Str} {cn : Nat} {g : Str}
    (h : paddleMatchAt l = some (cn, g)) : 1 ≤ cn ∧ cn ≤ l.length := by
  simp only [paddleMatchAt] at h
  obtain ⟨ws0, hg0⟩ : ∃ x, l.takeWhile pySpace = x := ⟨_, rfl⟩
  rw [hg0] at h
  obtain ⟨r1, hg1⟩ : ∃ x, l.drop ws0.length = x := ⟨_, rfl⟩
  rw [hg1] at h
  obtain ⟨d, hgd⟩ : ∃ x, takeDigits r1 = x := ⟨_, rfl⟩
  rw [hgd] at h
  obtain ⟨r2, hg2⟩ : ∃ x, r1.drop d.length = x := ⟨_, rfl⟩
  rw [hg2] at h
  obtain ⟨sub, hgs⟩ : ∃ x, (match r2 with
    | '.' :: c :: _ => if isDigitC c = true then '.' :: takeDigits r2.tail else []
    | _ => ([] : Str)) = x := ⟨_, rfl⟩
  rw [hgs] at h
  obtain ⟨r3, hg3⟩ : ∃ x, r2.drop sub.length = x := ⟨_, rfl⟩
  rw [hg3] at h
  have hws : ws0.length ≤ l.length := by
    rw [← hg0]
    exact (List.takeWhile_prefix pySpace).length_le
  have hr1 : r1.length = l.length - ws0.length := by
    rw [← hg1]
    exact List.length_drop _ _
  have hd1 : d.length ≤ r1.length := by
    rw [← hgd]
    exact (List.takeWhile_prefix isDigitC).length_le
  have hr2 : r2.length = r1.length - d.length := by
    rw [← hg2]
    exact List.length_drop _ _
  have hslen : sub.length ≤ r2.length := by
    rw [← hgs]
    split
    · rename_i c2 t2
      split
      · simp only [List.length_cons, List.tail_cons, takeDigits]
        have := (List.takeWhile_prefix isDigitC (l := c2 :: t2)).length_le
        simp only [List.length_cons] at this ⊢
        omega
      · simp
    · simp
  have hr3 : r3.length = r2.length - sub.length := by
    rw [← hg3]
    exact List.length_drop _ _
  split at h
  · simp at h
  · rename_i hdne
    have hdnil : d ≠ [] := by
      intro hh
      rw [hh] at hdne
      exact hdne rfl
    have hdlen : 1 ≤ d.length := List.length_pos.mpr hdnil
    refine matchTail_bounds h ?_ ?_
    · omega
    · omega

theorem paddleScan_shift : ∀ (f : Nat) (l : Str) (a : Bool) (p q : Nat),
    paddleScan f l a (p + q) = (paddleScan f l a p).map (fun m => (m.1 + q, m.2.1 + q, m.2.2)) := by
  intro f
  induction f with
  | zero => intro l a p q; cases l <;> rfl
  | succ f ih =>
    intro l a p q
    cases l with
    | nil => rfl
    | cons c t =>
      simp only [paddleScan]
      cases a with
      | false =>
        rw [show p + q + 1 = (p + 1) + q by omega]
        exact ih t (c == '\n') (p + 1) q
      | true =>
        simp only [if_true]
        cases hm : paddleMatchAt (c :: t) with
        | none =>
          simp only []
          rw [show p + q + 1 = (p + 1) + q by omega]
          exact ih t (c == '\n') (p + 1) q
        | some cg =>
          obtain ⟨consumed, g⟩ := cg
          simp only [List.map_cons]
          refine congrArg₂ _ ?_ ?_
          · simp only [Prod.mk.injEq]
            exact ⟨trivial, by omega, trivial⟩
          · rw [show p + q + consumed = (p + consumed) + q by omega]
            exact ih _ _ (p + consumed) q

theorem paddleScan_fuel : ∀ (n f1 f2 : Nat) (l : Str) (a : Bool) (p : Nat),
    l.length ≤ n → l.length < f1 → l.length < f2 →
    paddleScan f1 l a p = paddleScan f2 l a p := by
  intro n
  induction n with
  | zero =>
    intro f1 f2 l a p hn h1 h2
    have : l = [] := List.eq_nil_of_length_eq_zero (by omega)
    subst this
    cases f1 with
    | zero => omega
    | succ f1 =>
      cases f2 with
      | zero => omega
      | succ f2 => rfl
  | succ n ih =>
    intro f1 f2 l a p hn h1 h2
    cases l with
    | nil =>
      cases f1 with
      | zero => omega
      | succ f1 =>
        cases f2 with
        | zero => omega
        | succ f2 => rfl
    | cons c t =>
      cases f1 with
      | zero => simp at h1
      | succ f1 =>
        cases f2 with
        | zero => simp at h2
        | succ f2 =>
          simp only [List.length_cons] at hn h1 h2
          simp only [paddleScan]
          cases a with
          | false =>
            exact ih f1 f2 t (c == '\n') (p + 1) (by omega) (by omega) (by omega)
          | true =>
            simp only [if_true]
            cases hm : paddleMatchAt (c :: t) with
            | none => exact ih f1 f2 t (c == '\n') (p + 1) (by omega) (by omega) (by omega)
            | some cg =>
              obtain ⟨consumed, g⟩ := cg
              obtain ⟨hc1, hc2⟩ := paddleMatchAt_bounds hm
              simp only []
              refine congrArg _ ?_
              refine ih f1 f2 _ _ (p + consumed) ?_ ?_ ?_
              · have : ((c :: t).drop consumed).length = (c :: t).length - consumed :=
                  List.length_drop _ _
                simp only [List.length_cons] at this hc2 ⊢
                omega
              · have : ((c :: t).drop consumed).length = (c :: t).length - consumed :=
                  List.length_drop _ _
                simp only [List.length_cons] at this hc2 ⊢
                omega
              · have : ((c :: t).drop consumed).length = (c :: t).length - consumed :=
                  List.length_drop _ _
                simp only [List.length_cons] at this hc2 ⊢
                omega

theorem paddleScan_first : ∀ (f : Nat) (l : Str) (a : Bool) (p : Nat) {s e : Nat} {g : Str}
    {rest : List (Nat × Nat × Str)},
    l.length < f →
    paddleScan f l a p = (s, e, g) :: rest →
    p ≤ s ∧ s - p ≤ l.length ∧
    ∃ consumed f', paddleMatchAt (l.drop (s - p)) = some (consumed, g) ∧ e = s + consumed ∧
      ((l.drop (s - p)).drop consumed).length < f' ∧
      rest = paddleScan f' ((l.drop (s - p)).drop consumed)
        (((l.drop (s - p)).getD (consumed - 1) ' ') == '\n') (s + consumed) := by
  intro f
  induction f with
  | zero =>
    intro l a p s e g rest hf h
    omega
  | succ f ih =>
    intro l a p s e g rest hf h
    cases l with
    | nil => simp [paddleScan] at h
    | cons c t =>
      simp only [List.length_cons] at hf
      cases a with
      | false =>
        simp only [paddleScan] at h
        obtain ⟨hps, hsl, consumed, f', hma, he, hfb, hrest⟩ :=
          ih t (c == '\n') (p + 1) (by omega) h
        have hsp : s - p = (s - (p + 1)) + 1 := by omega
        rw [hsp]
        simp only [List.drop_succ_cons, List.length_cons]
        exact ⟨by omega, by omega, consumed, f', hma, he, hfb, hrest⟩
      | true =>
        simp only [paddleScan, if_true] at h
        cases hm : paddleMatchAt (c :: t) with
        | none =>
          rw [hm] at h
          simp only [] at h
          obtain ⟨hps, hsl, consumed, f', hma, he, hfb, hrest⟩ :=
            ih t (c == '\n') (p + 1) (by omega) h
          have hsp : s - p = (s - (p + 1)) + 1 := by omega
          rw [hsp]
          simp only [List.drop_succ_cons, List.length_cons]
          exact ⟨by omega, by omega, consumed, f', hma, he, hfb, hrest⟩
        | some cg =>
          obtain ⟨consumed, g0⟩ := cg
          rw [hm] at h
          simp only [List.cons.injEq, Prod.mk.injEq] at h
          obtain ⟨⟨hs, he, hg⟩, hrest⟩ := h
          subst hs
          subst hg
          obtain ⟨hc1, hc2⟩ := paddleMatchAt_bounds hm
          simp only [List.length_cons] at hc2
          refine ⟨le_refl p, by simp, consumed, f, ?_, by omega, ?_, ?_⟩
          · simpa using hm
          · have hdl : ((c :: t).drop consumed).length = (c :: t).length - consumed :=
              List.length_drop _ _
            simp only [List.length_cons] at hdl
            simp only [Nat.sub_self, List.drop_zero]
            omega
          · rw [← hrest]
            simp only [Nat.sub_self, List.drop_zero]

theorem paddleMatches_drop {text : Str} {s e : Nat} {g : Str} {rest : List (Nat × Nat × Str)}
    (h : paddleMatches text = (s, e, g) :: rest) :
    s ≤ e ∧ s ≤ text.length ∧
    ∃ rest0, paddleMatches (text.drop s) = (0, e - s, g) :: rest0 ∧
      rest = rest0.map (fun m => (m.1 + s, m.2.1 + s, m.2.2)) := by
  obtain ⟨hps, hsl, consumed, f', hma, he, hfb, hrest⟩ :=
    paddleScan_first (text.length + 1) text true 0 (by omega) h
  simp only [Nat.sub_zero] at hsl hma hfb hrest
  obtain ⟨hc1, hc2⟩ := paddleMatchAt_bounds hma
  obtain ⟨c0, t0, hct⟩ : ∃ c0 t0, text.drop s = c0 :: t0 := by
    cases hx : text.drop s with
    | nil =>
      rw [hx] at hc2
      simp at hc2
      omega
    | cons a b => exact ⟨a, b, rfl⟩
  rw [hct] at hma hfb hrest
  refine ⟨by omega, hsl, ?_⟩
  refine ⟨paddleScan (t0.length + 1) ((c0 :: t0).drop consumed)
      (((c0 :: t0).getD (consumed - 1) ' ') == '\n') consumed, ?_, ?_⟩
  · simp only [paddleMatches, hct, List.length_cons, paddleScan, if_true]
    rw [hma]
    simp only [Nat.zero_add]
    congr 1
    simp only [Prod.mk.injEq]
    refine ⟨trivial, by omega, trivial⟩
  · rw [hrest]
    rw [show s + consumed = consumed + s by omega]
    rw [paddleScan_shift]
    congr 1
    refine paddleScan_fuel ((c0 :: t0).drop consumed).length f' (t0.length + 1) _ _ _
      (le_refl _) hfb ?_
    have : ((c0 :: t0).drop consumed).length = (c0 :: t0).length - consumed :=
      List.length_drop _ _
    simp only [List.length_cons] at this hc2
    omega

theorem paddleBuild_cons_nil (text : Str) (s0 b0 : Nat) (g0 : Str) (m : CaseMap) :
    paddleBuild text [(s0, b0, g0)] m =
      (if g0.contains '.' then
        if hasKey m (g0.takeWhile (· != '.')) then
          setK m (g0.takeWhile (· != '.'))
            (getDM m (g0.takeWhile (· != '.')) ++ "\n\n".data ++ connCaseMarker g0 ++
              stripS ((text.drop s0).take (text.length - s0)))
        else
          setK m (g0.takeWhile (· != '.'))
            (connCaseMarker g0 ++ stripS ((text.drop s0).take (text.length - s0)))
      else setK m g0 (stripS ((text.drop s0).take (text.length - s0)))) := rfl

theorem paddleBuild_cons_cons (text : Str) (s0 b0 s1 b1 : Nat) (g0 g1 : Str)
    (rest : List (Nat × Nat × Str)) (m : CaseMap) :
    paddleBuild text ((s0, b0, g0) :: (s1, b1, g1) :: rest) m =
      paddleBuild text ((s1, b1, g1) :: rest)
        (if g0.contains '.' then
          if hasKey m (g0.takeWhile (· != '.')) then
            setK m (g0.takeWhile (· != '.'))
              (getDM m (g0.takeWhile (· != '.')) ++ "\n\n".data ++ connCaseMarker g0 ++
                stripS ((text.drop s0).take (s1 - s0)))
          else
            setK m (g0.takeWhile (· != '.'))
              (connCaseMarker g0 ++ stripS ((text.drop s0).take (s1 - s0)))
        else setK m g0 (stripS ((text.drop s0).take (s1 - s0)))) := rfl

theorem paddleBuild_shift (text : Str) (s : Nat) :
    ∀ (ms : List (Nat × Nat × Str)) (m : CaseMap),
      paddleBuild text (ms.map (fun mm => (mm.1 + s, mm.2.1 + s, mm.2.2))) m =
      paddleBuild (text.drop s) ms m := by
  intro ms
  induction ms with
  | nil => intro m; rfl
  | cons a ms ih =>
    intro m
    obtain ⟨a0, b0, g0⟩ := a
    have hdd : (text.drop s).drop a0 = text.drop (a0 + s) := by
      rw [List.drop_drop, Nat.add_comm]
    cases ms with
    | nil =>
      simp only [List.map_cons, List.map_nil]
      rw [paddleBuild_cons_nil, paddleBuild_cons_nil]
      have harith : text.length - (a0 + s) = (text.drop s).length - a0 := by
        rw [List.length_drop]
        omega
      rw [hdd, harith]
    | cons a1 ms' =>
      obtain ⟨a1v, b1v, g1v⟩ := a1
      simp only [List.map_cons]
      rw [paddleBuild_cons_cons, paddleBuild_cons_cons]
      have harith : (a1v + s) - (a0 + s) = a1v - a0 := by omega
      rw [hdd, harith]
      refine Eq.trans ?_ (ih _)
      simp only [List.map_cons]

theorem segment_cases_paddle_drop {text : Str} {s e : Nat} {g : Str}
    {rest : List (Nat × Nat × Str)}
    (h : paddleMatches text = (s, e, g) :: rest) :
    segment_cases_paddle text = segment_cases_paddle (text.drop s) := by
  obtain ⟨hse, hsl, rest0, hmd, hmap⟩ := paddleMatches_drop h
  simp only [segment_cases_paddle, h, hmd]
  congr 1
  have hms : (s, e, g) :: rest =
      (((0, e - s, g) :: rest0).map (fun m => (m.1 + s, m.2.1 + s, m.2.2))) := by
    simp only [List.map_cons]
    congr 1
    simp only [Prod.mk.injEq]
    refine ⟨by omega, by omega, trivial⟩
  rw [hms, paddleBuild_shift]
/-- C10: in every pipeline, input content preceding the first serial-bearing
block is silently discarded.  Tesseract and azure: a prefix of blocks none of
which parses to a serial (processed while `last_key` is `None`) leaves the
output exactly what the remaining blocks alone produce.  Paddle: the output on
`text` equals the output on `text` with everything before the first
serial-pattern match removed. -/
theorem C10_leading_content_discarded :
    (∀ (text : Str) (pre post : List Str),
      tessBlocks text = pre ++ post →
      (∀ b ∈ pre, _tesseract_parse_serial b = none) →
      segment_cases_tesseract text = (tessFold post ([], none)).1) ∧
    (∀ (text : Str) (pre post : List (Option Nat × Option Nat × Str)),
      azureClassified text = pre ++ post →
      (∀ ev ∈ pre, ev.1 = none) →
      segment_cases_azure text = _azure_redistribute_blobs ((azureFold post ([], none)).1)) ∧
    (∀ (text : Str) (s e : Nat) (g : Str) (rest : List (Nat × Nat × Str)),
      paddleMatches text = (s, e, g) :: rest →
      segment_cases_paddle text = segment_cases_paddle (text.drop s)) := by
  refine ⟨?_, ?_, ?_⟩
  · intro text pre post hsp hall
    simp only [segment_cases_tesseract]
    rw [hsp, tessFold_append, tessFold_all_orphan pre hall]
  · intro text pre post hsp hall
    simp only [segment_cases_azure, azureSegmentPre]
    rw [hsp, azureFold_append, azureFold_all_orphan pre hall]
  · intro text s e g rest h
    exact segment_cases_paddle_drop h

theorem C10_witness :
    segment_cases_tesseract ("FOO BAR\n\n1. ABC DEF").data =
      (tessFold [("1 ABC DEF").data] ([], none)).1 ∧
    segment_cases_azure ("hello\n1 ABC").data =
      _azure_redistribute_blobs
        ((azureFold [(some 1, none, ("1 ABC").data)] ([], none)).1) ∧
    segment_cases_paddle ("xx\n1\nFOO").data =
      segment_cases_paddle (("xx\n1\nFOO").data.drop 3) :=
  ⟨C10_leading_content_discarded.1 ("FOO BAR\n\n1. ABC DEF").data [("FOO BAR").data]
      [("1 ABC DEF").data] (by decide) (by decide),
   C10_leading_content_discarded.2.1 ("hello\n1 ABC").data [(none, none, ("hello").data)]
      [(some 1, none, ("1 ABC").data)] (by decide) (by decide),
   C10_leading_content_discarded.2.2 ("xx\n1\nFOO").data 3 4 ("1").data [] (by decide)⟩

/-- The azure merge loop only creates `natStr`-shaped keys and keeps them
distinct. -/
theorem azureFold_keys :
    ∀ (L : List (Option Nat × Option Nat × Str)) (m : CaseMap) (lk : Option Str),
      (∀ k ∈ keysOf m, ∃ n, k = natStr n) →
      (∀ s, lk = some s → ∃ n, s = natStr n) →
      (keysOf m).Nodup →
      (∀ k ∈ keysOf (azureFold L (m, lk)).1, ∃ n, k = natStr n) ∧
        (keysOf (azureFold L (m, lk)).1).Nodup := by
  intro L
  induction L with
  | nil => exact fun m lk h1 h2 h3 => ⟨h1, h3⟩
  | cons e t ih =>
    intro m lk h1 h2 h3
    obtain ⟨mo, so, b⟩ := e
    rw [show azureFold ((mo, so, b) :: t) (m, lk) =
        azureFold t (azureStep m lk (mo, so, b)) from rfl]
    cases mo with
    | none =>
      cases lk with
      | none =>
        rw [show azureStep m none (none, so, b) = (m, none) by simp [azureStep]]
        exact ih m none h1 h2 h3
      | some k0 =>
        obtain ⟨n0, hn0⟩ := h2 k0 rfl
        rw [show azureStep m (some k0) (none, so, b) =
            (setK m k0 (getDM m k0 ++ "\n\n".data ++ b), some k0) by simp [azureStep]]
        exact ih _ _ (keys_pred_setK _ h1 ⟨n0, hn0⟩)
          (fun s hs => by cases hs; exact ⟨n0, hn0⟩) (nodup_keysOf_setK _ h3)
    | some mn =>
      have hkey : ∃ n, natStr mn = natStr n := ⟨mn, rfl⟩
      cases so with
      | some s =>
        by_cases hh : hasKey m (natStr mn) = true
        · rw [show azureStep m lk (some mn, some s, b) =
              (setK m (natStr mn) (getDM m (natStr mn) ++ "\n\n".data ++
                connMarker mn s ++ '\n' :: b), some (natStr mn)) by simp [azureStep, hh]]
          exact ih _ _ (keys_pred_setK _ h1 hkey)
            (fun s' hs => by cases hs; exact hkey) (nodup_keysOf_setK _ h3)
        · rw [show azureStep m lk (some mn, some s, b) =
              (setK m (natStr mn) (connMarker mn s ++ '\n' :: b), some (natStr mn)) by
            simp [azureStep, hh]]
          exact ih _ _ (keys_pred_setK _ h1 hkey)
            (fun s' hs => by cases hs; exact hkey) (nodup_keysOf_setK _ h3)
      | none =>
        by_cases hh : hasKey m (natStr mn) = true
        · by_cases hc : startsWithS (getDM m (natStr mn)) "--- Connected".data = true
          · rw [show azureStep m lk (some mn, none, b) =
                (setK m (natStr mn) (b ++ "\n\n".data ++ getDM m (natStr mn)),
                  some (natStr mn)) by simp [azureStep, hh, hc]]
            exact ih _ _ (keys_pred_setK _ h1 hkey)
              (fun s' hs => by cases hs; exact hkey) (nodup_keysOf_setK _ h3)
          · rw [show azureStep m lk (some mn, none, b) =
                (setK m (natStr mn) (getDM m (natStr mn) ++ "\n\n".data ++ b),
                  some (natStr mn)) by simp [azureStep, hh, hc]]
            exact ih _ _ (keys_pred_setK _ h1 hkey)
              (fun s' hs => by cases hs; exact hkey) (nodup_keysOf_setK _ h3)
        · rw [show azureStep m lk (some mn, none, b) =
              (setK m (natStr mn) b, some (natStr mn)) by simp [azureStep, hh]]
          exact ih _ _ (keys_pred_setK _ h1 hkey)
            (fun s' hs => by cases hs; exact hkey) (nodup_keysOf_setK _ h3)

theorem mem_insKey {a k : Str} : ∀ {l : List Str}, k ∈ insKey a l → k = a ∨ k ∈ l := by
  intro l
  induction l with
  | nil =>
    intro h
    simp [insKey] at h
    exact Or.inl h
  | cons b t ih =>
    intro h
    simp only [insKey] at h
    split at h
    · rcases List.mem_cons.mp h with h' | h'
      · exact Or.inl h'
      · exact Or.inr h'
    · rcases List.mem_cons.mp h with h' | h'
      · exact Or.inr (by simp [h'])
      · rcases ih h' with h'' | h''
        · exact Or.inl h''
        · exact Or.inr (by simp [h''])

theorem mem_sortKeysNum {k : Str} : ∀ {l : List Str}, k ∈ sortKeysNum l → k ∈ l := by
  intro l
  induction l with
  | nil => intro h; exact h
  | cons a t ih =>
    intro h
    simp only [sortKeysNum] at h
    rcases mem_insKey h with h' | h'
    · simp [h']
    · simp [ih h']

theorem splitStubRun_parts (result : CaseMap) :
    ∀ ks : List Str, (splitStubRun result ks).1 ++ (splitStubRun result ks).2 = ks := by
  intro ks
  induction ks with
  | nil => rfl
  | cons k t ih =>
    simp only [splitStubRun]
    split
    · simp only [List.cons_append, ih]
    · rfl

theorem keysOf_assignStubs :
    ∀ (stubs bloks : List Str) (result : CaseMap),
      (∀ k ∈ stubs, k ∈ keysOf result) →
      keysOf (assignStubs result stubs bloks) = keysOf result := by
  intro stubs
  induction stubs with
  | nil => intro bloks result _; cases bloks <;> rfl
  | cons sk srest ih =>
    intro bloks result hmem
    cases bloks with
    | nil => rfl
    | cons blok brest =>
      rw [show assignStubs result (sk :: srest) (blok :: brest) =
          assignStubs (setK result sk (stubInsert (getDM result sk) blok)) srest brest
        from rfl]
      rw [ih brest _ ?_, keysOf_setK_of_mem _ (hmem sk (by simp))]
      intro k hk
      rw [keysOf_setK_of_mem _ (hmem sk (by simp))]
      exact hmem k (by simp [hk])

theorem keysOf_redistGo :
    ∀ (f : Nat) (result : CaseMap) (ks : List Str),
      (∀ k ∈ ks, k ∈ keysOf result) →
      keysOf (redistGo f result ks) = keysOf result := by
  intro f
  induction f with
  | zero => intro result ks _; cases ks <;> rfl
  | succ f ih =>
    intro result ks hmem
    cases ks with
    | nil => rfl
    | cons k rest =>
      simp only [redistGo]
      split
      · exact ih result rest (fun k' hk' => hmem k' (by simp [hk']))
      · have hparts := splitStubRun_parts result (k :: rest)
        split
        · rfl
        · rename_i owner rest3 hsr
          have hmem2 : ∀ k' ∈ (splitStubRun result (k :: rest)).1 ++ owner :: rest3,
              k' ∈ keysOf result := by
            intro k' hk'
            refine hmem k' ?_
            rw [← hparts, hsr]
            exact hk'
          have howner : owner ∈ keysOf result := hmem2 owner (by simp)
          have hrest3 : ∀ k' ∈ rest3, k' ∈ keysOf result := by
            intro k' hk'
            exact hmem2 k' (by simp [hk'])
          split
          · exact ih result rest3 hrest3
          · split
            · exact ih result rest3 hrest3
            · have hstubs : ∀ k' ∈ (splitStubRun result (k :: rest)).1, k' ∈ keysOf result := by
                intro k' hk'
                exact hmem2 k' (by simp [hk'])
              have hgen : ∀ (bloks : List Str) (v : Str),
                  keysOf (redistGo f (setK (assignStubs result
                    (splitStubRun result (k :: rest)).1 bloks) owner v) rest3) =
                  keysOf result := by
                intro bloks v
                have hk2 : keysOf (assignStubs result
                    (splitStubRun result (k :: rest)).1 bloks) = keysOf result :=
                  keysOf_assignStubs _ bloks result hstubs
                rw [ih _ rest3 ?_]
                · rw [keysOf_setK_of_mem _ (by rw [hk2]; exact howner), hk2]
                · intro k' hk'
                  rw [keysOf_setK_of_mem _ (by rw [hk2]; exact howner), hk2]
                  exact hrest3 k' hk'
              exact hgen _ _


theorem paddleMatchAt_group {l : Str} {cn : Nat} {g : Str}
    (h : paddleMatchAt l = some (cn, g)) : goodGroup g := by
  simp only [paddleMatchAt] at h
  obtain ⟨ws0, hg0⟩ : ∃ x, l.takeWhile pySpace = x := ⟨_, rfl⟩
  rw [hg0] at h
  obtain ⟨r1, hg1⟩ : ∃ x, l.drop ws0.length = x := ⟨_, rfl⟩
  rw [hg1] at h
  obtain ⟨d, hgd⟩ : ∃ x, takeDigits r1 = x := ⟨_, rfl⟩
  rw [hgd] at h
  obtain ⟨r2, hg2⟩ : ∃ x, r1.drop d.length = x := ⟨_, rfl⟩
  rw [hg2] at h
  have hdall : ∀ c ∈ d, isDigitC c = true := by
    rw [← hgd]
    exact fun c hc => twMem hc
  split at h
  · simp at h
  · rename_i hdne
    have hdnil : d ≠ [] := by
      intro hh
      rw [hh] at hdne
      exact hdne rfl
    obtain ⟨sub, hgs⟩ : ∃ x, (match r2 with
        | '.' :: c :: _ => if isDigitC c = true then '.' :: takeDigits r2.tail else []
        | _ => ([] : Str)) = x := ⟨_, rfl⟩
    have hshape : sub = [] ∨ ∃ e, sub = '.' :: e := by
      rw [← hgs]
      split
      · split
        · exact Or.inr ⟨_, rfl⟩
        · exact Or.inl rfl
      · exact Or.inl rfl
    rw [hgs] at h
    have hg : g = d ++ sub := by
      cases h1 : alt1Go (r2.drop sub.length) 0 none with
      | some j =>
        rw [h1] at h
        simp only [Option.some.injEq, Prod.mk.injEq] at h
        exact h.2.symm
      | none =>
        rw [h1] at h
        simp only [] at h
        cases h2 : alt2End (r2.drop sub.length) with
        | some j =>
          rw [h2] at h
          simp only [Option.some.injEq, Prod.mk.injEq] at h
          exact h.2.symm
        | none =>
          rw [h2] at h
          simp at h
    have hdw : ∀ c ∈ d, (c != '.') = true := fun c hc => digit_ne_dot (hdall c hc)
    have htw : g.takeWhile (· != '.') = d := by
      rw [hg, twApp hdw]
      rcases hshape with h0 | ⟨e, he⟩
      · rw [h0]
        simp
      · rw [he]
        simp [List.takeWhile_cons]
    constructor
    · rw [htw]
      exact ⟨hdnil, hdall⟩
    · intro hcont
      rcases hshape with h0 | ⟨e, he⟩
      · rw [hg, h0, List.append_nil]
        exact ⟨hdnil, hdall⟩
      · rw [hg, he] at hcont
        simp [List.contains_eq_any_beq] at hcont

theorem paddleScan_groups :
    ∀ (f : Nat) (l : Str) (a : Bool) (p : Nat),
      ∀ mm ∈ paddleScan f l a p, goodGroup mm.2.2 := by
  intro f
  induction f with
  | zero =>
    intro l a p mm hm
    cases l <;> simp [paddleScan] at hm
  | succ f ih =>
    intro l a p mm hm
    cases l with
    | nil => simp [paddleScan] at hm
    | cons c t =>
      cases a with
      | false => exact ih t (c == '\n') (p + 1) mm hm
      | true =>
        simp only [paddleScan, if_true] at hm
        cases hmt : paddleMatchAt (c :: t) with
        | none =>
          rw [hmt] at hm
          exact ih t (c == '\n') (p + 1) mm hm
        | some cg =>
          obtain ⟨consumed, g⟩ := cg
          rw [hmt] at hm
          simp only [] at hm
          rcases List.mem_cons.mp hm with h' | h'
          · subst h'
            exact paddleMatchAt_group hmt
          · exact ih _ _ (p + consumed) mm h'

theorem paddleBuild_keys (text : Str) :
    ∀ (ms : List (Nat × Nat × Str)) (m : CaseMap),
      (∀ mm ∈ ms, goodGroup mm.2.2) →
      (∀ k ∈ keysOf m, k ≠ [] ∧ ∀ c ∈ k, isDigitC c = true) →
      (keysOf m).Nodup →
      (∀ k ∈ keysOf (paddleBuild text ms m), k ≠ [] ∧ ∀ c ∈ k, isDigitC c = true) ∧
        (keysOf (paddleBuild text ms m)).Nodup := by
  intro ms
  induction ms with
  | nil => exact fun m _ h2 h3 => ⟨h2, h3⟩
  | cons a ms ih =>
    intro m hg h2 h3
    obtain ⟨a0, b0, g0⟩ := a
    have hgood : goodGroup g0 := by simpa using hg (a0, b0, g0) (by simp)
    obtain ⟨⟨htne, htdig⟩, hnodot⟩ := hgood
    have hM2 : ∀ (block : Str),
        (∀ k ∈ keysOf (if g0.contains '.' then
            if hasKey m (g0.takeWhile (· != '.')) then
              setK m (g0.takeWhile (· != '.'))
                (getDM m (g0.takeWhile (· != '.')) ++ "\n\n".data ++
                  connCaseMarker g0 ++ block)
            else setK m (g0.takeWhile (· != '.')) (connCaseMarker g0 ++ block)
          else setK m g0 block), k ≠ [] ∧ ∀ c ∈ k, isDigitC c = true) ∧
        (keysOf (if g0.contains '.' then
            if hasKey m (g0.takeWhile (· != '.')) then
              setK m (g0.takeWhile (· != '.'))
                (getDM m (g0.takeWhile (· != '.')) ++ "\n\n".data ++
                  connCaseMarker g0 ++ block)
            else setK m (g0.takeWhile (· != '.')) (connCaseMarker g0 ++ block)
          else setK m g0 block)).Nodup := by
      intro block
      constructor
      · split
        · split
          · exact keys_pred_setK _ h2 ⟨htne, htdig⟩
          · exact keys_pred_setK _ h2 ⟨htne, htdig⟩
        · rename_i hcont
          have hcf : g0.contains '.' = false := by
            revert hcont
            cases g0.contains '.' <;> simp
          exact keys_pred_setK _ h2 (hnodot hcf)
      · split
        · split
          · exact nodup_keysOf_setK _ h3
          · exact nodup_keysOf_setK _ h3
        · exact nodup_keysOf_setK _ h3
    cases ms with
    | nil =>
      rw [paddleBuild_cons_nil]
      exact hM2 _
    | cons a1 ms' =>
      obtain ⟨a1v, b1v, g1v⟩ := a1
      rw [paddleBuild_cons_cons]
      exact ih _ (fun mm hm => hg mm (by simp [hm])) (hM2 _).1 (hM2 _).2

theorem keysOf_driftStep {m : CaseMap} {cur nxt : Str} (h1 : cur ∈ keysOf m)
    (h2 : nxt ∈ keysOf m) : keysOf (driftStep m cur nxt) = keysOf m := by
  have hgen : ∀ (vA vB : Str), keysOf (setK (setK m cur vA) nxt vB) = keysOf m := by
    intro vA vB
    have hn : nxt ∈ keysOf (setK m cur vA) := by
      rw [keysOf_setK_of_mem _ h1]
      exact h2
    rw [keysOf_setK_of_mem _ hn, keysOf_setK_of_mem _ h1]
  simp only [driftStep]
  split
  · rfl
  · split
    · exact hgen _ _
    · rfl

theorem keysOf_driftFold :
    ∀ (f : Nat) (m : CaseMap) (ks : List Str),
      (∀ k ∈ ks, k ∈ keysOf m) → keysOf (driftFold f m ks) = keysOf m := by
  intro f
  induction f with
  | zero =>
    intro m ks _
    match ks with
    | [] => rfl
    | [k] => rfl
    | k1 :: k2 :: rest => rfl
  | succ f ih =>
    intro m ks hmem
    match ks with
    | [] => rfl
    | [k] => rfl
    | k1 :: k2 :: rest =>
      rw [show driftFold (f + 1) m (k1 :: k2 :: rest) =
          driftFold f (driftStep m k1 k2) (k2 :: rest) from rfl]
      have hds : keysOf (driftStep m k1 k2) = keysOf m :=
        keysOf_driftStep (hmem k1 (by simp)) (hmem k2 (by simp))
      rw [ih _ (k2 :: rest) ?_, hds]
      intro k hk
      rw [hds]
      exact hmem k (by simp [hk])

theorem keysOf_repair (cases : CaseMap) :
    keysOf (_repair_layout_drift cases) = keysOf cases := by
  simp only [_repair_layout_drift]
  exact keysOf_driftFold _ _ _ (fun k hk => mem_sortKeysNum hk)

theorem keysOf_redistribute (cases : CaseMap) :
    keysOf (_azure_redistribute_blobs cases) = keysOf cases := by
  simp only [_azure_redistribute_blobs]
  exact keysOf_redistGo _ _ _ (fun k hk => mem_sortKeysNum hk)

/-- C3 (amended): tesseract and azure keys are canonical decimal numerals
(`natStr` of a natural: no leading zeros, no dot) and pairwise distinct; paddle
keys are pairwise distinct nonempty digit strings (hence dot-free), but not
canonical — leading zeros survive (see `C3_counterexample`). -/
theorem C3_keys_amended (text : Str) :
    ((∀ k ∈ keysOf (segment_cases_tesseract text), ∃ n, k = natStr n) ∧
      (keysOf (segment_cases_tesseract text)).Nodup) ∧
    ((∀ k ∈ keysOf (segment_cases_azure text), ∃ n, k = natStr n) ∧
      (keysOf (segment_cases_azure text)).Nodup) ∧
    ((∀ k ∈ keysOf (segment_cases_paddle text), k ≠ [] ∧ ∀ c ∈ k, isDigitC c = true) ∧
      (keysOf (segment_cases_paddle text)).Nodup) := by
  refine ⟨?_, ?_, ?_⟩
  · simp only [segment_cases_tesseract]
    refine tessFold_keys _ _ ?_ ?_ ?_
    · intro k hk
      simp [keysOf] at hk
    · intro s hs
      cases hs
    · simp [keysOf]
  · simp only [segment_cases_azure]
    rw [keysOf_redistribute]
    simp only [azureSegmentPre]
    refine azureFold_keys _ _ _ ?_ ?_ ?_
    · intro k hk
      simp [keysOf] at hk
    · intro s hs
      cases hs
    · simp [keysOf]
  · simp only [segment_cases_paddle]
    cases hpm : paddleMatches text with
    | nil =>
      constructor
      · intro k hk
        simp [keysOf] at hk
      · simp [keysOf]
    | cons mm rest =>
      simp only []
      rw [keysOf_repair]
      refine paddleBuild_keys text (mm :: rest) [] ?_ ?_ ?_
      · intro mm' hm'
        refine paddleScan_groups (text.length + 1) text true 0 mm' ?_
        rw [show paddleScan (text.length + 1) text true 0 = paddleMatches text from rfl, hpm]
        exact hm'
      · intro k hk
        simp [keysOf] at hk
      · simp [keysOf]

/-- C3 counterexample: the paddle pipeline keeps the literal matched digits as
the key, so `"007"` — which is not the decimal representation of any natural
number (leading zeros) — appears as a top-level key. -/
theorem C3_counterexample :
    keysOf (segment_cases_paddle ("007\nAAA").data) = [("007").data] ∧
    (∀ n : Nat, ("007").data ≠ natStr n) := by
  constructor
  · decide
  · intro n h
    have hh : (natStr n).head? = some '0' := by
      rw [← h]
      rfl
    have h0 : n = 0 := natStr_head_zero hh
    subst h0
    exact absurd h (by decide)

/-- `findSubGo` finds an occurrence no later than any given one. -/
theorem findSubGo_min (pat : Str) :
    ∀ (s : Str) (i : Nat) (pp qq : Str), s = pp ++ pat ++ qq →
      ∃ q0, findSubGo pat s i = some q0 ∧ q0 ≤ i + pp.length := by
  intro s
  induction s with
  | nil =>
    intro i pp qq hdec
    have hpp : pp = [] := by
      cases pp with
      | nil => rfl
      | cons a t => simp at hdec
    subst hpp
    have hpat : pat = [] := by
      cases pat with
      | nil => rfl
      | cons a t => simp at hdec
    simp [findSubGo, hpat, startsWithS]
  | cons c t ih =>
    intro i pp qq hdec
    by_cases hsw : startsWithS (c :: t) pat = true
    · exact ⟨i, by simp [findSubGo, hsw], by omega⟩
    · have hpp : ∃ c0 pp', pp = c0 :: pp' := by
        cases pp with
        | nil =>
          exfalso
          apply hsw
          rw [hdec]
          simp only [List.nil_append]
          exact startsWith_append_self pat qq
        | cons a t' => exact ⟨a, t', rfl⟩
      obtain ⟨c0, pp', rfl⟩ := hpp
      simp only [List.cons_append, List.cons.injEq] at hdec
      obtain ⟨hc, hdec'⟩ := hdec
      obtain ⟨q0, hq0, hle⟩ := ih (i + 1) pp' qq hdec'
      refine ⟨q0, ?_, by simp [List.length_cons]; omega⟩
      simp [findSubGo, hsw, hq0]

theorem findSub_min {s pat pp qq : Str} (h : s = pp ++ pat ++ qq) :
    ∃ q0, findSub s pat = some q0 ∧ q0 ≤ pp.length := by
  obtain ⟨q0, h1, h2⟩ := findSubGo_min pat s 0 pp qq h
  exact ⟨q0, h1, by omega⟩

theorem findSub_none_not_subseg {s pat : Str} (h : findSub s pat = none) :
    ¬ SubSeg pat s := by
  intro hs
  obtain ⟨pp, qq, hdec⟩ := hs
  obtain ⟨q0, h1, _⟩ := findSub_min hdec
  rw [h] at h1
  cases h1

/-- A needle-anchored substring of a value survives one drift-repair step: the
step either leaves the value, prepends to it, or truncates only the part
before the first `connCaseNeedle` occurrence. -/
theorem driftStep_subseg_needle {m : CaseMap} {cur nxt k u v : Str}
    (hv : lookupM m k = some v) (hs : SubSeg (connCaseNeedle ++ u) v) :
    ∃ v', lookupM (driftStep m cur nxt) k = some v' ∧ SubSeg (connCaseNeedle ++ u) v' := by
  obtain ⟨pp, qq, hdec⟩ := hs
  have hsv : SubSeg (connCaseNeedle ++ u) v := ⟨pp, qq, hdec⟩
  have hdec' : v = pp ++ connCaseNeedle ++ (u ++ qq) := by
    rw [hdec]
    simp [List.append_assoc]
  have hdecR : v = pp ++ (connCaseNeedle ++ (u ++ qq)) := by
    rw [hdec]
    simp [List.append_assoc]
  cases hq : findSub (getDM m cur) connCaseNeedle with
  | none =>
    have hkc : k ≠ cur := by
      intro hk
      subst hk
      have hgd : getDM m k = v := by simp [getDM, hv]
      obtain ⟨q0, h1, _⟩ := @findSub_min _ connCaseNeedle _ _
        (by rw [hgd]; exact hdec' : getDM m k = pp ++ connCaseNeedle ++ (u ++ qq))
      rw [hq] at h1
      cases h1
    simp only [driftStep, hq]
    split
    · exact ⟨v, hv, hsv⟩
    · rename_i p hlast
      split
      · by_cases hk2 : k = nxt
        · subst hk2
          refine ⟨_, lookup_setK_self _ _ _, ?_⟩
          have hgi : getDM (setK m cur (stripS (List.take p (getDM m cur)) ++ [])) k =
              v := by
            rw [getDM_setK_ne _ hkc]
            simp [getDM, hv]
          rw [hgi]
          exact subseg_app_left _ (subseg_cons _ hsv)
        · rw [lookup_setK_ne _ _ hk2, lookup_setK_ne _ _ hkc]
          exact ⟨v, hv, hsv⟩
      · exact ⟨v, hv, hsv⟩
  | some q0 =>
    have hCN : k = cur → ∀ w : Str,
        SubSeg (connCaseNeedle ++ u) (w ++ List.drop q0 (getDM m cur)) := by
      intro hk w
      subst hk
      have hgd : getDM m k = v := by simp [getDM, hv]
      obtain ⟨q1, h1, hle⟩ := @findSub_min _ connCaseNeedle _ _
        (by rw [hgd]; exact hdec' : getDM m k = pp ++ connCaseNeedle ++ (u ++ qq))
      rw [hq] at h1
      cases h1
      have hdrop : List.drop q0 (getDM m k) = List.drop q0 pp ++
          (connCaseNeedle ++ (u ++ qq)) := by
        rw [hgd, hdecR]
        exact List.drop_append_of_le_length hle
      rw [hdrop]
      exact ⟨w ++ List.drop q0 pp, qq, by simp [List.append_assoc]⟩
    simp only [driftStep, hq]
    split
    · exact ⟨v, hv, hsv⟩
    · rename_i p hlast
      split
      · by_cases hk2 : k = nxt
        · subst hk2
          refine ⟨_, lookup_setK_self _ _ _, ?_⟩
          by_cases hkc : k = cur
          · have hgi : getDM (setK m cur (stripS (List.take p (List.take q0 (getDM m cur)))
                ++ List.drop q0 (getDM m cur))) k =
                stripS (List.take p (List.take q0 (getDM m cur)))
                  ++ List.drop q0 (getDM m cur) := by
              rw [hkc]
              exact getDM_setK_self _ _ _
            rw [hgi]
            exact subseg_app_left _ (subseg_cons _ (hCN hkc _))
          · have hgi : getDM (setK m cur (stripS (List.take p (List.take q0 (getDM m cur)))
                ++ List.drop q0 (getDM m cur))) k = v := by
              rw [getDM_setK_ne _ hkc]
              simp [getDM, hv]
            rw [hgi]
            exact subseg_app_left _ (subseg_cons _ hsv)
        · by_cases hkc : k = cur
          · subst hkc
            rw [lookup_setK_ne _ _ hk2, lookup_setK_self]
            exact ⟨_, rfl, hCN rfl _⟩
          · rw [lookup_setK_ne _ _ hk2, lookup_setK_ne _ _ hkc]
            exact ⟨v, hv, hsv⟩
      · exact ⟨v, hv, hsv⟩

theorem driftFold_subseg_needle :
    ∀ (f : Nat) (m : CaseMap) (ks : List Str) {k u v : Str},
      lookupM m k = some v → SubSeg (connCaseNeedle ++ u) v →
      ∃ v', lookupM (driftFold f m ks) k = some v' ∧ SubSeg (connCaseNeedle ++ u) v' := by
  intro f
  induction f with
  | zero =>
    intro m ks k u v hv hs
    match ks with
    | [] => exact ⟨v, hv, hs⟩
    | [k1] => exact ⟨v, hv, hs⟩
    | k1 :: k2 :: rest => exact ⟨v, hv, hs⟩
  | succ f ih =>
    intro m ks k u v hv hs
    match ks with
    | [] => exact ⟨v, hv, hs⟩
    | [k1] => exact ⟨v, hv, hs⟩
    | k1 :: k2 :: rest =>
      rw [show driftFold (f + 1) m (k1 :: k2 :: rest) =
          driftFold f (driftStep m k1 k2) (k2 :: rest) from rfl]
      obtain ⟨v1, hv1, hs1⟩ := @driftStep_subseg_needle _ k1 k2 _ _ _ hv hs
      exact ih _ (k2 :: rest) hv1 hs1

theorem repair_subseg_needle {cases : CaseMap} {k u v : Str}
    (hv : lookupM cases k = some v) (hs : SubSeg (connCaseNeedle ++ u) v) :
    ∃ v', lookupM (_repair_layout_drift cases) k = some v' ∧
      SubSeg (connCaseNeedle ++ u) v' := by
  simp only [_repair_layout_drift]
  exact driftFold_subseg_needle _ _ _ hv hs

/-- A key created by `paddleBuild` stays present. -/
theorem paddleBuild_hasKey_mono (text : Str) :
    ∀ (ms : List (Nat × Nat × Str)) (m : CaseMap) (k : Str),
      hasKey m k = true → hasKey (paddleBuild text ms m) k = true := by
  intro ms
  induction ms with
  | nil => exact fun m k h => h
  | cons a ms ih =>
    intro m k h
    obtain ⟨a0, b0, g0⟩ := a
    have hstep : ∀ kk v : Str, hasKey (setK m kk v) k = true := by
      intro kk v
      by_cases hkk : k = kk
      · subst hkk
        exact hasKey_setK_self _ _ _
      · rw [hasKey_setK_ne _ hkk]
        exact h
    cases ms with
    | nil =>
      rw [paddleBuild_cons_nil]
      split
      · split
        · exact hstep _ _
        · exact hstep _ _
      · exact hstep _ _
    | cons a1 ms' =>
      obtain ⟨a1v, b1v, g1v⟩ := a1
      rw [paddleBuild_cons_cons]
      refine ih _ k ?_
      split
      · split
        · exact hstep _ _
        · exact hstep _ _
      · exact hstep _ _

/-- Every match in the list leaves its (undotted) key present in the built map. -/
theorem paddleBuild_creates (text : Str) :
    ∀ (ms : List (Nat × Nat × Str)) (m : CaseMap) (mm : Nat × Nat × Str),
      mm ∈ ms →
      hasKey (paddleBuild text ms m) (mm.2.2.takeWhile (· != '.')) = true := by
  intro ms
  induction ms with
  | nil => intro m mm hm; simp at hm
  | cons a ms ih =>
    intro m mm hm
    obtain ⟨a0, b0, g0⟩ := a
    rcases List.mem_cons.mp hm with h' | h'
    · subst h'
      have hkey : ∀ (m2 : CaseMap), (g0.contains '.' = true →
          hasKey m2 (g0.takeWhile (· != '.')) = true) →
          (g0.contains '.' = false → hasKey m2 g0 = true) →
          hasKey m2 ((a0, b0, g0).2.2.takeWhile (· != '.')) = true := by
        intro m2 hdot hnodot
        by_cases hc : g0.contains '.' = true
        · exact hdot hc
        · have hcf : g0.contains '.' = false := by
            revert hc
            cases g0.contains '.' <;> simp
          have hall : ∀ c ∈ g0, (c != '.') = true := by
            intro c hcm
            have : c ≠ '.' := by
              intro hh
              subst hh
              rw [List.contains_eq_any_beq] at hcf
              simp at hcf
              exact absurd rfl (hcf '.' hcm)
            simpa [bne] using this
          have htw : g0.takeWhile (· != '.') = g0 := twSelf hall
          simp only []
          rw [htw]
          exact hnodot hcf
      cases ms with
      | nil =>
        rw [paddleBuild_cons_nil]
        refine hkey _ ?_ ?_
        · intro hc
          rw [if_pos hc]
          split
          · exact hasKey_setK_self _ _ _
          · exact hasKey_setK_self _ _ _
        · intro hcf
          rw [if_neg (by rw [hcf]; simp)]
          exact hasKey_setK_self _ _ _
      | cons a1 ms' =>
        obtain ⟨a1v, b1v, g1v⟩ := a1
        rw [paddleBuild_cons_cons]
        refine hkey _ ?_ ?_
        · intro hc
          refine paddleBuild_hasKey_mono text _ _ _ ?_
          rw [if_pos hc]
          split
          · exact hasKey_setK_self _ _ _
          · exact hasKey_setK_self _ _ _
        · intro hcf
          refine paddleBuild_hasKey_mono text _ _ _ ?_
          rw [if_neg (by rw [hcf]; simp)]
          exact hasKey_setK_self _ _ _
    · cases ms with
      | nil => simp at h'
      | cons a1 ms' =>
        obtain ⟨a1v, b1v, g1v⟩ := a1
        rw [paddleBuild_cons_cons]
        exact ih _ mm h'

/-- Later matches never overwrite an existing key unless an undotted group
equals it: they only append (or touch other keys). -/
theorem paddleBuild_extend (text : Str) :
    ∀ (ms : List (Nat × Nat × Str)) (m : CaseMap) (k v : Str),
      lookupM m k = some v →
      (∀ mm ∈ ms, mm.2.2.contains '.' = false → mm.2.2 ≠ k) →
      ∃ w, lookupM (paddleBuild text ms m) k = some (v ++ w) := by
  intro ms
  induction ms with
  | nil => exact fun m k v hv _ => ⟨[], by simpa using hv⟩
  | cons a ms ih =>
    intro m k v hv hno
    obtain ⟨a0, b0, g0⟩ := a
    have hstep : ∀ block : Str, ∃ w1,
        lookupM (if g0.contains '.' then
          if hasKey m (g0.takeWhile (· != '.')) then
            setK m (g0.takeWhile (· != '.'))
              (getDM m (g0.takeWhile (· != '.')) ++ "\n\n".data ++
                connCaseMarker g0 ++ block)
          else setK m (g0.takeWhile (· != '.')) (connCaseMarker g0 ++ block)
        else setK m g0 block) k = some (v ++ w1) := by
      intro block
      by_cases hc : g0.contains '.' = true
      · rw [if_pos hc]
        by_cases hpk : g0.takeWhile (· != '.') = k
        · rw [hpk]
          have hhk : hasKey m k = true := by simp [hasKey, hv]
          rw [if_pos hhk, lookup_setK_self]
          have hgd : getDM m k = v := by simp [getDM, hv]
          exact ⟨"\n\n".data ++ connCaseMarker g0 ++ block, by rw [hgd]; simp⟩
        · have hkp : k ≠ g0.takeWhile (· != '.') := fun hh => hpk hh.symm
          split
          · rw [lookup_setK_ne _ _ hkp]
            exact ⟨[], by simpa using hv⟩
          · rw [lookup_setK_ne _ _ hkp]
            exact ⟨[], by simpa using hv⟩
      · have hcf : g0.contains '.' = false := by
          revert hc
          cases g0.contains '.' <;> simp
        have hgk : g0 ≠ k := hno (a0, b0, g0) (by simp) hcf
        have hkg : k ≠ g0 := fun hh => hgk hh.symm
        rw [if_neg (by rw [hcf]; simp), lookup_setK_ne _ _ hkg]
        exact ⟨[], by simpa using hv⟩
    have hno' : ∀ mm ∈ ms, mm.2.2.contains '.' = false → mm.2.2 ≠ k :=
      fun mm hm => hno mm (by simp [hm])
    cases ms with
    | nil =>
      rw [paddleBuild_cons_nil]
      exact hstep _
    | cons a1 ms' =>
      obtain ⟨a1v, b1v, g1v⟩ := a1
      rw [paddleBuild_cons_cons]
      obtain ⟨w1, hw1⟩ := hstep (stripS ((text.drop a0).take (a1v - a0)))
      obtain ⟨w2, hw2⟩ := ih _ k (v ++ w1) hw1 hno'
      exact ⟨w1 ++ w2, by rw [hw2]; simp [List.append_assoc]⟩


/-- Through the paddle build, a dotted match whose parent key was created by an
earlier match (or already exists) yields a value for that key containing the
connected-case marker followed by the block's stripped content, provided no
later undotted match reuses the key. -/
theorem paddleBuild_c2 (text : Str) (s0 e0 : Nat) (g : Str)
    (M2 : List (Nat × Nat × Str)) (hdot : g.contains '.' = true)
    (hM2 : ∀ mm ∈ M2, mm.2.2.contains '.' = false →
      mm.2.2 ≠ g.takeWhile (· != '.')) :
    ∀ (M1 : List (Nat × Nat × Str)) (m : CaseMap),
      ((∃ mm ∈ M1, mm.2.2.takeWhile (· != '.') = g.takeWhile (· != '.')) ∨
        hasKey m (g.takeWhile (· != '.')) = true) →
      ∃ v, lookupM (paddleBuild text (M1 ++ (s0, e0, g) :: M2) m)
          (g.takeWhile (· != '.')) = some v ∧
        SubSeg ("\n\n".data ++ connCaseMarker g ++
          stripS ((text.drop s0).take (nextStart text M2 - s0))) v := by
  intro M1
  induction M1 with
  | nil =>
    intro m hpre
    have hk : hasKey m (g.takeWhile (· != '.')) = true := by
      rcases hpre with ⟨mm, hmm, _⟩ | hk
      · simp at hmm
      · exact hk
    simp only [List.nil_append]
    cases M2 with
    | nil =>
      simp only [nextStart]
      rw [paddleBuild_cons_nil, if_pos hdot, if_pos hk, lookup_setK_self]
      refine ⟨_, rfl, ?_⟩
      refine ⟨getDM m (g.takeWhile (· != '.')), [], ?_⟩
      simp [List.append_assoc]
    | cons a1 ms' =>
      obtain ⟨a1v, b1v, g1v⟩ := a1
      simp only [nextStart]
      rw [paddleBuild_cons_cons]
      have hv1 : lookupM (if g.contains '.' then
          if hasKey m (g.takeWhile (· != '.')) then
            setK m (g.takeWhile (· != '.'))
              (getDM m (g.takeWhile (· != '.')) ++ "\n\n".data ++
                connCaseMarker g ++ stripS ((text.drop s0).take (a1v - s0)))
          else setK m (g.takeWhile (· != '.'))
            (connCaseMarker g ++ stripS ((text.drop s0).take (a1v - s0)))
        else setK m g (stripS ((text.drop s0).take (a1v - s0))))
          (g.takeWhile (· != '.')) =
          some (getDM m (g.takeWhile (· != '.')) ++ "\n\n".data ++
            connCaseMarker g ++ stripS ((text.drop s0).take (a1v - s0))) := by
        rw [if_pos hdot, if_pos hk, lookup_setK_self]
      obtain ⟨w, hw⟩ := paddleBuild_extend text ((a1v, b1v, g1v) :: ms') _ _ _ hv1 hM2
      refine ⟨_, hw, ?_⟩
      refine ⟨getDM m (g.takeWhile (· != '.')), w, ?_⟩
      simp [List.append_assoc]
  | cons a M1' ih =>
    intro m hpre
    obtain ⟨a0, b0, g0⟩ := a
    have hcreate : ∀ block : Str, g0.takeWhile (· != '.') = g.takeWhile (· != '.') →
        hasKey (if g0.contains '.' then
          if hasKey m (g0.takeWhile (· != '.')) then
            setK m (g0.takeWhile (· != '.'))
              (getDM m (g0.takeWhile (· != '.')) ++ "\n\n".data ++
                connCaseMarker g0 ++ block)
          else setK m (g0.takeWhile (· != '.')) (connCaseMarker g0 ++ block)
        else setK m g0 block) (g.takeWhile (· != '.')) = true := by
      intro block hgg
      by_cases hc : g0.contains '.' = true
      · rw [if_pos hc, ← hgg]
        split
        · exact hasKey_setK_self _ _ _
        · exact hasKey_setK_self _ _ _

      · have hcf : g0.contains '.' = false := by
          revert hc
          cases g0.contains '.' <;> simp
        have hall : ∀ c ∈ g0, (c != '.') = true := by
          intro c hcm
          have hne : c ≠ '.' := by
            intro hh
            subst hh
            rw [List.contains_eq_any_beq] at hcf
            simp at hcf
            exact absurd rfl (hcf '.' hcm)
          simpa [bne] using hne
        have htw : g0.takeWhile (· != '.') = g0 := twSelf hall
        rw [if_neg (by rw [hcf]; simp), ← hgg, htw]
        exact hasKey_setK_self _ _ _
    have hpres : ∀ block : Str, hasKey m (g.takeWhile (· != '.')) = true →
        hasKey (if g0.contains '.' then
          if hasKey m (g0.takeWhile (· != '.')) then
            setK m (g0.takeWhile (· != '.'))
              (getDM m (g0.takeWhile (· != '.')) ++ "\n\n".data ++
                connCaseMarker g0 ++ block)
          else setK m (g0.takeWhile (· != '.')) (connCaseMarker g0 ++ block)
        else setK m g0 block) (g.takeWhile (· != '.')) = true := by
      intro block hk
      have hgen : ∀ (kk vv : Str), hasKey (setK m kk vv) (g.takeWhile (· != '.')) = true := by
        intro kk vv
        by_cases hkk : g.takeWhile (· != '.') = kk
        · rw [hkk]
          exact hasKey_setK_self _ _ _
        · rw [hasKey_setK_ne _ hkk]
          exact hk
      split
      · split
        · exact hgen _ _
        · exact hgen _ _
      · exact hgen _ _
    have hpre2 : ∀ block : Str,
        (∃ mm ∈ M1', mm.2.2.takeWhile (· != '.') = g.takeWhile (· != '.')) ∨
        hasKey (if g0.contains '.' then
          if hasKey m (g0.takeWhile (· != '.')) then
            setK m (g0.takeWhile (· != '.'))
              (getDM m (g0.takeWhile (· != '.')) ++ "\n\n".data ++
                connCaseMarker g0 ++ block)
          else setK m (g0.takeWhile (· != '.')) (connCaseMarker g0 ++ block)
        else setK m g0 block) (g.takeWhile (· != '.')) = true := by
      intro block
      rcases hpre with ⟨mm, hmm, hkey⟩ | hk
      · rcases List.mem_cons.mp hmm with h' | h'
        · subst h'
          exact Or.inr (hcreate block (by simpa using hkey))
        · exact Or.inl ⟨mm, h', hkey⟩
      · exact Or.inr (hpres block hk)
    cases M1' with
    | nil =>
      simp only [List.cons_append, List.nil_append]
      rw [paddleBuild_cons_cons]
      exact ih _ (hpre2 _)
    | cons a1 ms' =>
      obtain ⟨a1v, b1v, g1v⟩ := a1
      simp only [List.cons_append]
      rw [paddleBuild_cons_cons]
      exact ih _ (hpre2 _)

theorem anchor_eq (g B : Str) :
    ("\n\n".data : Str) ++ connCaseMarker g ++ B =
      connCaseNeedle ++ (' ' :: (g ++ " ---\n".data ++ B)) := by
  have h20 : ("\n\n".data : Str) ++ "--- Connected Case ".data = connCaseNeedle ++ [' '] := by
    decide
  have key : ∀ X : Str, ("\n\n".data : Str) ++ ("--- Connected Case ".data ++ X) =
      connCaseNeedle ++ (' ' :: X) := by
    intro X
    rw [← List.append_assoc, h20]
    simp
  simp only [connCaseMarker, List.append_assoc]
  rw [key]

/-- C2 (amended): the connected-case merge law, per pipeline.  Tesseract: a
block parsed as `m.s` always lands under key `natStr m` as
`"--- Connected m.s ---"` followed by the block, whatever the block order.
Azure: the same holds for the merge-loop result (`azureSegmentPre`).  Paddle:
the marker reads `"--- Connected Case g ---"` (with the literal dotted group
`g`), the key is the literal digit prefix of `g`, and the law needs the parent
key to have been created by an earlier match and no later undotted match to
reuse it — a later parent overwrites the key (see `C2_counterexample` for the
marker wording). -/
theorem C2_connected_merge :
    (∀ (text : Str) (B1 : List Str) (b : Str) (B2 : List Str) (m s : Nat),
      tessBlocks text = B1 ++ b :: B2 →
      _tesseract_parse_serial b = some (m, some s) →
      ∃ v, lookupM (segment_cases_tesseract text) (natStr m) = some v ∧
        SubSeg (connMarker m s ++ '\n' :: b) v) ∧
    (∀ (text : Str) (L1 : List (Option Nat × Option Nat × Str)) (m s : Nat) (b : Str)
      (L2 : List (Option Nat × Option Nat × Str)),
      azureClassified text = L1 ++ (some m, some s, b) :: L2 →
      ∃ v, lookupM (azureSegmentPre text) (natStr m) = some v ∧
        SubSeg (connMarker m s ++ '\n' :: b) v) ∧
    (∀ (text : Str) (M1 : List (Nat × Nat × Str)) (s0 e0 : Nat) (g : Str)
      (M2 : List (Nat × Nat × Str)),
      paddleMatches text = M1 ++ (s0, e0, g) :: M2 →
      g.contains '.' = true →
      (∃ mm ∈ M1, mm.2.2.takeWhile (· != '.') = g.takeWhile (· != '.')) →
      (∀ mm ∈ M2, mm.2.2.contains '.' = false → mm.2.2 ≠ g.takeWhile (· != '.')) →
      ∃ v, lookupM (segment_cases_paddle text) (g.takeWhile (· != '.')) = some v ∧
        SubSeg ("\n\n".data ++ connCaseMarker g ++
          stripS ((text.drop s0).take (nextStart text M2 - s0))) v) := by
  refine ⟨?_, ?_, ?_⟩
  · intro text B1 b B2 m s hsp hparse
    simp only [segment_cases_tesseract]
    rw [hsp, tessFold_append]
    obtain ⟨m1, lk1, hst1⟩ : ∃ m1 lk1, tessFold B1 ([], none) = (m1, lk1) := ⟨_, _, rfl⟩
    rw [hst1]
    rw [show tessFold (b :: B2) (m1, lk1) = tessFold B2 (tessStep m1 lk1 b) from rfl]
    have hstep : tessStep m1 lk1 b =
        (setK m1 (natStr m) (getDM m1 (natStr m) ++ "\n\n".data ++
          connMarker m s ++ '\n' :: b), some (natStr m)) := by
      simp [tessStep, hparse]
    rw [hstep]
    have hv1 : lookupM (setK m1 (natStr m) (getDM m1 (natStr m) ++ "\n\n".data ++
        connMarker m s ++ '\n' :: b)) (natStr m) = some (getDM m1 (natStr m) ++
        "\n\n".data ++ connMarker m s ++ '\n' :: b) := lookup_setK_self _ _ _
    obtain ⟨w, hw⟩ := tessFold_extend B2 (setK m1 (natStr m) (getDM m1 (natStr m) ++
      "\n\n".data ++ connMarker m s ++ '\n' :: b), some (natStr m)) hv1
    refine ⟨_, hw, ?_⟩
    refine ⟨getDM m1 (natStr m) ++ "\n\n".data, w, ?_⟩
    simp [List.append_assoc]
  · intro text L1 m s b L2 hsp
    simp only [azureSegmentPre]
    rw [hsp, azureFold_append]
    obtain ⟨m1, lk1, hst1⟩ : ∃ m1 lk1, azureFold L1 ([], none) = (m1, lk1) := ⟨_, _, rfl⟩
    rw [hst1]
    rw [show azureFold ((some m, some s, b) :: L2) (m1, lk1) =
        azureFold L2 (azureStep m1 lk1 (some m, some s, b)) from rfl]
    by_cases hh : hasKey m1 (natStr m) = true
    · have hstep : azureStep m1 lk1 (some m, some s, b) =
          (setK m1 (natStr m) (getDM m1 (natStr m) ++ "\n\n".data ++
            connMarker m s ++ '\n' :: b), some (natStr m)) := by
        simp [azureStep, hh]
      rw [hstep]
      have hv1 := lookup_setK_self m1 (natStr m) (getDM m1 (natStr m) ++ "\n\n".data ++
        connMarker m s ++ '\n' :: b)
      obtain ⟨v2, hv2, hs2⟩ := azureFold_subseg L2 (setK m1 (natStr m)
        (getDM m1 (natStr m) ++ "\n\n".data ++ connMarker m s ++ '\n' :: b),
        some (natStr m)) hv1
      refine ⟨v2, hv2, subseg_trans ?_ hs2⟩
      refine ⟨getDM m1 (natStr m) ++ "\n\n".data, [], ?_⟩
      simp [List.append_assoc]
    · have hstep : azureStep m1 lk1 (some m, some s, b) =
          (setK m1 (natStr m) (connMarker m s ++ '\n' :: b), some (natStr m)) := by
        simp [azureStep, hh]
      rw [hstep]
      have hv1 := lookup_setK_self m1 (natStr m) (connMarker m s ++ '\n' :: b)
      obtain ⟨v2, hv2, hs2⟩ := azureFold_subseg L2 (setK m1 (natStr m)
        (connMarker m s ++ '\n' :: b), some (natStr m)) hv1
      refine ⟨v2, hv2, subseg_trans ?_ hs2⟩
      exact subseg_refl _
  · intro text M1 s0 e0 g M2 hm hdot hparent hM2
    obtain ⟨mm0, hmm0, hkey0⟩ := hparent
    obtain ⟨a, M1', rfl⟩ : ∃ a M1'', M1 = a :: M1'' := by
      cases M1 with
      | nil => simp at hmm0
      | cons a t => exact ⟨a, t, rfl⟩
    rw [show segment_cases_paddle text =
        _repair_layout_drift (paddleBuild text (a :: (M1' ++ (s0, e0, g) :: M2)) [])
      from by simp [segment_cases_paddle, hm]]
    obtain ⟨v, hv, hsub⟩ := paddleBuild_c2 text s0 e0 g M2 hdot hM2
      (a :: M1') [] (Or.inl ⟨mm0, hmm0, hkey0⟩)
    rw [anchor_eq] at hsub
    obtain ⟨v', hv', hs'⟩ := repair_subseg_needle hv hsub
    rw [anchor_eq]
    exact ⟨v', by simpa using hv', hs'⟩

/-- C2 counterexample: in the paddle pipeline, the block matched as sub-serial
`1.1` lands under key `"1"` with marker `"--- Connected Case 1.1 ---"`; the
substring `"--- Connected 1.1 ---"` demanded by the claim never appears. -/
theorem C2_counterexample :
    paddleMatches ("1\nFOO\n1.1\nBAR").data =
      [(0, 1, ("1").data), (6, 9, ("1.1").data)] ∧
    hasKey (segment_cases_paddle ("1\nFOO\n1.1\nBAR").data) (("1").data) = true ∧
    ¬ SubSeg (("--- Connected 1.1 ---").data)
        (getDM (segment_cases_paddle ("1\nFOO\n1.1\nBAR").data) (("1").data)) := by
  refine ⟨by decide, by decide, ?_⟩
  exact findSub_none_not_subseg (by decide)

theorem C2_witness :
    (∃ v, lookupM (segment_cases_tesseract ("1 FOO CORP\n\n1.1 BAR LTD").data)
        (natStr 1) = some v ∧
      SubSeg (connMarker 1 1 ++ '\n' :: ("1.1 BAR LTD").data) v) ∧
    (∃ v, lookupM (azureSegmentPre ("1.1 AAA\n1 BBB CCC").data) (natStr 1) = some v ∧
      SubSeg (connMarker 1 1 ++ '\n' :: ("1.1 AAA").data) v) ∧
    (∃ v, lookupM (segment_cases_paddle ("1\nFOO\n1.1\nBAR").data)
        (("1.1").data.takeWhile (· != '.')) = some v ∧
      SubSeg ("\n\n".data ++ connCaseMarker (("1.1").data) ++
        stripS (((("1\nFOO\n1.1\nBAR").data).drop 6).take
          (nextStart (("1\nFOO\n1.1\nBAR").data) [] - 6))) v) :=
  ⟨C2_connected_merge.1 ("1 FOO CORP\n\n1.1 BAR LTD").data [("1 FOO CORP").data]
      (("1.1 BAR LTD").data) [] 1 1 (by decide) (by decide),
   C2_connected_merge.2.1 ("1.1 AAA\n1 BBB CCC").data [] 1 1 (("1.1 AAA").data)
      [(some 1, none, ("1 BBB CCC").data)] (by decide),
   C2_connected_merge.2.2 ("1\nFOO\n1.1\nBAR").data [(0, 1, ("1").data)] 6 9
      (("1.1").data) [] (by decide) (by decide)
      ⟨(0, 1, ("1").data), by decide, by decide⟩ (by simp)⟩
